import Mathlib

/-!
# broken-dns: a shallow embedding of the resolver core

Go values are modelled as follows.

* `string` is `String`; byte-indexed code works on the character list.
* `error` is `Option String` (`none` is `nil`).
* `[]string` is `List String` (a nil slice is the empty list).
* `map[string]V` of the cache is a function `String → Option V`;
  `map[string]*queryResult`, which the code iterates, is an association list.
  The loops whose result does not depend on the order of iteration visit the
  entries in the order of the list; the loop of `GetAuthorativeNS`, whose
  result does, takes the order as a parameter (`RangeOrder`).
* `uint` is `Nat`; the counter `nameWork.Problems`, which the code only ever
  increases, is added to modulo two to the power 64 (`uintAdd`).
* a call either returns, blocks on a channel operation, or panics (`Outcome`).
-/

namespace BrokenDNS

/-! ## Go runtime: outcomes and channels -/

/-- How a call ends: it returns, it blocks on a channel operation that cannot
proceed in the current state, or it panics. -/
inductive Outcome (α : Type) where
  | ret (a : α)
  | blocks
  | panics
  deriving DecidableEq, Repr

/-- Go `error`: `none` is `nil`. -/
abbrev GoError := Option String

/-- A Go `chan error`: capacity, queued values, closed flag. -/
structure ErrChan where
  cap : Nat
  buf : List GoError
  closed : Bool
  deriving DecidableEq, Repr

/-- The call `make(chan error, n)`. -/
def makeChan (n : Nat) : ErrChan := { cap := n, buf := [], closed := false }

/-- Channel send `ch <- e`: panics on a closed channel, blocks on a full buffer. -/
def ErrChan.send (ch : ErrChan) (e : GoError) : Outcome ErrChan :=
  if ch.closed then .panics
  else if ch.buf.length < ch.cap then .ret { ch with buf := ch.buf ++ [e] }
  else .blocks

/-- Channel receive `<-ch`: takes the oldest queued value; on an empty closed
channel yields the zero value `nil`; on an empty open channel blocks. -/
def ErrChan.recv (ch : ErrChan) : Outcome (ErrChan × GoError) :=
  match ch.buf with
  | e :: rest => .ret ({ ch with buf := rest }, e)
  | [] => if ch.closed then .ret (ch, none) else .blocks

/-- The call `close(ch)`: panics on a closed channel. -/
def ErrChan.close (ch : ErrChan) : Outcome ErrChan :=
  if ch.closed then .panics else .ret { ch with closed := true }

/-- Map assignment `m[k] = v`. -/
def mapSet {V : Type} (m : String → Option V) (k : String) (v : V) : String → Option V :=
  fun k' => if k' = k then some v else m k'

/-! ## cache/tld_cache.go -/

/-- The struct `Cache[T]`; the mutexes carry no data. -/
structure Cache (T : Type) where
  cache : String → Option T
  locks : String → Option ErrChan

/-- The constructor `New`. -/
def Cache.New {T : Type} : Cache T := { cache := fun _ => none, locks := fun _ => none }

/-- The closure `f` returned by `AddCheck`: it captures the cache and the key. -/
structure AddFunc where
  key : String
  deriving DecidableEq, Repr

/-- `Cache.AddCheck`: returns the new cache, the publish closure (or nil) and the owner flag. -/
def Cache.AddCheck {T : Type} (c : Cache T) (key : String) : Cache T × Option AddFunc × Bool :=
  match c.locks key with
  | some _ => (c, none, false)
  | none => ({ c with locks := mapSet c.locks key (makeChan 1) }, some ⟨key⟩, true)

/-- The statement `c.locks[key] <- err` of the closure; a send on the nil channel of a
missing key blocks. -/
def Cache.sendLock {T : Type} (c : Cache T) (key : String) (err : GoError) : Outcome (Cache T) :=
  match c.locks key with
  | none => .blocks
  | some ch =>
    match ch.send err with
    | .ret ch1 => .ret { c with locks := mapSet c.locks key ch1 }
    | .blocks => .blocks
    | .panics => .panics

/-- The statement `close(c.locks[key])` of the closure; closing a nil channel panics. -/
def Cache.closeLock {T : Type} (c : Cache T) (key : String) : Outcome (Cache T) :=
  match c.locks key with
  | none => .panics
  | some ch =>
    match ch.close with
    | .ret ch1 => .ret { c with locks := mapSet c.locks key ch1 }
    | .blocks => .blocks
    | .panics => .panics

/-- Calling the closure returned by `AddCheck`: `f(value, err)`. The cache is returned
as it stands when the call ends, also when it ends by blocking or panicking. -/
def AddFunc.call {T : Type} (f : AddFunc) (c : Cache T) (value : T) (err : GoError) :
    Cache T × Outcome GoError :=
  let sent : Outcome (Cache T) :=
    match err with
    | some e => c.sendLock f.key (some e)
    | none => .ret c
  match sent with
  | .blocks => (c, .blocks)
  | .panics => (c, .panics)
  | .ret c1 =>
    let c2 : Cache T := { c1 with cache := mapSet c1.cache f.key value }
    match c2.closeLock f.key with
    | .ret c3 => (c3, .ret none)
    | .blocks => (c2, .blocks)
    | .panics => (c2, .panics)

/-- The error `fmt.Errorf("unsupported add: key already exists for %q", key)`. -/
def errKeyExists (key : String) : String :=
  "unsupported add: key already exists for \"" ++ key ++ "\""

/-- `Cache.Add`. -/
def Cache.Add {T : Type} (c : Cache T) (key : String) (value : T) : Cache T × Outcome GoError :=
  match c.AddCheck key with
  | (c1, some f, true) => f.call c1 value none
  | (c1, _, _) => (c1, .ret (some (errKeyExists key)))

/-- `Cache.Get`; `zero` is the zero value of `T`. -/
def Cache.Get {T : Type} (zero : T) (c : Cache T) (key : String) : T × Bool :=
  match c.cache key with
  | some v => (v, true)
  | none => (zero, false)

/-- The error `fmt.Errorf("key channel does not exist %q", key)`. -/
def errNoChannel (key : String) : String :=
  "key channel does not exist \"" ++ key ++ "\""

/-- `Cache.GetWait`; `zero` is the zero value of `T`. -/
def Cache.GetWait {T : Type} (zero : T) (c : Cache T) (key : String) :
    Cache T × Outcome (T × GoError) :=
  match c.locks key with
  | none => (c, .ret (zero, some (errNoChannel key)))
  | some ch =>
    match ch.recv with
    | .blocks => (c, .blocks)
    | .panics => (c, .panics)
    | .ret (ch1, err) =>
      let c1 : Cache T := { c with locks := mapSet c.locks key ch1 }
      match err with
      | some e => (c1, .ret (zero, some e))
      | none => (c1, .ret ((c1.cache key).getD zero, none))

/-! ### Sequences of cache calls -/

/-- One call on the cache. `publish key value err` is a call `f(value, err)` of the
closure that `AddCheck(key)` returned. -/
inductive CacheOp (T : Type) where
  | addCheck (key : String)
  | publish (key : String) (value : T) (err : GoError)
  | add (key : String) (value : T)
  | get (key : String)
  | getWait (key : String)

/-- The key a call is about. -/
def CacheOp.key {T : Type} : CacheOp T → String
  | .addCheck k => k
  | .publish k _ _ => k
  | .add k _ => k
  | .get k => k
  | .getWait k => k

/-- Whether the call is a call of the publish closure of `key`. -/
def CacheOp.isPublishOf {T : Type} (key : String) : CacheOp T → Bool
  | .publish k _ _ => decide (k = key)
  | _ => false

/-- Whether the call is `AddCheck(key)`. -/
def CacheOp.isAddCheckOf {T : Type} (key : String) : CacheOp T → Bool
  | .addCheck k => decide (k = key)
  | _ => false

/-- What a call returned. -/
inductive CacheRes (T : Type) where
  | addCheck (f : Option AddFunc) (first : Bool)
  | publish (o : Outcome GoError)
  | add (o : Outcome GoError)
  | get (v : T) (ok : Bool)
  | getWait (o : Outcome (T × GoError))

/-- Perform one call. -/
def Cache.step {T : Type} (zero : T) (c : Cache T) : CacheOp T → Cache T × CacheRes T
  | .addCheck k => ((c.AddCheck k).1, .addCheck (c.AddCheck k).2.1 (c.AddCheck k).2.2)
  | .publish k v e => (((⟨k⟩ : AddFunc).call c v e).1, .publish ((⟨k⟩ : AddFunc).call c v e).2)
  | .add k v => ((c.Add k v).1, .add (c.Add k v).2)
  | .get k => (c, .get (c.Get zero k).1 (c.Get zero k).2)
  | .getWait k => ((c.GetWait zero k).1, .getWait (c.GetWait zero k).2)

/-- Perform a sequence of calls, one after the other; returns the final cache and each
call with its result. -/
def Cache.run {T : Type} (zero : T) (c : Cache T) :
    List (CacheOp T) → Cache T × List (CacheOp T × CacheRes T)
  | [] => (c, [])
  | op :: ops =>
    let r := c.step zero op
    let rest := Cache.run zero r.1 ops
    (rest.1, (op, r.2) :: rest.2)

/-- The answers of the `AddCheck(key)` calls of a run, in call order. -/
def addCheckAnswers {T : Type} (key : String) :
    List (CacheOp T × CacheRes T) → List (Option AddFunc × Bool)
  | [] => []
  | (.addCheck k, .addCheck f first) :: rest =>
    if k = key then (f, first) :: addCheckAnswers key rest else addCheckAnswers key rest
  | _ :: rest => addCheckAnswers key rest

/-- A cache in which the key "com" has been claimed. -/
def claimedCom : Cache (List String) := (Cache.New.AddCheck "com").1

/-- The cache after the owner of "com" has published `value` together with the error
"timeout": `f, _ := c.AddCheck("com"); f(value, errors.New("timeout"))`. -/
def comErrored (value : List String) : Cache (List String) :=
  ((⟨"com"⟩ : AddFunc).call claimedCom value (some "timeout")).1

/-! ## Strings

Go compares, slices and indexes strings byte by byte. The functions below work on the
character list of a `String`; the only characters they inspect are the ASCII ones
`.`, `\` and `A`..`Z`. -/

/-- The slice `s[b:e]`. -/
def substr (s : String) (b e : Nat) : String := ⟨(s.data.take e).drop b⟩

/-- The slice `s[b:]`. -/
def substrFrom (s : String) (b : Nat) : String := ⟨s.data.drop b⟩

/-- Go's `a <= b` on strings: lexicographic on the characters. -/
def strLe (a b : String) : Bool := decide (a.data ≤ b.data)

/-- `sort.Strings`: the result of sorting is the increasing rearrangement of the input. -/
def sortStrings (l : List String) : List String :=
  l.insertionSort (fun a b => strLe a b = true)

/-- `strings.ToLower` on a string of ASCII characters: the letters `A`..`Z` are lowered.
The host names the DNS library returns are ASCII, other bytes being escaped; on a string
with other characters this function leaves them as they are, where Go lowers the upper-case
letters among them. -/
def ToLower (s : String) : String := ⟨s.data.map Char.toLower⟩

/-- `strings.TrimSuffix(s, ".")`. -/
def trimDot (s : String) : String :=
  if s.data.getLast? = some '.' then ⟨s.data.dropLast⟩ else s

/-! ## github.com/miekg/dns: labels.go and defaults.go

The resolver imports these functions from the DNS library; they are transcribed here. -/

/-- The inner loop of `NextLabel`: `j := i - 1; for j >= 0 && s[j] == '\\' { j-- }`,
returning the number `i - 1 - j` of backslashes that end right before index `i`. -/
def backslashesBefore (s : List Char) : Nat → Nat
  | 0 => 0
  | i + 1 => if s[i]? = some '\\' then backslashesBefore s i + 1 else 0

/-- The loop `for i = offset; i < len(s)-1; i++` of `NextLabel`; `n` is the number of
iterations left. An unescaped dot at `i` (the test `(j-i)%2 == 0` fails) ends the label. -/
def NextLabel.loop (s : List Char) : Nat → Nat → Nat × Bool
  | 0, i => (i + 1, true)
  | n + 1, i =>
    if s[i]? = some '.' ∧ (backslashesBefore s i + 1) % 2 ≠ 0 then (i + 1, false)
    else NextLabel.loop s n (i + 1)

/-- `dns.NextLabel`: the index of the start of the next label after `offset`, and whether
the end of the name was reached. -/
def NextLabel (s : String) (offset : Nat) : Nat × Bool :=
  if s = "" then (0, true)
  else NextLabel.loop s.data (s.data.length - 1 - offset) offset

/-- The loop `for { off, end = NextLabel(s, off); if end { return idx }; idx = append(idx, off) }`
of `Split`; `none` when the fuel runs out. -/
def Split.loop (s : String) : Nat → Nat → List Nat → Option (List Nat)
  | 0, _, _ => none
  | fuel + 1, off, idx =>
    if (NextLabel s off).2 then some idx
    else Split.loop s fuel (NextLabel s off).1 (idx ++ [(NextLabel s off).1])

/-- `dns.Split`: the start indexes of the labels of `s`; nil for the root name. The loop
ends within `len(s) + 1` rounds (`Split_loop_isSome`). -/
def Split (s : String) : List Nat :=
  if s = "." then [] else (Split.loop s (s.data.length + 1) 0 [0]).getD []

/-- The loop of `CountLabel`; `none` when the fuel runs out. -/
def CountLabel.loop (s : String) : Nat → Nat → Nat → Option Nat
  | 0, _, _ => none
  | fuel + 1, off, labels =>
    if (NextLabel s off).2 then some (labels + 1)
    else CountLabel.loop s fuel (NextLabel s off).1 (labels + 1)

/-- `dns.CountLabel`: the number of labels of `s`. -/
def CountLabel (s : String) : Nat :=
  if s = "." then 0 else (CountLabel.loop s (s.data.length + 1) 0 0).getD 0

/-- `dns.IsFqdn`: the name ends in a dot that is not escaped. -/
def IsFqdn (s : String) : Bool :=
  if s.data.getLast? ≠ some '.' then false
  else if s.data.dropLast.getLast? ≠ some '\\' then true
  else ((s.data.dropLast.reverse.takeWhile (fun c => c = '\\')).length + 1) % 2 ≠ 0

/-- `dns.Fqdn`. -/
def Fqdn (s : String) : String := if IsFqdn s then s else s ++ "."

/-- The helper `equal` of labels.go: equality up to the case of ASCII letters. -/
def equal (a b : String) : Bool := a.data.map Char.toLower == b.data.map Char.toLower

/-- The loop of `CompareDomainName` that walks both index lists from the right, with
`i1 = j1 - 1` and `i2 = j2 - 1`; it stops when `i1 < 0` or `i2 < 0`, that is when `j1` or
`j2` is 0. -/
def CompareDomainName.loop (s1 s2 : String) (l1 l2 : List Nat) : Nat → Nat → Nat → Nat
  | 0, _, n => n
  | j1 + 1, j2, n =>
    if j2 = 0 then n
    else if equal (substr s1 (l1.getD j1 0) (l1.getD (j1 + 1) 0))
        (substr s2 (l2.getD (j2 - 1) 0) (l2.getD j2 0)) then
      CompareDomainName.loop s1 s2 l1 l2 j1 (j2 - 1) (n + 1)
    else n

/-- `dns.CompareDomainName`: the number of labels `s1` and `s2` share, from the right. -/
def CompareDomainName (s1 s2 : String) : Nat :=
  if s1 = "." ∨ s2 = "." then 0
  else
    let l1 := Split s1
    let l2 := Split s2
    let j1 := l1.length - 1
    let j2 := l2.length - 1
    if equal (substrFrom s1 (l1.getD j1 0)) (substrFrom s2 (l2.getD j2 0)) then
      CompareDomainName.loop s1 s2 l1 l2 j1 j2 1
    else 0

/-- `dns.IsSubDomain`. -/
def IsSubDomain (parent child : String) : Bool :=
  CompareDomainName parent child == CountLabel parent

/-! ## util.go -/

/-- A Go `map[string]bool` used as a set: the keys, in the order of first insertion. -/
def setAdd (m : List String) (s : String) : List String := if s ∈ m then m else m ++ [s]

/-- `stringMapToArrayKeys`: the keys of the map, in the order of iteration. -/
def stringMapToArrayKeys (m : List String) : List String := m

/-- The loop `for _, end := range idx[1:]` of `SplitDomainNameWithParent`, returning the
labels and the final `begin`. -/
def SplitDomainNameWithParent.loop (s : String) (fqdnEnd : Nat) :
    List Nat → Nat → List String → List String × Nat
  | [], begin, labels => (labels, begin)
  | e :: rest, begin, labels =>
    SplitDomainNameWithParent.loop s fqdnEnd rest e (labels ++ [substr s begin fqdnEnd])

/-- `SplitDomainNameWithParent`. -/
def SplitDomainNameWithParent (s : String) : List String :=
  if s = "" then []
  else
    let idx := Split s
    let fqdnEnd := if IsFqdn s then s.data.length - 1 else s.data.length
    match idx with
    | [] => []
    | [_] => [substr s 0 fqdnEnd]
    | _ :: rest =>
      let r := SplitDomainNameWithParent.loop s fqdnEnd rest 0 []
      r.1 ++ [substr s r.2 fqdnEnd]

/-- `StringArrayEquals`. -/
def StringArrayEquals (a b : List String) : Bool :=
  if a.length ≠ b.length then false
  else (List.range a.length).all (fun i => a.getD i "" == b.getD i "")

/-- `StringArrayToMap`. -/
def StringArrayToMap (a : List String) : List String := a.foldl setAdd []

/-- `ExtraStrings`: the strings of `a` that are not in `b`. -/
def ExtraStrings (a b : List String) : List String :=
  a.filter (fun s => !decide (s ∈ StringArrayToMap b))

/-! ## query.go -/

/-- The thirteen root servers. -/
def rootServers : List String :=
  ["a.root-servers.net", "b.root-servers.net", "c.root-servers.net", "d.root-servers.net",
   "e.root-servers.net", "f.root-servers.net", "g.root-servers.net", "h.root-servers.net",
   "i.root-servers.net", "j.root-servers.net", "k.root-servers.net", "l.root-servers.net",
   "m.root-servers.net"]

/-- The constant `dnsRetry`. -/
def dnsRetry : Nat := 3

/-- A resource record of a DNS answer: an NS record with its host name, or any other record. -/
inductive RR where
  | NS (ns : String)
  | other
  deriving DecidableEq, Repr

/-- The fields of `dns.Msg` that the resolver reads. -/
structure Msg where
  Authoritative : Bool
  Answer : List RR
  Ns : List RR
  deriving DecidableEq, Repr

/-- The network as seen through `dnsClient.Exchange`: for a server address, a question
name and the number of the attempt, either an error or the answer. -/
abbrev Exchanger := String → String → Nat → Except String Msg

/-- `net.JoinHostPort`: a host that contains a colon or a percent sign is bracketed. -/
def JoinHostPort (host port : String) : String :=
  if ':' ∈ host.data ∨ '%' ∈ host.data then "[" ++ host ++ "]:" ++ port
  else host ++ ":" ++ port

/-- The struct `queryResult`. -/
structure queryResult where
  Err : GoError
  Authoritative : Bool
  NS : List String
  deriving DecidableEq, Repr

/-- The struct `queryGroup`; `Results` lists the entries of the map. -/
structure queryGroup where
  Domain : String
  Results : List (String × queryResult)
  NS : List String
  deriving DecidableEq, Repr

/-- Map assignment `m[k] = v` on an iterable map: the value of an existing key is replaced,
a new key is added. -/
def mapInsert {V : Type} (m : List (String × V)) (k : String) (v : V) : List (String × V) :=
  match m with
  | [] => [(k, v)]
  | (k0, v0) :: rest => if k0 = k then (k, v) :: rest else (k0, v0) :: mapInsert rest k v

/-- The order in which a `for ... range` loop visits the entries of a map. Go leaves it
unspecified and the runtime varies it from one loop to the next: any rearrangement of the
entries can occur. -/
structure RangeOrder where
  visit : List (String × queryResult) → List (String × queryResult)
  perm : ∀ m, (visit m).Perm m

/-- The order in which the entries were inserted. -/
def RangeOrder.insertion : RangeOrder := ⟨fun m => m, fun m => List.Perm.refl m⟩

/-- `queryGroup.GetAuthorativeNS`: the servers are appended in the order in which the loop
visits the map, given by `order`. -/
def queryGroup.GetAuthorativeNS (g : queryGroup) (order : RangeOrder) : List String :=
  (order.visit g.Results).foldl (fun out e => if e.2.Authoritative then out ++ [e.1] else out) []

/-- `queryGroup.allNS`. -/
def queryGroup.allNS (g : queryGroup) : List String :=
  let m := g.Results.foldl (fun m e => e.2.NS.foldl setAdd m) []
  sortStrings (stringMapToArrayKeys m)

/-- `cleanDomain`. -/
def cleanDomain (s : String) : String := ToLower (trimDot s)

/-- The retry loop of `queryNSServer`: attempt number `i`, with `n` further attempts left
after it; the loop stops at the first attempt without error. -/
def queryNSServer.retry (ex : Exchanger) (addr domain : String) : Nat → Nat → Except String Msg
  | 0, i => ex addr domain i
  | n + 1, i =>
    match ex addr domain i with
    | .ok m => .ok m
    | .error _ => queryNSServer.retry ex addr domain n (i + 1)

/-- The number of calls of `dnsClient.Exchange` that the retry loop of `queryNSServer` makes,
with the arguments of `queryNSServer.retry`: one for each attempt up to the first one
without error. -/
def queryNSServer.attempts (ex : Exchanger) (addr domain : String) : Nat → Nat → Nat
  | 0, _ => 1
  | n + 1, i =>
    match ex addr domain i with
    | .ok _ => 1
    | .error _ => queryNSServer.attempts ex addr domain n (i + 1) + 1

/-- The host names of the NS records among the given records, cleaned. -/
def nsNames : List RR → List String
  | [] => []
  | RR.NS ns :: rest => cleanDomain ns :: nsNames rest
  | RR.other :: rest => nsNames rest

/-- `queryNSServer`. -/
def queryNSServer (ex : Exchanger) (server domain : String) : List String × Bool × GoError :=
  match queryNSServer.retry ex (JoinHostPort server "53") (Fqdn domain) (dnsRetry - 1) 0 with
  | .error e => ([], false, some e)
  | .ok m => (sortStrings (nsNames (m.Answer ++ m.Ns)), m.Authoritative, none)

/-- The function each goroutine of `queryNSParallel` runs: it stores the result of its
server and returns nil. -/
def queryNSParallel.task (ex : Exchanger) (domain server : String) : queryResult × GoError :=
  let r := queryNSServer ex server domain
  ({ Err := r.2.2, NS := r.1, Authoritative := r.2.1 }, none)

/-- `errgroup.Group.Wait`: the first non-nil error returned by a task, else nil. -/
def errgroupWait (rets : List GoError) : GoError := (rets.find? (fun e => e.isSome)).join

/-- `queryNSParallel`: `.error err` stands for the return `nil, err` and `.ok result` for
`result, nil`. -/
def queryNSParallel (ex : Exchanger) (domain : String) (servers : List String) :
    Except String queryGroup :=
  let domain := Fqdn domain
  let tasks := servers.map (fun server => queryNSParallel.task ex domain server)
  match errgroupWait (tasks.map (fun t => t.2)) with
  | some err => .error err
  | none =>
    let result : queryGroup :=
      { Domain := cleanDomain domain,
        Results := (servers.zip (tasks.map (fun t => t.1))).foldl
          (fun m e => mapInsert m e.1 e.2) [],
        NS := [] }
    .ok { result with NS := result.allNS }

/-- The map that `queryNSParallel` fills from the result array. -/
def resultsMap (ex : Exchanger) (domain : String) (servers : List String) :
    List (String × queryResult) :=
  (servers.zip ((servers.map (fun server => queryNSParallel.task ex (Fqdn domain) server)).map
    (fun t => t.1))).foldl (fun m e => mapInsert m e.1 e.2) []

/-- The group that `queryNSParallel` builds once all tasks have ended. -/
def queryNSParallel.result (ex : Exchanger) (domain : String) (servers : List String) :
    queryGroup :=
  { Domain := cleanDomain (Fqdn domain),
    Results := resultsMap ex domain servers,
    NS := queryGroup.allNS
      { Domain := cleanDomain (Fqdn domain), Results := resultsMap ex domain servers, NS := [] } }

/-! ## checks.go -/

/-- A line printed by `finding`, by the place that prints it. -/
inductive Finding where
  | serverError (domain server err : String)
  | varying (expected got : Nat) (domain server : String) (missing : List String)
  | queryError (domain err : String)
  | nsDifference (domain : String) (expected got : List String)
  | extraNS (domain : String) (extra : List String)
  | notAuthoritative (nameserver domain : String)
  | unexpectedNS (domain ns : String)
  deriving DecidableEq, Repr

/-- One round of the loop of `checkEqualResultResponse`, for the map entry `e`: the increment
of `found` and the finding, if any. -/
def checkEqualResultResponse.body (r : queryGroup) (e : String × queryResult) :
    Nat × List Finding :=
  match e.2.Err with
  | some err => (1, [Finding.serverError r.Domain e.1 err])
  | none =>
    if e.2.NS.length ≠ r.NS.length then
      (1, [Finding.varying r.NS.length e.2.NS.length r.Domain e.1 (ExtraStrings r.NS e.2.NS)])
    else (0, [])

/-- `checkEqualResultResponse`: the count `found` and the findings printed. -/
def checkEqualResultResponse (r : queryGroup) : Nat × List Finding :=
  r.Results.foldl
    (fun acc e =>
      (acc.1 + (checkEqualResultResponse.body r e).1,
       acc.2 ++ (checkEqualResultResponse.body r e).2))
    (0, [])

/-- The outcome of `checkLame`: the flag, the findings, and the group queries it issued,
each as the fully qualified domain and the servers asked. -/
structure LameResult where
  lame : Bool
  findings : List Finding
  queries : List (String × List String)
  deriving DecidableEq, Repr

/-- `checkLame`. -/
def checkLame (ex : Exchanger) (q : queryGroup) : LameResult :=
  let issued := [(Fqdn q.Domain, q.NS)]
  match queryNSParallel ex q.Domain q.NS with
  | .error err =>
    { lame := true, findings := [Finding.queryError q.Domain err], queries := issued }
  | .ok r =>
    let start : Bool × List Finding :=
      if !StringArrayEquals q.NS r.NS then
        (true, Finding.nsDifference q.Domain q.NS r.NS ::
          (if (ExtraStrings r.NS q.NS).length > 0 then
            [Finding.extraNS q.Domain (ExtraStrings r.NS q.NS)] else []))
      else (false, [])
    let fin := r.Results.foldl
      (fun acc e =>
        if !e.2.Authoritative then (true, acc.2 ++ [Finding.notAuthoritative e.1 r.Domain])
        else acc)
      start
    { lame := fin.1, findings := fin.2, queries := issued }

/-- `checkExpectedNS`, with the global `expectedNameServers` as a parameter. -/
def checkExpectedNS (expectedNameServers : List String) (r : queryGroup) : Nat × List Finding :=
  if expectedNameServers.length > 0 then
    r.NS.foldl
      (fun acc ns =>
        let problem := expectedNameServers.foldl
          (fun problem expectedNS => if IsSubDomain expectedNS ns then false else problem) true
        if problem then (acc.1 + 1, acc.2 ++ [Finding.unexpectedNS r.Domain ns]) else acc)
      (0, [])
  else (0, [])

/-! ## main.go -/

/-- `strings.Split(s, ",")`, over the characters still to read; `cur` is the piece being
read. The empty string gives one empty piece. -/
def splitComma : List Char → List Char → List String
  | [], cur => [⟨cur⟩]
  | c :: rest, cur =>
    if c = ',' then ⟨cur⟩ :: splitComma rest [] else splitComma rest (cur ++ [c])

/-- The loop of `main` that fills the global `expectedNameServers` from the value of the
flag `-expected-ns`: each piece that is not empty is cleaned and appended. -/
def parseExpectedNS (nsSet : String) : List String :=
  (splitComma nsSet.data []).foldl
    (fun expectedNameServers ns =>
      if ns ≠ "" then expectedNameServers ++ [cleanDomain ns] else expectedNameServers)
    []

/-! ## work_name.go -/

/-- The number of values of the type `uint` on the 64-bit platforms, two to the power 64:
the arithmetic of `uint` is modulo this number. -/
def uintRange : Nat := 18446744073709551616

/-- The sum `a + b` of two values of type `uint`: it wraps around. -/
def uintAdd (a b : Nat) : Nat := (a + b) % uintRange

/-- The struct `nameWork`; `Problems` is a `uint`, a number below `uintRange`, and the code
changes it by `+=` and `++` only, modelled by `uintAdd`. -/
structure nameWork where
  Name : String
  Lame : Bool
  Problems : Nat
  deriving DecidableEq, Repr

/-- What `processName` reads and writes besides its argument: the global cache `seen`; for
each cache key, the order in which the runtime lets the call of `GetAuthorativeNS` for the
level of that key visit the result map (a key is claimed once, so that each call has an
order of its own); and two records kept for the statements below, the group queries issued
(fully qualified domain and servers asked, in order) and the findings printed. -/
structure World where
  seen : Cache (List String)
  queries : List (String × List String)
  findings : List Finding
  rangeOrder : String → RangeOrder

/-- The world at program start: `seen = cache.New()`, nothing queried or printed. The
order of map iteration is set to the order of insertion here; the statements that hold for
every order are stated for every world. -/
def World.start : World :=
  { seen := Cache.New, queries := [], findings := [], rangeOrder := fun _ => RangeOrder.insertion }

/-- The variables of the loop of `processName`. -/
structure WalkState where
  world : World
  w : nameWork
  servers : List String
  action : Bool

/-- The server list `processName` carries to the next level and publishes: the NS list of
the result, or, when that list is empty, the list `result.GetAuthorativeNS()` if it is not
empty; `order` is the order of the one call of `GetAuthorativeNS`. -/
def nextServers (order : RangeOrder) (result : queryGroup) : List String :=
  if result.NS.length = 0 then
    if (result.GetAuthorativeNS order).length > 0 then result.GetAuthorativeNS order
    else result.NS
  else result.NS

/-- One round of the loop of `processName`, for index `i`: the variables after it, and
`none` to go on or `some o` when the function ends in this round (a return of an error,
or a call that blocks or panics). -/
def processName.body (ex : Exchanger) (expectedNameServers : List String)
    (labels : List String) (i : Nat) (st : WalkState) : WalkState × Option (Outcome GoError) :=
  let label := labels.getD i ""
  match st.world.seen.AddCheck label with
  | (seen1, some addFun, true) =>
    let world1 : World :=
      { st.world with seen := seen1, queries := st.world.queries ++ [(Fqdn label, st.servers)] }
    match queryNSParallel ex label st.servers with
    | .error err =>
      let r := addFun.call seen1 [] (some err)
      ({ st with world := { world1 with seen := r.1 }, action := true },
        match r.2 with
        | .ret _ => some (.ret (some err))
        | .blocks => some .blocks
        | .panics => some .panics)
    | .ok result =>
      let servers := nextServers (st.world.rangeOrder label) result
      let r := addFun.call seen1 servers none
      match r.2 with
      | .blocks =>
        ({ st with world := { world1 with seen := r.1 }, servers := servers, action := true },
          some .blocks)
      | .panics =>
        ({ st with world := { world1 with seen := r.1 }, servers := servers, action := true },
          some .panics)
      | .ret (some err) =>
        ({ st with world := { world1 with seen := r.1 }, servers := servers, action := true },
          some (.ret (some err)))
      | .ret none =>
        let eq := checkEqualResultResponse result
        let lame := checkLame ex result
        let expected := if i = 0 then checkExpectedNS expectedNameServers result else (0, [])
        ({ world :=
            { seen := r.1,
              queries := world1.queries ++ lame.queries,
              findings := world1.findings ++ eq.2 ++ lame.findings ++ expected.2,
              rangeOrder := st.world.rangeOrder },
           w := { st.w with
             Lame := lame.lame,
             Problems :=
               if i = 0 then
                 uintAdd (if lame.lame then uintAdd (uintAdd st.w.Problems eq.1) 1
                   else uintAdd st.w.Problems eq.1) expected.1
               else if lame.lame then uintAdd (uintAdd st.w.Problems eq.1) 1
               else uintAdd st.w.Problems eq.1 },
           servers := servers,
           action := true }, none)
  | (seen1, _, _) =>
    match seen1.GetWait [] label with
    | (seen2, .ret (servers, none)) =>
      ({ st with world := { st.world with seen := seen2 }, servers := servers }, none)
    | (seen2, .ret (servers, some err)) =>
      ({ st with world := { st.world with seen := seen2 }, servers := servers },
        some (.ret (some err)))
    | (seen2, .blocks) => ({ st with world := { st.world with seen := seen2 } }, some .blocks)
    | (seen2, .panics) => ({ st with world := { st.world with seen := seen2 } }, some .panics)

/-- The loop `for i := len(labels) - 1; i >= 0; i--` of `processName`, over the indexes
still to visit. -/
def processName.loop (ex : Exchanger) (expectedNameServers : List String)
    (labels : List String) : List Nat → WalkState → WalkState × Outcome GoError
  | [], st => (st, .ret none)
  | i :: rest, st =>
    match processName.body ex expectedNameServers labels i st with
    | (st1, none) => processName.loop ex expectedNameServers labels rest st1
    | (st1, some o) => (st1, o)

/-- The indexes `len(labels) - 1, ..., 0` in the order the loop visits them. -/
def walkOrder (labels : List String) : List Nat := (List.range labels.length).reverse

/-- The variables of `processName` when the loop starts: `servers := rootServers`,
`action := false`. -/
def walkInit (world : World) (w : nameWork) : WalkState :=
  { world := world, w := w, servers := rootServers, action := false }

/-- The variables of `processName` when it ends, and how it ends. -/
def processName.run (ex : Exchanger) (expectedNameServers : List String) (world : World)
    (w : nameWork) : WalkState × Outcome GoError :=
  processName.loop ex expectedNameServers (SplitDomainNameWithParent w.Name)
    (walkOrder (SplitDomainNameWithParent w.Name)) (walkInit world w)

/-- `processName`: the world and the task when it ends, and the error returned. -/
def processName (ex : Exchanger) (expectedNameServers : List String) (world : World)
    (w : nameWork) : World × nameWork × Outcome GoError :=
  ((processName.run ex expectedNameServers world w).1.world,
   (processName.run ex expectedNameServers world w).1.w,
   (processName.run ex expectedNameServers world w).2)

/-! ## jobs/jobs.go and work.go

The orchestrator compares errors with the sentinel `context.Canceled` by identity, so its
errors are modelled by a type in which the sentinels are constructors. Goroutines and
selects are modelled by what each goroutine does with the value its function returned, and
by the case of each select that fires. -/

/-- An error value seen by the orchestrator: one of the sentinels of package context, or
any other value (made by `fmt.Errorf`, `errors.New`, ...), given by its text. -/
inductive JobError where
  | Canceled
  | DeadlineExceeded
  | other (msg : String)
  deriving DecidableEq, Repr

/-- The goroutine started by `Jobs.Go`, given the value `err` its worker returned: the value
it sends on `errChan`, or `none` when it sends nothing. -/
def Jobs.Go (err : Option JobError) : Option JobError :=
  match err with
  | none => none
  | some e => if e ≠ JobError.Canceled then some e else none

/-- The goroutine started by `Jobs.SaveGo`, given the value `err` the saver returned: the
value it sends on `errChan` (or `none`), and whether it signals `saveDone`. -/
def Jobs.SaveGo (err : Option JobError) : Option JobError × Bool :=
  match err with
  | none => (none, true)
  | some e => if e ≠ JobError.Canceled then (some e, false) else (none, true)

/-- `Jobs.Wait`, given the values sent on `errChan` and, for each of its two selects, the
case that fires: `none` for the first case (`wgDone`, then `saveDone`), `some i` for the
receive of the `i`-th value sent. The receive of a value that nobody sends cannot fire. -/
def Jobs.Wait (sent : List JobError) (first second : Option Nat) : Outcome (Option JobError) :=
  match first with
  | some i =>
    match sent[i]? with
    | some err => .ret (some err)
    | none => .blocks
  | none =>
    match second with
    | none => .ret none
    | some i =>
      match sent[i]? with
      | some err => .ret (some err)
      | none => .blocks

/-- A value taken from the job channel: a `*nameWork`, or a value of another type, given by
the name of its type. -/
inductive Job where
  | name (w : nameWork)
  | unknown (typeName : String)
  deriving DecidableEq, Repr

/-- The case of the select of `worker` that fires in one round of its loop. -/
inductive WorkerEvent where
  | ctxDone
  | work (item : Job)
  deriving DecidableEq, Repr

/-- What `worker` leaves: the world, the items it passed to `work.Done`, and how it ends. -/
structure WorkerResult where
  world : World
  done : List nameWork
  ret : Outcome (Option JobError)

/-- `worker`, over the cases that fire in the rounds of its loop; `ctxErr` is what
`ctx.Err()` returns once the context is done. When no case fires any more the worker
blocks in its select. The text of a wrapped error is abridged to the error and the name. -/
def worker (ex : Exchanger) (expectedNameServers : List String) (ctxErr : JobError) :
    List WorkerEvent → World → List nameWork → WorkerResult
  | [], world, done => { world := world, done := done, ret := .blocks }
  | .ctxDone :: _, world, done => { world := world, done := done, ret := .ret (some ctxErr) }
  | .work (.unknown t) :: _, world, done =>
    { world := world, done := done,
      ret := .ret (some (JobError.other ("don\x27t know about type: " ++ t))) }
  | .work (.name w) :: rest, world, done =>
    match processName ex expectedNameServers world w with
    | (world1, w1, .ret none) =>
      worker ex expectedNameServers ctxErr rest world1 (done ++ [w1])
    | (world1, w1, .ret (some err)) =>
      { world := world1, done := done ++ [w1],
        ret := .ret (some (JobError.other ("error on " ++ err ++ ": " ++ w1.Name))) }
    | (world1, _, .blocks) => { world := world1, done := done, ret := .blocks }
    | (world1, _, .panics) => { world := world1, done := done, ret := .panics }

/-- The values sent on `errChan` in a run: those of the goroutines of `Jobs.Go`, given what
each worker returned, and the one of the goroutine of `Jobs.SaveGo`. -/
def Jobs.sent (workers : List (Option JobError)) (saver : Option JobError) : List JobError :=
  workers.filterMap Jobs.Go ++ (Jobs.SaveGo saver).1.toList

/-! ## Auxiliary definitions for the statements -/

/-- The claim of `key` is held and nothing has been published yet. -/
def Claimed {T : Type} (c : Cache T) (key : String) : Prop :=
  c.locks key = some (makeChan 1)

/-- The owner of `key` has published `value` without an error (or the error has been
consumed): the channel is closed and empty, the value is stored. -/
def Published {T : Type} (c : Cache T) (key : String) (value : T) : Prop :=
  c.locks key = some { cap := 1, buf := [], closed := true } ∧ c.cache key = some value

/-- The cache after the owner of `label` has claimed it and published `servers` with a nil
error: the channel of `label` is closed and empty, the list is stored. -/
def ownerSeen (seen : Cache (List String)) (label : String) (servers : List String) :
    Cache (List String) :=
  { cache := mapSet seen.cache label servers,
    locks := mapSet (mapSet seen.locks label (makeChan 1)) label
      { cap := 1, buf := [], closed := true } }

/-- The name made of the given labels: the labels joined by dots, without a trailing dot. -/
def joinLabels : List String → String
  | [] => ""
  | [a] => a
  | a :: b :: rest => a ++ "." ++ joinLabels (b :: rest)

/-- The index at which each label starts in a name whose first label starts at `off`. -/
def labelStarts (off : Nat) : List String → List Nat
  | [] => []
  | a :: rest => off :: labelStarts (off + a.data.length + 1) rest

/-- A label of a plain name: not empty, without a dot and without the escape character. -/
def PlainLabel (l : String) : Prop := l.data ≠ [] ∧ '.' ∉ l.data ∧ '\\' ∉ l.data

instance PlainLabel.decidable (l : String) : Decidable (PlainLabel l) := by
  unfold PlainLabel
  exact inferInstance

/-- The labels of a name, each followed by its dot. -/
def dotted (ls : List String) : List Char := ls.flatMap (fun l => l.data ++ ['.'])

/-- The number of leading positions at which two lists of labels agree up to the case of
ASCII letters. -/
def commonPrefixLen : List String → List String → Nat
  | a :: as, b :: bs => if equal a b then commonPrefixLen as bs + 1 else 0
  | _, _ => 0

/-- A group with the given NS list, for the expected-provider example. -/
def providerExample (ns : List String) : queryGroup :=
  { Domain := "customer.example", Results := [], NS := ns }

/-- Every claim of the cache has been published without a pending error. This holds of the
new cache and, as shown below, after every run of `processName`. -/
def Settled (c : Cache (List String)) : Prop :=
  ∀ key, c.locks key = none ∨ ∃ v, Published c key v

/-- The group queries of a record that ask for the domain `d`. -/
def queriesFor (d : String) (qs : List (String × List String)) : List (String × List String) :=
  qs.filter (fun q => decide (q.1 = d))

/-- The number of DNS queries that a recorded group query puts on the wire: for each server
asked, the calls of `dnsClient.Exchange` of `queryNSServer`. -/
def exchangeCount (ex : Exchanger) (q : String × List String) : Nat :=
  (q.2.map (fun server =>
    queryNSServer.attempts ex (JoinHostPort server "53") (Fqdn q.1) (dnsRetry - 1) 0)).sum

/-- What one round of the loop of `processName` did: the cache key of its level
(`labels[i]`), the server list the task carried into the round, the server lists of the
group queries issued during the round (in order), and the server list the task carries out
of the round. -/
structure WalkRound where
  key : String
  carried : List String
  asked : List (List String)
  next : List String
  deriving DecidableEq, Repr

/-- The rounds that the loop of `processName` goes through, over the indexes still to visit:
the group queries of a round are those the round adds to the record. -/
def processName.rounds (ex : Exchanger) (expectedNameServers : List String)
    (labels : List String) : List Nat → WalkState → List WalkRound
  | [], _ => []
  | i :: rest, st =>
    { key := labels.getD i "",
      carried := st.servers,
      asked := ((processName.body ex expectedNameServers labels i st).1.world.queries.drop
        st.world.queries.length).map Prod.snd,
      next := (processName.body ex expectedNameServers labels i st).1.servers } ::
    match (processName.body ex expectedNameServers labels i st).2 with
    | none =>
      processName.rounds ex expectedNameServers labels rest
        (processName.body ex expectedNameServers labels i st).1
    | some _ => []

/-- The rounds of `processName` for the task `w`. -/
def taskRounds (ex : Exchanger) (expectedNameServers : List String) (world : World)
    (w : nameWork) : List WalkRound :=
  processName.rounds ex expectedNameServers (SplitDomainNameWithParent w.Name)
    (walkOrder (SplitDomainNameWithParent w.Name)) (walkInit world w)

/-- The rounds of `processName` for the task `w` whose level is the zone `zone`. -/
def zoneRounds (ex : Exchanger) (expectedNameServers : List String) (world : World)
    (w : nameWork) (zone : String) : List WalkRound :=
  (taskRounds ex expectedNameServers world w).filter (fun r => decide (r.key = zone))

/-- A value is stored only under a claimed key. This holds of the new cache and is kept by
every call, the publish closure of a key existing only once the key is claimed. -/
def NoOrphan {T : Type} (c : Cache T) : Prop := ∀ k, c.locks k = none → c.cache k = none

/-- The publish closure of `key` has been called: the channel of the key is closed (it may
still hold the published error) and `value` is stored. -/
def Stored {T : Type} (c : Cache T) (key : String) (value : T) : Prop :=
  (∃ ch, c.locks key = some ch ∧ ch.closed = true) ∧ c.cache key = some value

/-- The cache after the owner of "com" has called its publish closure twice, with the lists
`v1` and `v2` and the errors `e1` and `e2`. -/
def publishedTwice (v1 v2 : List String) (e1 e2 : GoError) : Cache (List String) :=
  ((⟨"com"⟩ : AddFunc).call ((⟨"com"⟩ : AddFunc).call claimedCom v1 e1).1 v2 e2).1

/-- No channel of the cache holds a published error. -/
def Clean (c : Cache (List String)) : Prop := ∀ key ch, c.locks key = some ch → ch.buf = []

/-! ## Fixtures -/

/-- The group of the union example: two servers answer with the NS sets a, b and a, c,
a third one fails. -/
def unionExample : queryGroup :=
  { Domain := "example.com",
    Results :=
      [("s1", { Err := none, Authoritative := true, NS := ["a", "b"] }),
       ("s2", { Err := none, Authoritative := true, NS := ["a", "c"] }),
       ("s3", { Err := some "i/o timeout", Authoritative := false, NS := [] })],
    NS := ["a", "b", "c"] }

/-- A network for the union example: the server s1 answers with the NS records b and a,
the server s2 with a and c, every other server fails at each attempt. -/
def unionNet : Exchanger := fun addr _ _ =>
  if addr = "s1:53" then
    .ok { Authoritative := true, Answer := [RR.NS "b.", RR.NS "a."], Ns := [] }
  else if addr = "s2:53" then
    .ok { Authoritative := true, Answer := [RR.NS "a."], Ns := [RR.NS "c."] }
  else .error "i/o timeout"

/-- A network in which the server s1 reports the name server ns1 twice, in the answer and
in the authority section, and the server s2 reports ns1 and ns2. -/
def dupNet : Exchanger := fun addr _ _ =>
  if addr = "s1:53" then
    .ok { Authoritative := true, Answer := [RR.NS "ns1."], Ns := [RR.NS "ns1."] }
  else
    .ok { Authoritative := true, Answer := [RR.NS "ns1.", RR.NS "ns2."], Ns := [] }

/-- The group that `queryNSParallel` builds in the network `dupNet` for the servers s1 and
s2. -/
def dupGroup : queryGroup :=
  { Domain := "example.com",
    Results :=
      [("s1", { Err := none, Authoritative := true, NS := ["ns1", "ns1"] }),
       ("s2", { Err := none, Authoritative := true, NS := ["ns1", "ns2"] })],
    NS := ["ns1", "ns2"] }

/-- A network in which the server s1 reports ns1 only and the server s2 reports ns1 and
ns2. -/
def partialNet : Exchanger := fun addr _ _ =>
  if addr = "s1:53" then
    .ok { Authoritative := false, Answer := [RR.NS "ns1."], Ns := [] }
  else
    .ok { Authoritative := true, Answer := [RR.NS "ns1.", RR.NS "ns2."], Ns := [] }

/-- A network in which the delegation of "com" is lame and that of "example.com" is not:
every server refers "com." to a.gtld-servers.net without the authoritative flag, also
a.gtld-servers.net itself when asked; "example.com." is referred to ns1.example.com, and
ns1.example.com answers for it with the authoritative flag. -/
def lameNet : Exchanger := fun addr name _ =>
  if name = "com." then
    .ok { Authoritative := false, Answer := [], Ns := [RR.NS "a.gtld-servers.net."] }
  else if name = "example.com." then
    if addr = "ns1.example.com:53" then
      .ok { Authoritative := true, Answer := [RR.NS "ns1.example.com."], Ns := [] }
    else .ok { Authoritative := false, Answer := [], Ns := [RR.NS "ns1.example.com."] }
  else .error "no route to host"

/-- The variables of `processName` for the task "example.com" when the loop starts, on a
new cache. -/
def exampleStart : WalkState :=
  { world := World.start, w := { Name := "example.com", Lame := false, Problems := 0 },
    servers := rootServers, action := false }

/-- The variables of `processName` for the task "example.com" when the loop starts on a new
cache, the task holding the largest value of `uint`, two to the power 64 minus one, as its
count of problems. -/
def wrapStart : WalkState :=
  { world := World.start,
    w := { Name := "example.com", Lame := false, Problems := 18446744073709551615 },
    servers := rootServers, action := false }

/-- A network for two names under shared.com: "com." is delegated to a.gtld-servers.net,
every other name to ns1.shared.com; each of the two servers answers with the authoritative
flag, the other servers without it. -/
def sharedNet : Exchanger := fun addr name _ =>
  if name = "com." then
    .ok { Authoritative := decide (addr = "a.gtld-servers.net:53"), Answer := [],
          Ns := [RR.NS "a.gtld-servers.net."] }
  else
    .ok { Authoritative := decide (addr = "ns1.shared.com:53"),
          Answer := [RR.NS "ns1.shared.com."], Ns := [] }

/-- The world after `processName` has handled the task "a.shared.com" on a new cache, in
the network `sharedNet`. -/
def afterA : World :=
  (processName sharedNet [] World.start { Name := "a.shared.com", Lame := false, Problems := 0 }).1

/-- The world after `processName` has then handled the task "b.shared.com". -/
def afterAB : World :=
  (processName sharedNet [] afterA { Name := "b.shared.com", Lame := false, Problems := 0 }).1

/-! # Theorems -/

/-! ## The cache -/

theorem mapSet_same {V : Type} (m : String → Option V) (k : String) (v : V) :
    mapSet m k v k = some v := by
  simp [mapSet]

theorem mapSet_other {V : Type} (m : String → Option V) (k k2 : String) (v : V)
    (h : k2 ≠ k) : mapSet m k v k2 = m k2 := by
  simp [mapSet, h]

/-- What `AddCheck` does to the claim map. -/
theorem AddCheck_locks {T : Type} (c : Cache T) (key k : String) :
    (c.AddCheck key).1.locks k =
      if k = key ∧ c.locks key = none then some (makeChan 1) else c.locks k := by
  unfold Cache.AddCheck
  cases h : c.locks key with
  | none => by_cases hk : k = key <;> simp [mapSet, hk, h]
  | some ch => simp

theorem AddCheck_cache {T : Type} (c : Cache T) (key : String) :
    (c.AddCheck key).1.cache = c.cache := by
  unfold Cache.AddCheck
  cases h : c.locks key <;> simp

/-- The answer of `AddCheck` is decided by the claim entry of the key alone. -/
theorem AddCheck_answer {T : Type} (c : Cache T) (key : String) :
    (c.AddCheck key).2 = if c.locks key = none then (some ⟨key⟩, true) else (none, false) := by
  unfold Cache.AddCheck
  cases h : c.locks key <;> simp

theorem sendLock_ret {T : Type} (c c1 : Cache T) (key : String) (e : GoError)
    (h : c.sendLock key e = .ret c1) :
    c1.cache = c.cache ∧ (∀ k, k ≠ key → c1.locks k = c.locks k) ∧
      ∃ ch ch1, c.locks key = some ch ∧ ch.send e = .ret ch1 ∧ c1.locks key = some ch1 := by
  unfold Cache.sendLock at h
  cases hl : c.locks key with
  | none => simp [hl] at h
  | some ch =>
    cases hs : ch.send e with
    | blocks => simp [hl, hs] at h
    | panics => simp [hl, hs] at h
    | ret ch1 =>
      simp only [hl, hs, Outcome.ret.injEq] at h
      subst h
      refine ⟨rfl, fun k hk => by simp [mapSet, hk], ch, ch1, rfl, hs, by simp [mapSet]⟩

theorem closeLock_ret {T : Type} (c c1 : Cache T) (key : String)
    (h : c.closeLock key = .ret c1) :
    c1.cache = c.cache ∧ (∀ k, k ≠ key → c1.locks k = c.locks k) ∧
      ∃ ch ch1, c.locks key = some ch ∧ ch.close = .ret ch1 ∧ c1.locks key = some ch1 := by
  unfold Cache.closeLock at h
  cases hl : c.locks key with
  | none => simp [hl] at h
  | some ch =>
    cases hs : ch.close with
    | blocks => simp [hl, hs] at h
    | panics => simp [hl, hs] at h
    | ret ch1 =>
      simp only [hl, hs, Outcome.ret.injEq] at h
      subst h
      refine ⟨rfl, fun k hk => by simp [mapSet, hk], ch, ch1, rfl, hs, by simp [mapSet]⟩

/-- The publish closure touches the claim entry of its own key only, and never removes it. -/
theorem call_locks {T : Type} (f : AddFunc) (c : Cache T) (v : T) (e : GoError) :
    (∀ k, k ≠ f.key → (f.call c v e).1.locks k = c.locks k) ∧
      ((c.locks f.key).isSome → ((f.call c v e).1.locks f.key).isSome) := by
  unfold AddFunc.call
  cases e with
  | none =>
    simp only
    cases hc : Cache.closeLock { cache := mapSet c.cache f.key v, locks := c.locks } f.key with
    | blocks => simp
    | panics => simp
    | ret c3 =>
      obtain ⟨-, h2, ch, ch1, -, -, h5⟩ := closeLock_ret _ _ _ hc
      exact ⟨fun k hk => by simpa using h2 k hk, fun _ => by simp [h5]⟩
  | some e =>
    simp only
    cases hs : c.sendLock f.key (some e) with
    | blocks => simp
    | panics => simp
    | ret c1 =>
      obtain ⟨-, s2, sch, sch1, -, -, s5⟩ := sendLock_ret _ _ _ _ hs
      simp only
      cases hc : Cache.closeLock { cache := mapSet c1.cache f.key v, locks := c1.locks } f.key with
      | blocks => exact ⟨fun k hk => by simpa using s2 k hk, fun _ => by simp [s5]⟩
      | panics => exact ⟨fun k hk => by simpa using s2 k hk, fun _ => by simp [s5]⟩
      | ret c3 =>
        obtain ⟨-, h2, ch, ch1, -, -, h5⟩ := closeLock_ret _ _ _ hc
        exact ⟨fun k hk => by rw [h2 k hk]; simpa using s2 k hk, fun _ => by simp [h5]⟩

theorem Add_locks {T : Type} (c : Cache T) (key : String) (v : T) :
    (∀ k, k ≠ key → (c.Add key v).1.locks k = c.locks k) ∧
      ((c.locks key).isSome → (c.Add key v).1 = c) := by
  unfold Cache.Add
  cases hl : c.locks key with
  | some ch => simp [Cache.AddCheck, hl]
  | none =>
    simp only [Cache.AddCheck, hl, Option.isSome_none, Bool.false_eq_true, false_implies, and_true]
    intro k hk
    rw [(call_locks ⟨key⟩ _ v none).1 k hk]
    simp [mapSet, hk]

theorem GetWait_locks {T : Type} (zero : T) (c : Cache T) (key : String) :
    (c.GetWait zero key).1.cache = c.cache ∧
    (∀ k, k ≠ key → (c.GetWait zero key).1.locks k = c.locks k) ∧
      ((c.locks key).isSome → ((c.GetWait zero key).1.locks key).isSome) := by
  unfold Cache.GetWait
  cases hl : c.locks key with
  | none => simp [hl]
  | some ch =>
    cases hr : ch.recv with
    | blocks => simp [hl, hr]
    | panics => simp [hl, hr]
    | ret p =>
      obtain ⟨ch1, err⟩ := p
      cases err <;> simp [mapSet, hr] <;> intro k hk <;> simp [hk]

/-- A call on another key leaves the claim entry of `key` as it is. -/
theorem step_locks_other {T : Type} (zero : T) (c : Cache T) (op : CacheOp T) (key : String)
    (hk : op.key ≠ key) : (c.step zero op).1.locks key = c.locks key := by
  have hk2 : key ≠ op.key := fun h => hk h.symm
  cases op with
  | addCheck k => simp only [Cache.step, AddCheck_locks]; simp [CacheOp.key] at hk2; simp [hk2]
  | publish k v e => exact (call_locks ⟨k⟩ c v e).1 key hk2
  | add k v => exact (Add_locks c k v).1 key hk2
  | get k => rfl
  | getWait k => exact (GetWait_locks zero c k).2.1 key hk2

/-- No call ever removes a claim: a claimed key stays claimed. -/
theorem step_locks_isSome {T : Type} (zero : T) (c : Cache T) (op : CacheOp T) (key : String)
    (h : (c.locks key).isSome) : ((c.step zero op).1.locks key).isSome := by
  by_cases hk : op.key = key
  · cases op with
    | addCheck k =>
      simp only [CacheOp.key] at hk; subst hk
      simp only [Cache.step, AddCheck_locks]
      split <;> simp [h]
    | publish k v e =>
      simp only [CacheOp.key] at hk; subst hk
      exact (call_locks ⟨k⟩ c v e).2 h
    | add k v =>
      simp only [CacheOp.key] at hk; subst hk
      simp only [Cache.step]; rw [(Add_locks c k v).2 h]; exact h
    | get k => exact h
    | getWait k =>
      simp only [CacheOp.key] at hk; subst hk
      exact (GetWait_locks zero c k).2.2 h
  · rw [step_locks_other zero c op key hk]; exact h

theorem addCheckAnswers_cons_addCheck {T : Type} (zero : T) (c : Cache T) (key k : String)
    (rest : List (CacheOp T × CacheRes T)) :
    addCheckAnswers key ((CacheOp.addCheck k, (c.step zero (CacheOp.addCheck k)).2) :: rest) =
      if k = key then (c.AddCheck k).2 :: addCheckAnswers key rest
      else addCheckAnswers key rest := by
  simp [Cache.step, addCheckAnswers]

theorem addCheckAnswers_cons_other {T : Type} (zero : T) (c : Cache T) (key : String)
    (op : CacheOp T) (rest : List (CacheOp T × CacheRes T))
    (h : CacheOp.isAddCheckOf key op = false) :
    addCheckAnswers key ((op, (c.step zero op).2) :: rest) = addCheckAnswers key rest := by
  cases op with
  | addCheck k =>
    have hk : k ≠ key := by simpa [CacheOp.isAddCheckOf] using h
    rw [addCheckAnswers_cons_addCheck]; simp [hk]
  | publish k v e => simp [Cache.step, addCheckAnswers]
  | add k v => simp [Cache.step, addCheckAnswers]
  | get k => simp [Cache.step, addCheckAnswers]
  | getWait k => simp [Cache.step, addCheckAnswers]

/-- Once a key is claimed, every later `AddCheck` on it returns `(nil, false)`, whatever
calls are made in between. -/
theorem addCheckAnswers_claimed {T : Type} (zero : T) (key : String) (ops : List (CacheOp T)) :
    ∀ c : Cache T, (c.locks key).isSome →
      addCheckAnswers key (c.run zero ops).2 =
        List.replicate (ops.countP (CacheOp.isAddCheckOf key)) (none, false) := by
  induction ops with
  | nil => intro c _; rfl
  | cons op ops ih =>
    intro c hc
    have hnext := step_locks_isSome zero c op key hc
    simp only [Cache.run]
    by_cases hop : CacheOp.isAddCheckOf key op = true
    · cases op with
      | addCheck k =>
        have hk : k = key := by simpa [CacheOp.isAddCheckOf] using hop
        subst hk
        rw [addCheckAnswers_cons_addCheck, if_pos rfl, ih _ hnext, AddCheck_answer,
          List.countP_cons_of_pos _ _ hop, List.replicate_succ]
        have : c.locks k ≠ none := by
          intro h0; rw [h0] at hc; exact absurd hc (by simp)
        simp [this]
      | publish k v e => simp [CacheOp.isAddCheckOf] at hop
      | add k v => simp [CacheOp.isAddCheckOf] at hop
      | get k => simp [CacheOp.isAddCheckOf] at hop
      | getWait k => simp [CacheOp.isAddCheckOf] at hop
    · have hop2 : CacheOp.isAddCheckOf key op = false := by simpa using hop
      rw [addCheckAnswers_cons_other zero c key op _ hop2, ih _ hnext,
        List.countP_cons_of_neg _ _ hop]

/-- C1, as amended: starting from any cache in which `key` has not been claimed, in every
sequence of calls made of `AddCheck(key)` calls and of arbitrary calls on other keys, the
first `AddCheck(key)` returns the publish closure and `true`, and each of the others returns
`(nil, false)`; and a call on one key never changes the answer `AddCheck` gives for a
different key. -/
theorem AddCheck_single_flight {T : Type} (zero : T) (c : Cache T) (key : String)
    (ops : List (CacheOp T)) (hfree : c.locks key = none)
    (hops : ∀ op ∈ ops, op = CacheOp.addCheck key ∨ op.key ≠ key) :
    addCheckAnswers key (c.run zero ops).2 =
        (match ops.countP (CacheOp.isAddCheckOf key) with
          | 0 => []
          | n + 1 => (some ⟨key⟩, true) :: List.replicate n (none, false)) ∧
      ∀ (c2 : Cache T) (op : CacheOp T) (k2 : String), op.key ≠ k2 →
        ((c2.step zero op).1.AddCheck k2).2 = (c2.AddCheck k2).2 := by
  refine ⟨?_, ?_⟩
  · induction ops generalizing c with
    | nil => rfl
    | cons op ops ih =>
      simp only [Cache.run]
      rcases hops op (List.mem_cons_self _ _) with h | h
      · subst h
        have hop : CacheOp.isAddCheckOf key (CacheOp.addCheck key : CacheOp T) = true := by
          simp [CacheOp.isAddCheckOf]
        have hnext : ((c.step zero (CacheOp.addCheck key)).1.locks key).isSome := by
          simp [Cache.step, AddCheck_locks, hfree]
        rw [addCheckAnswers_cons_addCheck, if_pos rfl, addCheckAnswers_claimed zero key ops _ hnext,
          AddCheck_answer, List.countP_cons_of_pos _ _ hop]
        simp [hfree]
      · have hop : CacheOp.isAddCheckOf key op = false := by
          cases op <;> simp [CacheOp.isAddCheckOf, CacheOp.key] at h ⊢
          exact h
        have hnext : (c.step zero op).1.locks key = none := by
          rw [step_locks_other zero c op key h]; exact hfree
        rw [addCheckAnswers_cons_other zero c key op _ hop,
          ih _ hnext (fun o ho => hops o (List.mem_cons_of_mem _ ho)),
          List.countP_cons_of_neg _ _ (by simp [hop])]
  · intro c2 op k2 h
    rw [AddCheck_answer, AddCheck_answer, step_locks_other zero c2 op k2 h]

/-- Witness for C1: three `AddCheck("com")` calls on a new cache, interleaved with calls on
the key "org". -/
theorem AddCheck_single_flight_witness :
    addCheckAnswers "com" ((Cache.New : Cache (List String)).run []
        [.addCheck "org", .addCheck "com", .publish "org" ["a"] none, .addCheck "com",
          .getWait "org", .addCheck "com"]).2 =
      [(some ⟨"com"⟩, true), (none, false), (none, false)] :=
  (AddCheck_single_flight [] Cache.New "com" _ rfl (by simp [CacheOp.key])).1

/-- C1 as stated fails on a cache in which the key is already claimed: there the first
call of a sequence of `AddCheck` calls on that key returns `(nil, false)`, not
`(publish, true)`. -/
theorem AddCheck_claimed_counterexample :
    addCheckAnswers "com" (claimedCom.run [] [.addCheck "com", .addCheck "com"]).2 =
      [(none, false), (none, false)] := by
  decide

/-- The publish closure writes the value entry of its own key only. -/
theorem call_cache_other {T : Type} (f : AddFunc) (c : Cache T) (v : T) (e : GoError)
    (k : String) (hk : k ≠ f.key) : (f.call c v e).1.cache k = c.cache k := by
  unfold AddFunc.call
  cases e with
  | none =>
    simp only
    cases hc : Cache.closeLock { cache := mapSet c.cache f.key v, locks := c.locks } f.key with
    | blocks => simp [mapSet, hk]
    | panics => simp [mapSet, hk]
    | ret c3 =>
      obtain ⟨h1, -⟩ := closeLock_ret _ _ _ hc
      simp [h1, mapSet, hk]
  | some e =>
    simp only
    cases hs : c.sendLock f.key (some e) with
    | blocks => simp
    | panics => simp
    | ret c1 =>
      obtain ⟨s1, -⟩ := sendLock_ret _ _ _ _ hs
      simp only
      cases hc : Cache.closeLock { cache := mapSet c1.cache f.key v, locks := c1.locks } f.key with
      | blocks => simp [mapSet, hk, s1]
      | panics => simp [mapSet, hk, s1]
      | ret c3 =>
        obtain ⟨h1, -⟩ := closeLock_ret _ _ _ hc
        simp [h1, mapSet, hk, s1]

/-- A call on another key leaves the value entry of `key` as it is. -/
theorem step_cache_other {T : Type} (zero : T) (c : Cache T) (op : CacheOp T) (key : String)
    (hk : op.key ≠ key) : (c.step zero op).1.cache key = c.cache key := by
  have hk2 : key ≠ op.key := fun h => hk h.symm
  cases op with
  | addCheck k => simp only [Cache.step, AddCheck_cache]
  | publish k v e => exact call_cache_other ⟨k⟩ c v e key hk2
  | add k v =>
    simp only [Cache.step, Cache.Add]
    cases hl : c.locks k with
    | some ch => simp [Cache.AddCheck, hl]
    | none =>
      simp only [Cache.AddCheck, hl]
      rw [call_cache_other ⟨k⟩ _ v none key hk2]
  | get k => rfl
  | getWait k => simp only [Cache.step, (GetWait_locks zero c k).1]

theorem step_Claimed {T : Type} (zero : T) (c : Cache T) (op : CacheOp T) (key : String)
    (hop : CacheOp.isPublishOf key op = false) (h : Claimed c key) :
    Claimed (c.step zero op).1 key := by
  unfold Claimed at h ⊢
  by_cases hk : op.key = key
  · cases op with
    | addCheck k =>
      simp only [CacheOp.key] at hk; subst hk
      simp [Cache.step, AddCheck_locks, h]
    | publish k v e => simp [CacheOp.isPublishOf, CacheOp.key] at hop hk; exact absurd hk hop
    | add k v =>
      simp only [CacheOp.key] at hk; subst hk
      simp only [Cache.step]; rw [(Add_locks c k v).2 (by simp [h])]; exact h
    | get k => exact h
    | getWait k =>
      simp only [CacheOp.key] at hk; subst hk
      simp [Cache.step, Cache.GetWait, h, makeChan, ErrChan.recv]
  · rw [step_locks_other zero c op key hk]; exact h

theorem run_Claimed {T : Type} (zero : T) (key : String) (ops : List (CacheOp T))
    (hops : ∀ op ∈ ops, CacheOp.isPublishOf key op = false) :
    ∀ c : Cache T, Claimed c key → Claimed (c.run zero ops).1 key := by
  induction ops with
  | nil => intro c h; exact h
  | cons op ops ih =>
    intro c h
    simp only [Cache.run]
    exact ih (fun o ho => hops o (List.mem_cons_of_mem _ ho)) _
      (step_Claimed zero c op key (hops op (List.mem_cons_self _ _)) h)

theorem step_Published {T : Type} (zero : T) (c : Cache T) (op : CacheOp T) (key : String)
    (value : T) (hop : CacheOp.isPublishOf key op = false) (h : Published c key value) :
    Published (c.step zero op).1 key value := by
  unfold Published at h ⊢
  by_cases hk : op.key = key
  · cases op with
    | addCheck k =>
      simp only [CacheOp.key] at hk; subst hk
      simp [Cache.step, AddCheck_locks, AddCheck_cache, h]
    | publish k v e => simp [CacheOp.isPublishOf, CacheOp.key] at hop hk; exact absurd hk hop
    | add k v =>
      simp only [CacheOp.key] at hk; subst hk
      simp only [Cache.step]; rw [(Add_locks c k v).2 (by simp [h.1])]; exact h
    | get k => exact h
    | getWait k =>
      simp only [CacheOp.key] at hk; subst hk
      simp [Cache.step, Cache.GetWait, h, ErrChan.recv, mapSet]
  · rw [step_locks_other zero c op key hk, step_cache_other zero c op key hk]; exact h

theorem run_Published {T : Type} (zero : T) (key : String) (value : T) (ops : List (CacheOp T))
    (hops : ∀ op ∈ ops, CacheOp.isPublishOf key op = false) :
    ∀ c : Cache T, Published c key value → Published (c.run zero ops).1 key value := by
  induction ops with
  | nil => intro c h; exact h
  | cons op ops ih =>
    intro c h
    simp only [Cache.run]
    exact ih (fun o ho => hops o (List.mem_cons_of_mem _ ho)) _
      (step_Published zero c op key value (hops op (List.mem_cons_self _ _)) h)

/-- Publishing `(value, nil)` on a held claim returns nil and leaves the key published. -/
theorem call_nil_Claimed {T : Type} (c : Cache T) (key : String) (value : T)
    (h : Claimed c key) :
    ((⟨key⟩ : AddFunc).call c value none).2 = .ret none ∧
      Published ((⟨key⟩ : AddFunc).call c value none).1 key value := by
  unfold Claimed at h
  simp [AddFunc.call, Cache.closeLock, h, makeChan, ErrChan.close, Published, mapSet]

/-- On a published key `GetWait` returns the stored value and a nil error. -/
theorem GetWait_Published {T : Type} (zero : T) (c : Cache T) (key : String) (value : T)
    (h : Published c key value) : (c.GetWait zero key).2 = .ret (value, none) := by
  simp [Cache.GetWait, h.1, h.2, ErrChan.recv]

/-- C2: when the owner of `key` (the caller to whom `AddCheck(key)` returned true) calls its
publish closure with `(value, nil)`, the call returns nil, and every later `GetWait(key)`
returns `(value, nil)`: the first one and, since the calls made after the publication may
themselves be `GetWait(key)` calls, every further one. The calls made by others before and
after the publication are arbitrary, except that the one-shot closure of `key` is not
called again. -/
theorem GetWait_after_publish {T : Type} (zero : T) (c : Cache T) (key : String) (value : T)
    (before later : List (CacheOp T))
    (hown : (c.AddCheck key).2.2 = true)
    (hbefore : ∀ op ∈ before, CacheOp.isPublishOf key op = false)
    (hlater : ∀ op ∈ later, CacheOp.isPublishOf key op = false) :
    ((⟨key⟩ : AddFunc).call ((c.AddCheck key).1.run zero before).1 value none).2 = .ret none ∧
      ((((⟨key⟩ : AddFunc).call ((c.AddCheck key).1.run zero before).1 value none).1.run
        zero later).1.GetWait zero key).2 = .ret (value, none) := by
  have hfree : c.locks key = none := by
    rw [AddCheck_answer] at hown
    by_contra hne
    simp [hne] at hown
  have h1 : Claimed (c.AddCheck key).1 key := by
    simp [Claimed, AddCheck_locks, hfree]
  have h2 := run_Claimed zero key before hbefore _ h1
  obtain ⟨h3, h4⟩ := call_nil_Claimed _ key value h2
  exact ⟨h3, GetWait_Published zero _ key value (run_Published zero key value later hlater _ h4)⟩

/-- Witness for C2: the owner of "com" publishes, and the third `GetWait("com")` after
that still returns the published list. -/
theorem GetWait_after_publish_witness :
    ((((⟨"com"⟩ : AddFunc).call (((Cache.New : Cache (List String)).AddCheck "com").1.run []
        [.addCheck "com", .getWait "com"]).1 ["a.gtld-servers.net"] none).1.run []
        [.getWait "com", .addCheck "org", .getWait "com"]).1.GetWait [] "com").2 =
      .ret (["a.gtld-servers.net"], none) :=
  (GetWait_after_publish [] Cache.New "com" ["a.gtld-servers.net"]
    [.addCheck "com", .getWait "com"] [.getWait "com", .addCheck "org", .getWait "com"]
    rfl (by simp [CacheOp.isPublishOf]) (by simp [CacheOp.isPublishOf])).2

/-- C3 fails on the code: the owner of "com" publishes the error "timeout" (with the nil
list, as `processName` does, or with any other value); the first `GetWait("com")` returns
the error, the second one returns the stored value and a nil error. -/
theorem GetWait_error_second_waiter :
    ((comErrored []).GetWait [] "com").2 = .ret ([], some "timeout") ∧
    (((comErrored []).GetWait [] "com").1.GetWait [] "com").2 = .ret ([], none) ∧
    (((comErrored ["ns1"]).GetWait [] "com").1.GetWait [] "com").2 = .ret (["ns1"], none) := by
  decide

/-! ## Sorting and sets of strings -/

theorem strLe_iff (a b : String) : strLe a b = true ↔ a ≤ b := by
  simp [strLe, String.le_iff_toList_le]

theorem sortStrings_eq (l : List String) :
    sortStrings l = l.insertionSort (fun a b => a ≤ b) := by
  unfold sortStrings
  induction l with
  | nil => rfl
  | cons a l ih =>
    simp only [List.insertionSort]
    rw [ih]
    generalize List.insertionSort (fun a b : String => a ≤ b) l = t
    induction t with
    | nil => rfl
    | cons b t iht =>
      simp only [List.orderedInsert, strLe_iff]

theorem sortStrings_sorted (l : List String) : (sortStrings l).Sorted (fun a b => a ≤ b) := by
  rw [sortStrings_eq]; exact List.sorted_insertionSort _ l

theorem sortStrings_perm (l : List String) : (sortStrings l).Perm l := by
  rw [sortStrings_eq]; exact List.perm_insertionSort _ l

theorem mem_sortStrings (l : List String) (h : String) : h ∈ sortStrings l ↔ h ∈ l :=
  (sortStrings_perm l).mem_iff

/-- Sorting forgets the order of its input. -/
theorem sortStrings_congr (l1 l2 : List String) (h : l1.Perm l2) :
    sortStrings l1 = sortStrings l2 :=
  List.eq_of_perm_of_sorted (((sortStrings_perm l1).trans h).trans (sortStrings_perm l2).symm)
    (sortStrings_sorted l1) (sortStrings_sorted l2)

/-- A duplicate-free list is sorted strictly after sorting. -/
theorem sortStrings_strict (l : List String) (h : l.Nodup) :
    (sortStrings l).Sorted (fun a b => a < b) := by
  have hs := sortStrings_sorted l
  have hn : (sortStrings l).Nodup := (sortStrings_perm l).nodup_iff.mpr h
  exact (List.Sorted.lt_of_le hs hn)

theorem setAdd_mem (m : List String) (s h : String) : h ∈ setAdd m s ↔ h ∈ m ∨ h = s := by
  unfold setAdd
  split
  · constructor
    · exact Or.inl
    · rintro (h1 | h1)
      · exact h1
      · subst h1; assumption
  · simp

theorem setAdd_nodup (m : List String) (s : String) (h : m.Nodup) : (setAdd m s).Nodup := by
  unfold setAdd
  split
  · exact h
  · rename_i hs
    exact List.Nodup.append h (List.nodup_singleton s) (by simpa using hs)

theorem foldl_setAdd_mem (l : List String) :
    ∀ (m : List String) (h : String), h ∈ l.foldl setAdd m ↔ h ∈ m ∨ h ∈ l := by
  induction l with
  | nil => intro m h; simp
  | cons a l ih =>
    intro m h
    simp only [List.foldl_cons, ih, setAdd_mem, List.mem_cons]
    tauto

theorem foldl_setAdd_nodup (l : List String) :
    ∀ (m : List String), m.Nodup → (l.foldl setAdd m).Nodup := by
  induction l with
  | nil => intro m h; exact h
  | cons a l ih => intro m h; exact ih _ (setAdd_nodup m a h)

/-- The set that `allNS` collects, before it is sorted. -/
theorem allNS_fold_mem (rs : List (String × queryResult)) :
    ∀ (m : List String) (h : String),
      h ∈ rs.foldl (fun m e => e.2.NS.foldl setAdd m) m ↔ h ∈ m ∨ ∃ e ∈ rs, h ∈ e.2.NS := by
  induction rs with
  | nil => intro m h; simp
  | cons a rs ih =>
    intro m h
    simp only [List.foldl_cons, ih, foldl_setAdd_mem, List.mem_cons, exists_eq_or_imp]
    tauto

theorem allNS_fold_nodup (rs : List (String × queryResult)) :
    ∀ (m : List String), m.Nodup →
      (rs.foldl (fun m e => e.2.NS.foldl setAdd m) m).Nodup := by
  induction rs with
  | nil => intro m h; exact h
  | cons a rs ih => intro m h; exact ih _ (foldl_setAdd_nodup _ m h)

theorem allNS_mem (g : queryGroup) (h : String) :
    h ∈ g.allNS ↔ ∃ e ∈ g.Results, h ∈ e.2.NS := by
  unfold queryGroup.allNS
  simp only [mem_sortStrings, stringMapToArrayKeys, allNS_fold_mem]
  simp

theorem allNS_strict (g : queryGroup) : g.allNS.Sorted (fun a b => a < b) := by
  unfold queryGroup.allNS
  exact sortStrings_strict _ (allNS_fold_nodup _ [] List.nodup_nil)

/-- Two strictly sorted lists with the same members are equal. -/
theorem sorted_ext (l1 l2 : List String) (h1 : l1.Sorted (fun a b => a < b))
    (h2 : l2.Sorted (fun a b => a < b)) (h : ∀ x, x ∈ l1 ↔ x ∈ l2) : l1 = l2 :=
  List.eq_of_perm_of_sorted
    ((List.perm_ext_iff_of_nodup h1.nodup h2.nodup).mpr h) h1 h2

/-! ## The query layer -/

theorem errgroupWait_nil (l : List GoError) (h : ∀ e ∈ l, e = none) : errgroupWait l = none := by
  unfold errgroupWait
  have : l.find? (fun e => e.isSome) = none := by
    rw [List.find?_eq_none]
    intro e he
    simp [h e he]
  simp [this]

/-- `queryNSParallel` always returns a group and a nil error, and this is the group. -/
theorem queryNSParallel_eq (ex : Exchanger) (domain : String) (servers : List String) :
    queryNSParallel ex domain servers = .ok (queryNSParallel.result ex domain servers) := by
  unfold queryNSParallel
  simp only
  rw [errgroupWait_nil]
  · rfl
  · intro e he
    simp only [List.mem_map] at he
    obtain ⟨t, ⟨server, -, rfl⟩, rfl⟩ := he
    rfl

theorem allNS_congr (g1 g2 : queryGroup) (h : g1.Results = g2.Results) : g1.allNS = g2.allNS := by
  unfold queryGroup.allNS; rw [h]

theorem mem_mapInsert {V : Type} (m : List (String × V)) (k : String) (v : V) (e : String × V)
    (h : e ∈ mapInsert m k v) : e = (k, v) ∨ e ∈ m := by
  induction m with
  | nil => simpa [mapInsert] using h
  | cons a m ih =>
    obtain ⟨k0, v0⟩ := a
    simp only [mapInsert] at h
    split at h
    · rcases List.mem_cons.mp h with h1 | h1
      · exact Or.inl h1
      · exact Or.inr (List.mem_cons_of_mem _ h1)
    · rcases List.mem_cons.mp h with h1 | h1
      · exact Or.inr (h1 ▸ List.mem_cons_self _ _)
      · rcases ih h1 with h2 | h2
        · exact Or.inl h2
        · exact Or.inr (List.mem_cons_of_mem _ h2)

theorem mem_foldl_mapInsert {V : Type} (l : List (String × V)) :
    ∀ (m : List (String × V)) (e : String × V),
      e ∈ l.foldl (fun m e => mapInsert m e.1 e.2) m → e ∈ m ∨ e ∈ l := by
  induction l with
  | nil => intro m e h; exact Or.inl h
  | cons a l ih =>
    intro m e h
    rcases ih _ e h with h1 | h1
    · rcases mem_mapInsert m a.1 a.2 e h1 with h2 | h2
      · exact Or.inr (h2 ▸ List.mem_cons_self _ _)
      · exact Or.inl h2
    · exact Or.inr (List.mem_cons_of_mem _ h1)

/-- Every entry of the result map is the result that `queryNSServer` gave for its server. -/
theorem mem_resultsMap (ex : Exchanger) (domain : String) (servers : List String)
    (e : String × queryResult) (h : e ∈ resultsMap ex domain servers) :
    e.1 ∈ servers ∧ e.2 = (queryNSParallel.task ex (Fqdn domain) e.1).1 := by
  unfold resultsMap at h
  rcases mem_foldl_mapInsert _ [] e h with h1 | h1
  · simp at h1
  · rw [List.map_map, List.zip_map_right] at h1
    simp only [List.mem_map] at h1
    obtain ⟨p, hp, rfl⟩ := h1
    have hp2 : p.1 = p.2 := by
      have := List.mem_iff_get.mp hp
      obtain ⟨n, hn⟩ := this
      rw [← hn]
      simp [List.get_eq_getElem, List.getElem_zip]
    refine ⟨(List.of_mem_zip hp).1, ?_⟩
    simp [hp2]

/-- A server whose query failed has no NS list. -/
theorem task_err_NS (ex : Exchanger) (domain server : String)
    (h : (queryNSParallel.task ex domain server).1.Err ≠ none) :
    (queryNSParallel.task ex domain server).1.NS = [] := by
  unfold queryNSParallel.task queryNSServer at h ⊢
  simp only at h ⊢
  split at h
  · rename_i heq; simp [heq]
  · simp at h

/-- C6: `allNS` is strictly increasing (so free of duplicates); a host name is in it exactly
when it is in the NS list of some per-server result; permuting the per-server results (the
order in which the map is visited) does not change it; the group that `queryNSParallel`
returns has `allNS` as its NS field, and its errored servers have an empty NS list, so they
contribute nothing; and the results a, b / a, c / error give a, b, c, also when they are
obtained from three servers through `queryNSParallel`, which keeps for each server its own
list, flag and error. -/
theorem allNS_union (g : queryGroup) (ex : Exchanger) (domain : String) (servers : List String) :
    g.allNS.Sorted (fun a b => a < b) ∧
    (∀ h, h ∈ g.allNS ↔ ∃ e ∈ g.Results, h ∈ e.2.NS) ∧
    (∀ g2 : queryGroup, g2.Results.Perm g.Results → g2.allNS = g.allNS) ∧
    (∃ r, queryNSParallel ex domain servers = .ok r ∧ r.NS = r.allNS ∧
      ∀ e ∈ r.Results, e.2.Err ≠ none → e.2.NS = []) ∧
    unionExample.allNS = ["a", "b", "c"] ∧
    queryNSParallel unionNet "example.com" ["s1", "s2", "s3"] = .ok unionExample := by
  refine ⟨allNS_strict g, allNS_mem g, ?_, ?_, by decide,
    (queryNSParallel_eq unionNet "example.com" ["s1", "s2", "s3"]).trans
      (congrArg Except.ok (by decide))⟩
  · intro g2 hperm
    apply sorted_ext _ _ (allNS_strict g2) (allNS_strict g)
    intro x
    rw [allNS_mem, allNS_mem]
    constructor
    · rintro ⟨e, he, hx⟩; exact ⟨e, hperm.mem_iff.mp he, hx⟩
    · rintro ⟨e, he, hx⟩; exact ⟨e, hperm.mem_iff.mpr he, hx⟩
  · refine ⟨_, queryNSParallel_eq ex domain servers, allNS_congr _ _ rfl, ?_⟩
    intro e he herr
    obtain ⟨-, h2⟩ := mem_resultsMap ex domain servers e he
    rw [h2] at herr ⊢
    exact task_err_NS ex _ _ herr

/-- Witness for C6, on the union example: "c", reported by the second server only, is in
the union, and the union is the same when the servers are visited in the reverse order. -/
theorem allNS_union_witness :
    "c" ∈ unionExample.allNS ∧
      queryGroup.allNS { unionExample with Results := unionExample.Results.reverse } =
        unionExample.allNS :=
  ⟨((allNS_union unionExample (fun _ _ _ => .error "down") "example.com" []).2.1 "c").mpr
      ⟨("s2", { Err := none, Authoritative := true, NS := ["a", "c"] }), by decide, by decide⟩,
   (allNS_union unionExample (fun _ _ _ => .error "down") "example.com" []).2.2.1
      { unionExample with Results := unionExample.Results.reverse }
      (List.reverse_perm _)⟩

/-! ## checks.go: response-set agreement -/

theorem mem_StringArrayToMap (b : List String) (s : String) : s ∈ StringArrayToMap b ↔ s ∈ b := by
  unfold StringArrayToMap
  rw [foldl_setAdd_mem]
  simp

/-- `ExtraStrings a b` keeps the strings of `a` that are not in `b`, in the order of `a`. -/
theorem ExtraStrings_eq (a b : List String) :
    ExtraStrings a b = a.filter (fun s => decide (s ∉ b)) := by
  unfold ExtraStrings
  apply List.filter_congr
  intro s _
  simp [mem_StringArrayToMap]

theorem checkEqualResultResponse_foldl (r : queryGroup) (l : List (String × queryResult)) :
    ∀ acc : Nat × List Finding,
      l.foldl (fun acc e =>
          (acc.1 + (checkEqualResultResponse.body r e).1,
           acc.2 ++ (checkEqualResultResponse.body r e).2)) acc =
        (acc.1 + (l.countP (fun e => e.2.Err.isSome) +
            l.countP (fun e => e.2.Err.isNone && decide (e.2.NS.length ≠ r.NS.length))),
         acc.2 ++ l.flatMap (fun e => (checkEqualResultResponse.body r e).2)) := by
  induction l with
  | nil => intro acc; simp
  | cons a l ih =>
    intro acc
    rw [List.foldl_cons, ih]
    have hb : (checkEqualResultResponse.body r a).1 =
        (if a.2.Err.isSome then 1 else 0) +
          (if (a.2.Err.isNone && decide (a.2.NS.length ≠ r.NS.length)) = true then 1 else 0) := by
      unfold checkEqualResultResponse.body
      cases a.2.Err with
      | some err => simp
      | none =>
        by_cases hlen : a.2.NS.length = r.NS.length <;> simp [hlen]
    simp only [List.countP_cons, List.flatMap_cons, hb, List.append_assoc]
    congr 1
    omega

theorem mapInsert_length {V : Type} (m : List (String × V)) (k : String) (v : V) :
    (mapInsert m k v).length ≤ m.length + 1 := by
  induction m with
  | nil => simp [mapInsert]
  | cons a m ih =>
    obtain ⟨k0, v0⟩ := a
    simp only [mapInsert]
    split
    · simp
    · simp only [List.length_cons]; omega

theorem foldl_mapInsert_length {V : Type} (l : List (String × V)) :
    ∀ m : List (String × V),
      (l.foldl (fun m e => mapInsert m e.1 e.2) m).length ≤ m.length + l.length := by
  induction l with
  | nil => intro m; simp
  | cons a l ih =>
    intro m
    have h1 := ih (mapInsert m a.1 a.2)
    have h2 := mapInsert_length m a.1 a.2
    simp only [List.foldl_cons, List.length_cons]
    omega

/-- The map of a group holds at most one result for each server asked. -/
theorem resultsMap_length (ex : Exchanger) (domain : String) (servers : List String) :
    (resultsMap ex domain servers).length ≤ servers.length := by
  unfold resultsMap
  have := foldl_mapInsert_length
    (servers.zip ((servers.map (fun server => queryNSParallel.task ex (Fqdn domain) server)).map
      (fun t => t.1))) []
  simp only [List.length_nil, Nat.zero_add, List.length_zip, List.length_map,
    Nat.min_self] at this
  exact this

/-- Each server of the map counts at most once. -/
theorem checkEqualResultResponse_le (r : queryGroup) :
    (checkEqualResultResponse r).1 ≤ r.Results.length := by
  have hfold := checkEqualResultResponse_foldl r r.Results (0, [])
  have h1 : (checkEqualResultResponse r).1 =
        r.Results.countP (fun e => e.2.Err.isSome) +
          r.Results.countP (fun e => e.2.Err.isNone && decide (e.2.NS.length ≠ r.NS.length)) := by
    unfold checkEqualResultResponse; rw [hfold]; simp
  rw [h1]
  have hdisj : ∀ l : List (String × queryResult),
      l.countP (fun e => e.2.Err.isSome) +
        l.countP (fun e => e.2.Err.isNone && decide (e.2.NS.length ≠ r.NS.length)) ≤
          l.length := by
    intro l
    induction l with
    | nil => simp
    | cons a l ih =>
      simp only [List.countP_cons, List.length_cons]
      have hone : (if a.2.Err.isSome = true then 1 else 0) +
          (if (a.2.Err.isNone && decide (a.2.NS.length ≠ r.NS.length)) = true then 1 else 0)
            ≤ 1 := by
        cases a.2.Err with
        | some err => simp
        | none => by_cases hlen : a.2.NS.length = r.NS.length <;> simp [hlen]
      omega
  exact hdisj _

/-- C7: `checkEqualResultResponse` returns the number of servers that errored plus the number
of servers without error whose NS list differs in length from the NS list of the group;
the result is at most the number of servers in the map, and for a group built by
`queryNSParallel` at most the number of servers asked; the findings are those of the
servers, one at most for each, in the order of the visit; a server without error whose
list differs in length is reported with its missing list, which is the list of the entries
of the group NS list that are absent from the list of the server, in the order of the
group list. -/
theorem checkEqualResultResponse_count (r : queryGroup) (ex : Exchanger) (domain : String)
    (servers : List String) :
    (checkEqualResultResponse (queryNSParallel.result ex domain servers)).1 ≤ servers.length ∧
    (checkEqualResultResponse r).1 =
        r.Results.countP (fun e => e.2.Err.isSome) +
          r.Results.countP (fun e => e.2.Err.isNone && decide (e.2.NS.length ≠ r.NS.length)) ∧
    (checkEqualResultResponse r).1 ≤ r.Results.length ∧
    (checkEqualResultResponse r).2 =
        r.Results.flatMap (fun e => (checkEqualResultResponse.body r e).2) ∧
    (∀ e : String × queryResult, (checkEqualResultResponse.body r e).1 ≤ 1 ∧
      (checkEqualResultResponse.body r e).2.length = (checkEqualResultResponse.body r e).1) ∧
    (∀ e ∈ r.Results, e.2.Err = none → e.2.NS.length ≠ r.NS.length →
      checkEqualResultResponse.body r e =
          (1, [Finding.varying r.NS.length e.2.NS.length r.Domain e.1
            (r.NS.filter (fun s => decide (s ∉ e.2.NS)))]) ∧
        Finding.varying r.NS.length e.2.NS.length r.Domain e.1
            (r.NS.filter (fun s => decide (s ∉ e.2.NS))) ∈ (checkEqualResultResponse r).2) := by
  have hfold := checkEqualResultResponse_foldl r r.Results (0, [])
  have h1 : (checkEqualResultResponse r).1 =
        r.Results.countP (fun e => e.2.Err.isSome) +
          r.Results.countP (fun e => e.2.Err.isNone && decide (e.2.NS.length ≠ r.NS.length)) := by
    unfold checkEqualResultResponse; rw [hfold]; simp
  have h2 : (checkEqualResultResponse r).2 =
        r.Results.flatMap (fun e => (checkEqualResultResponse.body r e).2) := by
    unfold checkEqualResultResponse; rw [hfold]; simp
  have hbody : ∀ e : String × queryResult, e.2.Err = none → e.2.NS.length ≠ r.NS.length →
      checkEqualResultResponse.body r e =
          (1, [Finding.varying r.NS.length e.2.NS.length r.Domain e.1
            (r.NS.filter (fun s => decide (s ∉ e.2.NS)))]) := by
    intro e he hlen
    unfold checkEqualResultResponse.body
    rw [he]
    simp only [hlen, ne_eq, not_false_eq_true, if_true, ExtraStrings_eq]
  refine ⟨?_, h1, ?_, h2, ?_, ?_⟩
  · exact (checkEqualResultResponse_le _).trans (resultsMap_length ex domain servers)
  · exact checkEqualResultResponse_le r
  · intro e
    unfold checkEqualResultResponse.body
    cases e.2.Err with
    | some err => simp
    | none => by_cases hlen : e.2.NS.length = r.NS.length <;> simp [hlen]
  · intro e he herr hlen
    refine ⟨hbody e herr hlen, ?_⟩
    rw [h2, List.mem_flatMap]
    exact ⟨e, he, by rw [hbody e herr hlen]; simp⟩

/-- Witness for C7, on the union example: the third server errored and the first two
returned two names where the group has three, so the count is 3; the first server is
reported with the missing entry "c". -/
theorem checkEqualResultResponse_count_witness :
    (checkEqualResultResponse unionExample).1 = 3 ∧
      Finding.varying 3 2 "example.com" "s1" ["c"] ∈ (checkEqualResultResponse unionExample).2 :=
  ⟨by decide,
   ((checkEqualResultResponse_count unionExample unionNet "example.com" []).2.2.2.2.2
      ("s1", { Err := none, Authoritative := true, NS := ["a", "b"] })
      (by decide) rfl (by decide)).2⟩

/-! ## checks.go: lameness -/

theorem StringArrayEquals_iff (a b : List String) : StringArrayEquals a b = true ↔ a = b := by
  unfold StringArrayEquals
  constructor
  · intro h
    split at h
    · exact absurd h (by simp)
    · rename_i hlen
      have hlen2 : a.length = b.length := by simpa using hlen
      apply List.ext_getElem hlen2
      intro i h1 h2
      rw [List.all_eq_true] at h
      have := h i (List.mem_range.mpr h1)
      simpa [List.getD_eq_getElem?_getD, List.getElem?_eq_getElem h1,
        List.getElem?_eq_getElem h2] using this
  · rintro rfl
    simp

theorem result_NS_eq (ex : Exchanger) (domain : String) (servers : List String) :
    (queryNSParallel.result ex domain servers).NS =
      (queryNSParallel.result ex domain servers).allNS := rfl

theorem checkLame_foldl (d : String) (l : List (String × queryResult)) :
    ∀ acc : Bool × List Finding,
      (l.foldl (fun acc e =>
          if !e.2.Authoritative then (true, acc.2 ++ [Finding.notAuthoritative e.1 d])
          else acc) acc).1 = (acc.1 || l.any (fun e => !e.2.Authoritative)) := by
  induction l with
  | nil => intro acc; simp
  | cons a l ih =>
    intro acc
    rw [List.foldl_cons, ih]
    cases h : a.2.Authoritative <;> simp [h]

/-- The flag `checkLame` returns, in terms of the group of the second query. -/
theorem checkLame_lame (ex : Exchanger) (q : queryGroup) :
    (checkLame ex q).lame =
      (!StringArrayEquals q.NS (queryNSParallel.result ex q.Domain q.NS).NS ||
        (queryNSParallel.result ex q.Domain q.NS).Results.any (fun e => !e.2.Authoritative)) := by
  unfold checkLame
  simp only [queryNSParallel_eq]
  rw [checkLame_foldl]
  cases StringArrayEquals q.NS (queryNSParallel.result ex q.Domain q.NS).NS <;> simp

/-! ## work_name.go: one level of the walk -/

/-- The round of a level whose key is unclaimed: the task becomes the owner, queries the
zone, publishes the server list, runs the checks, and goes on. -/
theorem body_owner (ex : Exchanger) (expected : List String) (labels : List String) (i : Nat)
    (st : WalkState) (h : st.world.seen.locks (labels.getD i "") = none) :
    processName.body ex expected labels i st =
      ({ world :=
          { seen := ownerSeen st.world.seen (labels.getD i "")
              (nextServers (st.world.rangeOrder (labels.getD i ""))
                (queryNSParallel.result ex (labels.getD i "") st.servers)),
            queries := (st.world.queries ++ [(Fqdn (labels.getD i ""), st.servers)]) ++
              (checkLame ex (queryNSParallel.result ex (labels.getD i "") st.servers)).queries,
            findings := st.world.findings ++
              (checkEqualResultResponse
                (queryNSParallel.result ex (labels.getD i "") st.servers)).2 ++
              (checkLame ex (queryNSParallel.result ex (labels.getD i "") st.servers)).findings ++
              (if i = 0 then checkExpectedNS expected
                (queryNSParallel.result ex (labels.getD i "") st.servers) else (0, [])).2,
            rangeOrder := st.world.rangeOrder },
         w := { st.w with
           Lame := (checkLame ex (queryNSParallel.result ex (labels.getD i "") st.servers)).lame,
           Problems :=
             if i = 0 then
               uintAdd
                 (if (checkLame ex
                     (queryNSParallel.result ex (labels.getD i "") st.servers)).lame then
                   uintAdd (uintAdd st.w.Problems (checkEqualResultResponse
                     (queryNSParallel.result ex (labels.getD i "") st.servers)).1) 1
                 else uintAdd st.w.Problems (checkEqualResultResponse
                   (queryNSParallel.result ex (labels.getD i "") st.servers)).1)
                 (if i = 0 then checkExpectedNS expected
                   (queryNSParallel.result ex (labels.getD i "") st.servers) else (0, [])).1
             else if (checkLame ex
                 (queryNSParallel.result ex (labels.getD i "") st.servers)).lame then
               uintAdd (uintAdd st.w.Problems (checkEqualResultResponse
                 (queryNSParallel.result ex (labels.getD i "") st.servers)).1) 1
             else uintAdd st.w.Problems (checkEqualResultResponse
               (queryNSParallel.result ex (labels.getD i "") st.servers)).1 },
         servers := nextServers (st.world.rangeOrder (labels.getD i ""))
           (queryNSParallel.result ex (labels.getD i "") st.servers),
         action := true }, none) := by
  unfold processName.body
  simp only [Cache.AddCheck, h, queryNSParallel_eq, AddFunc.call, Cache.closeLock, mapSet_same,
    makeChan, ErrChan.close, Bool.false_eq_true, if_false, ownerSeen]

/-- C4, as amended: let `q` be a group whose NS list is its `allNS` union, and let `r` be the
group that `queryNSParallel(q.Domain, q.NS)` returns (it always returns one). `checkLame(q)`
is true exactly when the set of host names of `r.NS` differs from the set of host names of
`q.NS` or some per-server result of `r` lacks the authoritative flag. In `processName`, the
round of a level that the task owns sets `w.Lame` to what `checkLame` returned for the group
of the level, and when that is true the round adds `k` to `w.Problems` in the arithmetic of
`uint`, where `k` is at least one: one for the lame level, plus the servers counted by
`checkEqualResultResponse`, plus, at the last level, the names counted by `checkExpectedNS`.
The count after the round is the count before plus `k` modulo two to the power 64, so it is
at least one more than before whenever the count before plus `k` stays below that power. -/
theorem checkLame_iff (ex : Exchanger) (q : queryGroup) (hq : q.NS = q.allNS)
    (expected labels : List String) (i : Nat) (st : WalkState)
    (hfree : st.world.seen.locks (labels.getD i "") = none) :
    queryNSParallel ex q.Domain q.NS = .ok (queryNSParallel.result ex q.Domain q.NS) ∧
    ((checkLame ex q).lame = true ↔
      (¬ ∀ h, h ∈ (queryNSParallel.result ex q.Domain q.NS).NS ↔ h ∈ q.NS) ∨
        ∃ e ∈ (queryNSParallel.result ex q.Domain q.NS).Results, e.2.Authoritative = false) ∧
    (processName.body ex expected labels i st).2 = none ∧
    (processName.body ex expected labels i st).1.w.Lame =
      (checkLame ex (queryNSParallel.result ex (labels.getD i "") st.servers)).lame ∧
    ((checkLame ex (queryNSParallel.result ex (labels.getD i "") st.servers)).lame = true →
      (processName.body ex expected labels i st).1.w.Problems =
        (st.w.Problems +
          ((checkEqualResultResponse
              (queryNSParallel.result ex (labels.getD i "") st.servers)).1 + 1 +
            (if i = 0 then checkExpectedNS expected
              (queryNSParallel.result ex (labels.getD i "") st.servers) else (0, [])).1)) %
          uintRange ∧
      (st.w.Problems +
          ((checkEqualResultResponse
              (queryNSParallel.result ex (labels.getD i "") st.servers)).1 + 1 +
            (if i = 0 then checkExpectedNS expected
              (queryNSParallel.result ex (labels.getD i "") st.servers) else (0, [])).1) <
          uintRange →
        st.w.Problems + 1 ≤ (processName.body ex expected labels i st).1.w.Problems)) := by
  refine ⟨queryNSParallel_eq ex q.Domain q.NS, ?_, ?_, ?_, ?_⟩
  · rw [checkLame_lame, Bool.or_eq_true, List.any_eq_true]
    have hset : StringArrayEquals q.NS (queryNSParallel.result ex q.Domain q.NS).NS = true ↔
        ∀ h, h ∈ (queryNSParallel.result ex q.Domain q.NS).NS ↔ h ∈ q.NS := by
      rw [StringArrayEquals_iff]
      constructor
      · intro heq h; rw [← heq]
      · intro hmem
        apply sorted_ext
        · rw [hq]; exact allNS_strict q
        · rw [result_NS_eq]; exact allNS_strict _
        · intro x; exact (hmem x).symm
    constructor
    · rintro (h1 | ⟨e, he, h2⟩)
      · left
        rw [← hset]
        simpa using h1
      · right
        exact ⟨e, he, by simpa using h2⟩
    · rintro (h1 | ⟨e, he, h2⟩)
      · left
        rw [← hset] at h1
        simpa using h1
      · right
        exact ⟨e, he, by simp [h2]⟩
  · rw [body_owner ex expected labels i st hfree]
  · rw [body_owner ex expected labels i st hfree]
  · intro hl
    rw [body_owner ex expected labels i st hfree]
    simp only [hl, if_true, uintAdd, uintRange]
    by_cases hi : i = 0
    · simp only [hi, if_true]
      constructor
      · omega
      · intro hlt; omega
    · simp only [hi, if_false]
      constructor
      · omega
      · intro hlt; omega

/-- Witness for C4: in the network `lameNet` the group of "com" obtained from the root
servers is lame, since a.gtld-servers.net answers without the authoritative flag; the round
of the level "com" of the task "example.com", which starts at 0, then counts a problem. -/
theorem checkLame_iff_witness :
    (checkLame lameNet (queryNSParallel.result lameNet "com" rootServers)).lame = true ∧
      exampleStart.w.Problems + 1 ≤
        (processName.body lameNet [] ["example.com", "com"] 1 exampleStart).1.w.Problems :=
  ⟨((checkLame_iff lameNet (queryNSParallel.result lameNet "com" rootServers) rfl
      [] ["example.com", "com"] 1 exampleStart rfl).2.1).mpr
      (Or.inr ⟨("a.gtld-servers.net",
        { Err := none, Authoritative := false, NS := ["a.gtld-servers.net"] }),
        by decide, rfl⟩),
   ((checkLame_iff lameNet (queryNSParallel.result lameNet "com" rootServers) rfl
      [] ["example.com", "com"] 1 exampleStart rfl).2.2.2.2 (by decide)).2 (by decide)⟩

/-- C4 as stated fails on the code: the task "example.com" enters `processName` with the
largest value of `uint` in `Problems`; in the network `lameNet` the level "com" is lame, the
statement `w.Problems++` wraps around, and the count after the round, and when
`processName` returns, is 0: it has not grown by one. -/
theorem checkLame_count_wraps :
    (checkLame lameNet (queryNSParallel.result lameNet "com" rootServers)).lame = true ∧
    wrapStart.w.Problems = 18446744073709551615 ∧
    (processName.body lameNet [] ["example.com", "com"] 1 wrapStart).1.w.Problems = 0 ∧
    (processName lameNet [] World.start
        { Name := "example.com", Lame := false, Problems := 18446744073709551615 }).2 =
      ({ Name := "example.com", Lame := false, Problems := 0 }, .ret none) := by
  decide

/-! ## The loops of the DNS library end -/

theorem NextLabel_loop_false (s : List Char) :
    ∀ (n i : Nat), (NextLabel.loop s n i).2 = false →
      i < (NextLabel.loop s n i).1 ∧ (NextLabel.loop s n i).1 ≤ i + n := by
  intro n
  induction n with
  | zero => intro i h; simp [NextLabel.loop] at h
  | succ n ih =>
    intro i h
    unfold NextLabel.loop at h ⊢
    split
    · simp
    · rename_i hc
      rw [if_neg hc] at h
      have := ih (i + 1) h
      omega

/-- When `NextLabel` does not report the end, the offset it returns is beyond the one it
was given and inside the name. -/
theorem NextLabel_false (s : String) (off : Nat) (h : (NextLabel s off).2 = false) :
    off < (NextLabel s off).1 ∧ (NextLabel s off).1 < s.data.length := by
  unfold NextLabel at h ⊢
  split
  · rename_i hs; rw [if_pos hs] at h; simp at h
  · rename_i hs
    rw [if_neg hs] at h
    have := NextLabel_loop_false s.data _ _ h
    have hpos : 0 < s.data.length - 1 - off := by
      by_contra hn
      have h0 : s.data.length - 1 - off = 0 := by omega
      rw [h0] at h
      simp [NextLabel.loop] at h
    omega

/-- The loop of `Split` ends before its fuel runs out. -/
theorem Split_loop_isSome (s : String) :
    ∀ (fuel off : Nat) (idx : List Nat), off ≤ s.data.length → s.data.length < off + fuel →
      (Split.loop s fuel off idx).isSome = true := by
  intro fuel
  induction fuel with
  | zero => intro off idx h1 h2; omega
  | succ fuel ih =>
    intro off idx h1 h2
    unfold Split.loop
    cases h : (NextLabel s off).2
    · simp only [Bool.false_eq_true, if_false]
      have := NextLabel_false s off h
      exact ih _ _ (by omega) (by omega)
    · simp

/-- The loop of `CountLabel` ends before its fuel runs out. -/
theorem CountLabel_loop_isSome (s : String) :
    ∀ (fuel off n : Nat), off ≤ s.data.length → s.data.length < off + fuel →
      (CountLabel.loop s fuel off n).isSome = true := by
  intro fuel
  induction fuel with
  | zero => intro off n h1 h2; omega
  | succ fuel ih =>
    intro off n h1 h2
    unfold CountLabel.loop
    cases h : (NextLabel s off).2
    · simp only [Bool.false_eq_true, if_false]
      have := NextLabel_false s off h
      exact ih _ _ (by omega) (by omega)
    · simp

/-- `Split` and `CountLabel` return what their loops compute, for every name. -/
theorem Split_CountLabel_total (s : String) :
    (Split.loop s (s.data.length + 1) 0 [0]).isSome = true ∧
      (CountLabel.loop s (s.data.length + 1) 0 0).isSome = true :=
  ⟨Split_loop_isSome s _ 0 [0] (by omega) (by omega),
   CountLabel_loop_isSome s _ 0 0 (by omega) (by omega)⟩

/-! ## Names and labels -/

theorem joinLabels_cons_cons (a b : String) (rest : List String) :
    (joinLabels (a :: b :: rest)).data = a.data ++ '.' :: (joinLabels (b :: rest)).data := by
  simp [joinLabels, String.data_append]

theorem joinLabels_data_ne_nil (a : String) (rest : List String) (ha : a.data ≠ []) :
    (joinLabels (a :: rest)).data ≠ [] := by
  cases rest with
  | nil => simpa [joinLabels] using ha
  | cons b rest => rw [joinLabels_cons_cons]; simp [ha]

theorem length_le_joinLabels (ls : List String) (h : ∀ l ∈ ls, PlainLabel l) :
    ls.length ≤ (joinLabels ls).data.length := by
  induction ls with
  | nil => simp
  | cons a rest ih =>
    have ha : 1 ≤ a.data.length := by
      have := (h a (List.mem_cons_self _ _)).1
      exact List.length_pos.mpr this
    cases rest with
    | nil => simpa [joinLabels] using ha
    | cons b rest =>
      rw [joinLabels_cons_cons]
      have := ih (fun l hl => h l (List.mem_cons_of_mem _ hl))
      simp only [List.length_cons, List.length_append] at this ⊢
      omega

theorem getElem?_append_cons (pre : List Char) (c : Char) (rest : List Char) :
    (pre ++ c :: rest)[pre.length]? = some c := by
  induction pre with
  | nil => simp
  | cons a pre ih => simpa using ih

theorem NextLabel_loop_end (lab : List Char) (rest : List Char) (hlab : '.' ∉ lab) :
    ∀ (n : Nat) (pre : List Char), n ≤ lab.length →
      (NextLabel.loop (pre ++ (lab ++ rest)) n pre.length).2 = true := by
  induction lab with
  | nil =>
    intro n pre hn
    have : n = 0 := by simpa using hn
    subst this
    rfl
  | cons c lab ih =>
    intro n pre hn
    cases n with
    | zero => rfl
    | succ m =>
      have hc : c ≠ '.' := fun h => hlab (h ▸ List.mem_cons_self _ _)
      unfold NextLabel.loop
      rw [List.cons_append, getElem?_append_cons]
      simp only [Option.some.injEq, hc, false_and, if_false]
      have := ih (fun h => hlab (List.mem_cons_of_mem _ h)) m (pre ++ [c])
        (by simpa using hn)
      simpa using this

theorem backslashesBefore_eq_zero (pre rest : List Char) (h : pre.getLast? ≠ some '\\') :
    backslashesBefore (pre ++ rest) pre.length = 0 := by
  rcases List.eq_nil_or_concat pre with hp | ⟨p, c, hp⟩
  · subst hp; rfl
  · subst hp
    have hc : c ≠ '\\' := by simpa using h
    have hg : (p ++ c :: rest)[p.length]? = some c := getElem?_append_cons p c rest
    simp only [List.concat_eq_append, List.length_append, List.length_singleton,
      backslashesBefore, List.append_assoc, List.singleton_append, hg, Option.some.injEq, hc,
      if_false]

theorem NextLabel_loop_found (lab : List Char) (rest : List Char) (hlab : '.' ∉ lab) :
    ∀ (n : Nat) (pre : List Char), (pre ++ lab).getLast? ≠ some '\\' → lab.length < n →
      NextLabel.loop (pre ++ (lab ++ '.' :: rest)) n pre.length =
        (pre.length + lab.length + 1, false) := by
  induction lab with
  | nil =>
    intro n pre hlast hn
    cases n with
    | zero => simp at hn
    | succ m =>
      have hb : backslashesBefore (pre ++ '.' :: rest) pre.length = 0 :=
        backslashesBefore_eq_zero pre _ (by simpa using hlast)
      unfold NextLabel.loop
      rw [List.nil_append, getElem?_append_cons, hb]
      simp
  | cons c lab ih =>
    intro n pre hlast hn
    cases n with
    | zero => simp at hn
    | succ m =>
      have hc : c ≠ '.' := fun h => hlab (h ▸ List.mem_cons_self _ _)
      unfold NextLabel.loop
      rw [List.cons_append, getElem?_append_cons]
      simp only [Option.some.injEq, hc, false_and, if_false]
      have := ih (fun h => hlab (List.mem_cons_of_mem _ h)) m (pre ++ [c])
        (by simpa using hlast) (by simpa using hn)
      simp only [List.append_assoc, List.singleton_append, List.length_append,
        List.length_singleton, List.length_cons, List.length_nil, Nat.zero_add] at this ⊢
      rw [this]
      congr 1
      omega

theorem plain_getLast (pre : List Char) (a : String) (ha : PlainLabel a) :
    (pre ++ a.data).getLast? ≠ some '\\' := by
  rw [List.getLast?_append_of_ne_nil _ ha.1]
  intro h
  exact ha.2.2 (List.mem_of_mem_getLast? (by simp [h]))

theorem NextLabel_end (s : String) (pre lab tl : List Char)
    (hs : s.data = pre ++ (lab ++ tl)) (hlab : '.' ∉ lab) (htl : tl.length ≤ 1) :
    (NextLabel s pre.length).2 = true := by
  unfold NextLabel
  split
  · rfl
  · rw [hs]
    apply NextLabel_loop_end lab tl hlab
    simp only [List.length_append]
    omega

theorem NextLabel_found (s : String) (pre lab rest : List Char) (c : Char)
    (hs : s.data = pre ++ (lab ++ '.' :: c :: rest)) (hlab : '.' ∉ lab)
    (hlast : (pre ++ lab).getLast? ≠ some '\\') :
    NextLabel s pre.length = (pre.length + lab.length + 1, false) := by
  unfold NextLabel
  have hne : s ≠ "" := by
    intro h
    rw [h] at hs
    simp at hs
  rw [if_neg hne, hs]
  apply NextLabel_loop_found lab (c :: rest) hlab _ pre hlast
  simp only [List.length_append, List.length_cons]
  omega

/-- On a plain name `Split.loop` finds the starts of the labels that follow the current one. -/
theorem Split_loop_plain (s : String) (tl : List Char) (htl : tl.length ≤ 1) :
    ∀ (ls : List String), ls ≠ [] → (∀ l ∈ ls, PlainLabel l) →
      ∀ (pre : List Char) (fuel : Nat) (idx : List Nat),
        s.data = pre ++ ((joinLabels ls).data ++ tl) → ls.length ≤ fuel →
          Split.loop s fuel pre.length idx = some (idx ++ (labelStarts pre.length ls).tail) := by
  intro ls
  induction ls with
  | nil => intro h; exact absurd rfl h
  | cons a rest ih =>
    intro _ hplain pre fuel idx hs hfuel
    have ha := hplain a (List.mem_cons_self _ _)
    cases fuel with
    | zero => simp at hfuel
    | succ f =>
      cases rest with
      | nil =>
        have hend : (NextLabel s pre.length).2 = true :=
          NextLabel_end s pre a.data tl (by simpa [joinLabels] using hs) ha.2.1 htl
        simp [Split.loop, hend, labelStarts]
      | cons b rest =>
        have hb := hplain b (List.mem_cons_of_mem _ (List.mem_cons_self _ _))
        obtain ⟨c, more, hcm⟩ := List.exists_cons_of_ne_nil
          (joinLabels_data_ne_nil b rest hb.1)
        have hs2 : s.data = pre ++ (a.data ++ '.' :: c :: (more ++ tl)) := by
          rw [hs, joinLabels_cons_cons, hcm]; simp
        have hfound := NextLabel_found s pre a.data (more ++ tl) c hs2 ha.2.1
          (plain_getLast pre a ha)
        have hs3 : s.data = (pre ++ (a.data ++ ['.'])) ++ ((joinLabels (b :: rest)).data ++ tl) := by
          rw [hs, joinLabels_cons_cons]; simp
        have hih := ih (List.cons_ne_nil _ _) (fun l hl => hplain l (List.mem_cons_of_mem _ hl))
          (pre ++ (a.data ++ ['.'])) f (idx ++ [pre.length + a.data.length + 1]) hs3
          (by simpa using hfuel)
        have hlen : (pre ++ (a.data ++ ['.'])).length = pre.length + a.data.length + 1 := by
          simp only [List.length_append, List.length_singleton]; omega
        rw [hlen] at hih
        simp only [Split.loop, hfound, Bool.false_eq_true, if_false]
        rw [hih]
        simp [labelStarts]

/-- On a plain name, with or without a trailing dot, `Split` returns the starts of the
labels. -/
theorem Split_plain (s : String) (ls : List String) (tl : List Char) (htl : tl.length ≤ 1)
    (hne : ls ≠ []) (hplain : ∀ l ∈ ls, PlainLabel l)
    (hs : s.data = (joinLabels ls).data ++ tl) : Split s = labelStarts 0 ls := by
  unfold Split
  have hdot : s ≠ "." := by
    intro h
    obtain ⟨a, rest, rfl⟩ := List.exists_cons_of_ne_nil hne
    have ha := hplain a (List.mem_cons_self _ _)
    obtain ⟨c, more, hcm⟩ := List.exists_cons_of_ne_nil ha.1
    rw [h] at hs
    cases rest with
    | nil =>
      simp only [joinLabels, hcm] at hs
      have : c = '.' := by
        have := congrArg List.head? hs
        simpa using this.symm
      exact ha.2.1 (by rw [hcm, this]; exact List.mem_cons_self _ _)
    | cons b rest =>
      rw [joinLabels_cons_cons, hcm] at hs
      have : c = '.' := by
        have := congrArg List.head? hs
        simpa using this.symm
      exact ha.2.1 (by rw [hcm, this]; exact List.mem_cons_self _ _)
  rw [if_neg hdot]
  have hlen : ls.length ≤ s.data.length + 1 := by
    have := length_le_joinLabels ls hplain
    rw [hs, List.length_append]
    omega
  have := Split_loop_plain s tl htl ls hne hplain [] (s.data.length + 1) [0]
    (by simpa using hs) hlen
  simp only [List.length_nil] at this
  rw [this]
  obtain ⟨a, rest, rfl⟩ := List.exists_cons_of_ne_nil hne
  simp [labelStarts]

theorem joinLabels_getLast (ls : List String) (hne : ls ≠ [])
    (hplain : ∀ l ∈ ls, PlainLabel l) :
    (joinLabels ls).data.getLast? ≠ some '.' ∧ (joinLabels ls).data.getLast? ≠ some '\\' := by
  induction ls with
  | nil => exact absurd rfl hne
  | cons a rest ih =>
    have ha := hplain a (List.mem_cons_self _ _)
    cases rest with
    | nil =>
      simp only [joinLabels]
      constructor
      · intro h; exact ha.2.1 (List.mem_of_mem_getLast? (by simp [h]))
      · intro h; exact ha.2.2 (List.mem_of_mem_getLast? (by simp [h]))
    | cons b rest =>
      have hb := hplain b (List.mem_cons_of_mem _ (List.mem_cons_self _ _))
      rw [joinLabels_cons_cons]
      have hcons : a.data ++ '.' :: (joinLabels (b :: rest)).data =
          (a.data ++ ['.']) ++ (joinLabels (b :: rest)).data := by simp
      rw [hcons, List.getLast?_append_of_ne_nil _ (joinLabels_data_ne_nil b rest hb.1)]
      exact ih (List.cons_ne_nil _ _) (fun l hl => hplain l (List.mem_cons_of_mem _ hl))

theorem IsFqdn_plain (s : String) (ls : List String) (hne : ls ≠ [])
    (hplain : ∀ l ∈ ls, PlainLabel l) :
    (s.data = (joinLabels ls).data → IsFqdn s = false) ∧
      (s.data = (joinLabels ls).data ++ ['.'] → IsFqdn s = true) := by
  obtain ⟨h1, h2⟩ := joinLabels_getLast ls hne hplain
  constructor
  · intro hs
    unfold IsFqdn
    rw [hs, if_pos h1]
  · intro hs
    unfold IsFqdn
    rw [hs]
    simp only [List.getLast?_append, List.getLast?_singleton, Option.or_some, ne_eq,
      not_true_eq_false, if_false, List.dropLast_concat]
    rw [if_pos h2]

theorem SplitDomainNameWithParent_loop (s : String) (e : Nat) :
    ∀ (rest : List Nat) (b : Nat) (acc : List String),
      (SplitDomainNameWithParent.loop s e rest b acc).1 ++
          [substr s (SplitDomainNameWithParent.loop s e rest b acc).2 e] =
        acc ++ (b :: rest).map (fun o => substr s o e) := by
  intro rest
  induction rest with
  | nil => intro b acc; simp [SplitDomainNameWithParent.loop]
  | cons x rest ih =>
    intro b acc
    simp only [SplitDomainNameWithParent.loop]
    rw [ih]
    simp

/-- The slices `s[o:e]` taken at the starts of the labels are the names made of the labels
from each one on. -/
theorem substr_labelStarts (s : String) (tl : List Char) :
    ∀ (ls : List String) (pre : List Char),
      s.data = pre ++ ((joinLabels ls).data ++ tl) →
        (labelStarts pre.length ls).map
            (fun o => substr s o (pre.length + (joinLabels ls).data.length)) =
          (List.range ls.length).map (fun k => joinLabels (ls.drop k)) := by
  intro ls
  induction ls with
  | nil => intro pre _; rfl
  | cons a rest ih =>
    intro pre hs
    have hfirst : substr s pre.length (pre.length + (joinLabels (a :: rest)).data.length) =
        joinLabels (a :: rest) := by
      apply String.ext
      simp only [substr]
      rw [hs, List.take_append, List.take_left, List.drop_left]
    rw [List.length_cons, List.range_succ_eq_map, List.map_cons, List.map_map, labelStarts,
      List.map_cons, hfirst]
    simp only [List.drop_zero, List.length_cons, List.cons.injEq, true_and]
    cases rest with
    | nil => rfl
    | cons b rest =>
      have hs3 : s.data = (pre ++ (a.data ++ ['.'])) ++ ((joinLabels (b :: rest)).data ++ tl) := by
        rw [hs, joinLabels_cons_cons]; simp
      have hih := ih (pre ++ (a.data ++ ['.'])) hs3
      have hlen : (pre ++ (a.data ++ ['.'])).length = pre.length + a.data.length + 1 := by
        simp only [List.length_append, List.length_singleton]; omega
      have hlen2 : pre.length + (joinLabels (a :: b :: rest)).data.length =
          pre.length + a.data.length + 1 + (joinLabels (b :: rest)).data.length := by
        rw [joinLabels_cons_cons]
        simp only [List.length_append, List.length_cons]; omega
      rw [hlen] at hih
      rw [hlen2, hih]
      apply List.map_congr_left
      intro k _
      rfl

/-- On a plain name, with or without a trailing dot, `SplitDomainNameWithParent` returns
the chain of the name and its ancestor zones. -/
theorem SplitDomainNameWithParent_plain (s : String) (ls : List String) (tl : List Char)
    (hne : ls ≠ []) (hplain : ∀ l ∈ ls, PlainLabel l)
    (hs : s.data = (joinLabels ls).data ++ tl) (htl : tl = [] ∨ tl = ['.']) :
    SplitDomainNameWithParent s =
      (List.range ls.length).map (fun k => joinLabels (ls.drop k)) := by
  have htl1 : tl.length ≤ 1 := by rcases htl with h | h <;> simp [h]
  have hsplit := Split_plain s ls tl htl1 hne hplain hs
  have hJ : (joinLabels ls).data ≠ [] := by
    obtain ⟨a, rest, rfl⟩ := List.exists_cons_of_ne_nil hne
    exact joinLabels_data_ne_nil a rest (hplain a (List.mem_cons_self _ _)).1
  have hsne : s ≠ "" := by
    intro h; rw [h] at hs
    have := congrArg List.length hs
    have hpos := List.length_pos.mpr hJ
    simp only [List.length_append] at this
    change 0 = _ at this
    omega
  have hend : (if IsFqdn s = true then s.data.length - 1 else s.data.length) =
      (joinLabels ls).data.length := by
    rcases htl with h | h
    · subst h
      rw [(IsFqdn_plain s ls hne hplain).1 (by simpa using hs)]
      simp [hs]
    · subst h
      rw [(IsFqdn_plain s ls hne hplain).2 hs]
      simp [hs]
  have hmap := substr_labelStarts s tl ls [] (by simpa using hs)
  simp only [List.length_nil, Nat.zero_add] at hmap
  unfold SplitDomainNameWithParent
  rw [if_neg hsne]
  simp only [hsplit, hend]
  obtain ⟨a, rest, rfl⟩ := List.exists_cons_of_ne_nil hne
  rw [← hmap]
  cases rest with
  | nil => simp [labelStarts]
  | cons b rest =>
    simp only [labelStarts]
    rw [SplitDomainNameWithParent_loop]
    simp

theorem walkOrder_map (l : List String) :
    (walkOrder l).map (fun i => l.getD i "") = l.reverse := by
  unfold walkOrder
  rw [List.map_reverse]
  congr 1
  apply List.ext_getElem
  · simp
  · intro i h1 h2
    simp [List.getD_eq_getElem?_getD, List.getElem?_eq_getElem h2]

/-- C5: for a name made of `n ≥ 1` plain labels (not empty, no dot, no escape character),
written without or with a trailing dot, `SplitDomainNameWithParent` returns `n` entries,
entry `k` being the labels `k, ..., n-1` joined by dots without a trailing dot; so entry 0
is the full name, entry `n-1` the top-level zone, and each entry is the previous one without
its first label. The loop of `processName` visits the entries from the last to the first,
that is from the top-level zone down to the full name: com, example.com, www.example.com
for www.example.com. For the empty string the result is empty. -/
theorem SplitDomainNameWithParent_chain (ls : List String) (hne : ls ≠ [])
    (hplain : ∀ l ∈ ls, PlainLabel l) :
    SplitDomainNameWithParent (joinLabels ls) =
        (List.range ls.length).map (fun k => joinLabels (ls.drop k)) ∧
    SplitDomainNameWithParent (joinLabels ls ++ ".") =
        (List.range ls.length).map (fun k => joinLabels (ls.drop k)) ∧
    (SplitDomainNameWithParent (joinLabels ls)).length = ls.length ∧
    (walkOrder (SplitDomainNameWithParent (joinLabels ls))).map
        (fun i => (SplitDomainNameWithParent (joinLabels ls)).getD i "") =
      ((List.range ls.length).map (fun k => joinLabels (ls.drop k))).reverse ∧
    (walkOrder (SplitDomainNameWithParent "www.example.com")).map
        (fun i => (SplitDomainNameWithParent "www.example.com").getD i "") =
      ["com", "example.com", "www.example.com"] ∧
    SplitDomainNameWithParent "" = [] := by
  have h1 := SplitDomainNameWithParent_plain (joinLabels ls) ls [] hne hplain (by simp)
    (Or.inl rfl)
  have h2 := SplitDomainNameWithParent_plain (joinLabels ls ++ ".") ls ['.'] hne hplain
    (by rw [String.data_append]) (Or.inr rfl)
  refine ⟨h1, h2, by rw [h1]; simp, ?_, by decide, by decide⟩
  rw [walkOrder_map, h1]

/-- Witness for C5: the name www.example.com, made of the labels www, example and com,
without and with the trailing dot. -/
theorem SplitDomainNameWithParent_chain_witness :
    SplitDomainNameWithParent "www.example.com" = ["www.example.com", "example.com", "com"] ∧
      SplitDomainNameWithParent "www.example.com." =
        ["www.example.com", "example.com", "com"] :=
  ⟨(SplitDomainNameWithParent_chain ["www", "example", "com"] (by decide) (by decide)).1,
   (SplitDomainNameWithParent_chain ["www", "example", "com"] (by decide) (by decide)).2.1⟩

/-! ## checks.go: expected providers -/

theorem checkExpectedNS_inner (ns : String) (l : List String) :
    ∀ p : Bool,
      l.foldl (fun problem expectedNS => if IsSubDomain expectedNS ns then false else problem) p =
        (p && l.all (fun e => !IsSubDomain e ns)) := by
  induction l with
  | nil => intro p; simp
  | cons a l ih =>
    intro p
    rw [List.foldl_cons, ih]
    cases h : IsSubDomain a ns <;> simp [h]

theorem checkExpectedNS_outer (expected : List String) (d : String) (l : List String) :
    ∀ acc : Nat × List Finding,
      (l.foldl (fun acc ns =>
        let problem := expected.foldl
          (fun problem expectedNS => if IsSubDomain expectedNS ns then false else problem) true
        if problem then (acc.1 + 1, acc.2 ++ [Finding.unexpectedNS d ns]) else acc) acc).1 =
        acc.1 + l.countP (fun ns => expected.all (fun e => !IsSubDomain e ns)) := by
  induction l with
  | nil => intro acc; simp
  | cons a l ih =>
    intro acc
    rw [List.foldl_cons, ih, List.countP_cons]
    simp only [checkExpectedNS_inner, Bool.true_and]
    cases h : expected.all (fun e => !IsSubDomain e a)
    · simp
    · simp; omega

/-- What `checkExpectedNS` counts, in terms of `dns.IsSubDomain`. -/
theorem checkExpectedNS_eq (expected : List String) (r : queryGroup) :
    (checkExpectedNS expected r).1 =
      if expected = [] then 0
      else r.NS.countP (fun ns => expected.all (fun e => !IsSubDomain e ns)) := by
  unfold checkExpectedNS
  cases expected with
  | nil => simp
  | cons a l =>
    simp only [List.length_cons, gt_iff_lt, Nat.zero_lt_succ, if_true]
    rw [checkExpectedNS_outer]
    simp

/-- On a plain name `CountLabel.loop` counts the labels from the current one on. -/
theorem CountLabel_loop_plain (s : String) (tl : List Char) (htl : tl.length ≤ 1) :
    ∀ (ls : List String), ls ≠ [] → (∀ l ∈ ls, PlainLabel l) →
      ∀ (pre : List Char) (fuel : Nat) (n : Nat),
        s.data = pre ++ ((joinLabels ls).data ++ tl) → ls.length ≤ fuel →
          CountLabel.loop s fuel pre.length n = some (n + ls.length) := by
  intro ls
  induction ls with
  | nil => intro h; exact absurd rfl h
  | cons a rest ih =>
    intro _ hplain pre fuel n hs hfuel
    have ha := hplain a (List.mem_cons_self _ _)
    cases fuel with
    | zero => simp at hfuel
    | succ f =>
      cases rest with
      | nil =>
        have hend : (NextLabel s pre.length).2 = true :=
          NextLabel_end s pre a.data tl (by simpa [joinLabels] using hs) ha.2.1 htl
        simp [CountLabel.loop, hend]
      | cons b rest =>
        have hb := hplain b (List.mem_cons_of_mem _ (List.mem_cons_self _ _))
        obtain ⟨c, more, hcm⟩ := List.exists_cons_of_ne_nil
          (joinLabels_data_ne_nil b rest hb.1)
        have hs2 : s.data = pre ++ (a.data ++ '.' :: c :: (more ++ tl)) := by
          rw [hs, joinLabels_cons_cons, hcm]; simp
        have hfound := NextLabel_found s pre a.data (more ++ tl) c hs2 ha.2.1
          (plain_getLast pre a ha)
        have hs3 : s.data = (pre ++ (a.data ++ ['.'])) ++ ((joinLabels (b :: rest)).data ++ tl) := by
          rw [hs, joinLabels_cons_cons]; simp
        have hih := ih (List.cons_ne_nil _ _) (fun l hl => hplain l (List.mem_cons_of_mem _ hl))
          (pre ++ (a.data ++ ['.'])) f (n + 1) hs3 (by simpa using hfuel)
        have hlen : (pre ++ (a.data ++ ['.'])).length = pre.length + a.data.length + 1 := by
          simp only [List.length_append, List.length_singleton]; omega
        rw [hlen] at hih
        simp only [CountLabel.loop, hfound, Bool.false_eq_true, if_false]
        rw [hih]
        simp only [List.length_cons]
        congr 1
        omega

theorem joinLabels_ne_dot (ls : List String) (hne : ls ≠ [])
    (hplain : ∀ l ∈ ls, PlainLabel l) : joinLabels ls ≠ "." := by
  intro h
  obtain ⟨a, rest, rfl⟩ := List.exists_cons_of_ne_nil hne
  have ha := hplain a (List.mem_cons_self _ _)
  obtain ⟨c, more, hcm⟩ := List.exists_cons_of_ne_nil ha.1
  have hd := congrArg String.data h
  cases rest with
  | nil =>
    simp only [joinLabels, hcm] at hd
    have : c = '.' := by
      have := congrArg List.head? hd
      simpa using this
    exact ha.2.1 (by rw [hcm, this]; exact List.mem_cons_self _ _)
  | cons b rest =>
    rw [joinLabels_cons_cons, hcm] at hd
    have : c = '.' := by
      have := congrArg List.head? hd
      simpa using this
    exact ha.2.1 (by rw [hcm, this]; exact List.mem_cons_self _ _)

theorem CountLabel_plain (ls : List String) (hne : ls ≠ [])
    (hplain : ∀ l ∈ ls, PlainLabel l) : CountLabel (joinLabels ls) = ls.length := by
  unfold CountLabel
  rw [if_neg (joinLabels_ne_dot ls hne hplain)]
  have hlen : ls.length ≤ (joinLabels ls).data.length + 1 := by
    have := length_le_joinLabels ls hplain
    omega
  have := CountLabel_loop_plain (joinLabels ls) [] (by simp) ls hne hplain []
    ((joinLabels ls).data.length + 1) 0 (by simp) hlen
  simp only [List.length_nil] at this
  rw [this]
  simp

theorem labelStarts_length (ls : List String) : ∀ off, (labelStarts off ls).length = ls.length := by
  induction ls with
  | nil => intro off; rfl
  | cons a rest ih => intro off; simp [labelStarts, ih]

theorem dotted_cons (a : String) (rest : List String) :
    dotted (a :: rest) = a.data ++ '.' :: dotted rest := by
  simp [dotted]

/-- The start of label `k` is the length of the labels before it, each with its dot. -/
theorem labelStarts_getD (ls : List String) :
    ∀ (off k : Nat), k < ls.length →
      (labelStarts off ls).getD k 0 = off + (dotted (ls.take k)).length := by
  induction ls with
  | nil => intro off k hk; simp at hk
  | cons a rest ih =>
    intro off k hk
    cases k with
    | zero => simp [labelStarts, dotted]
    | succ k =>
      have hk2 : k < rest.length := by simpa using hk
      simp only [labelStarts, List.getD_cons_succ, List.take_succ_cons, dotted_cons,
        List.length_append, List.length_cons]
      rw [ih _ k hk2]
      omega

/-- A name splits at the start of any of its labels. -/
theorem joinLabels_append (front : List String) (x : String) (back : List String) :
    (joinLabels (front ++ x :: back)).data = dotted front ++ (joinLabels (x :: back)).data := by
  induction front with
  | nil => simp [dotted]
  | cons a front ih =>
    cases front with
    | nil =>
      rw [List.singleton_append, joinLabels_cons_cons, dotted_cons]
      simp [dotted]
    | cons b front =>
      rw [List.cons_append, List.cons_append, joinLabels_cons_cons, dotted_cons]
      rw [List.cons_append] at ih
      rw [ih]
      simp

theorem list_decomp (ls : List String) (k : Nat) (hk : k < ls.length) :
    ls = ls.take k ++ ls.getD k "" :: ls.drop (k + 1) := by
  have h1 : ls.getD k "" = ls[k] := by
    simp [List.getD_eq_getElem?_getD, List.getElem?_eq_getElem hk]
  rw [h1, ← List.drop_eq_getElem_cons hk, List.take_append_drop]

theorem take_succ_reverse (ls : List String) (k : Nat) (hk : k < ls.length) :
    (ls.take (k + 1)).reverse = ls.getD k "" :: (ls.take k).reverse := by
  have h1 : ls.getD k "" = ls[k] := by
    simp [List.getD_eq_getElem?_getD, List.getElem?_eq_getElem hk]
  rw [List.take_succ, List.getElem?_eq_getElem hk, h1]
  simp

theorem dotted_take_succ (ls : List String) (k : Nat) (hk : k < ls.length) :
    dotted (ls.take (k + 1)) = dotted (ls.take k) ++ ((ls.getD k "").data ++ ['.']) := by
  have h1 : ls.getD k "" = ls[k] := by
    simp [List.getD_eq_getElem?_getD, List.getElem?_eq_getElem hk]
  rw [List.take_succ, List.getElem?_eq_getElem hk, h1]
  unfold dotted
  simp only [List.flatMap_append, Option.toList, List.flatMap_cons, List.flatMap_nil,
    List.append_nil]

/-- The slice between the starts of two consecutive labels is the first of them with its
dot. -/
theorem substr_label (ls : List String) (k : Nat) (hk : k + 1 < ls.length) :
    substr (joinLabels ls) ((labelStarts 0 ls).getD k 0) ((labelStarts 0 ls).getD (k + 1) 0) =
      ls.getD k "" ++ "." := by
  have hk0 : k < ls.length := by omega
  obtain ⟨y, back, hyb⟩ := List.exists_cons_of_ne_nil
    (l := ls.drop (k + 1)) (by
      intro h
      have := congrArg List.length h
      simp at this
      omega)
  have hd : (joinLabels ls).data =
      dotted (ls.take k) ++ ((ls.getD k "").data ++ ['.'] ++ (joinLabels (y :: back)).data) := by
    conv_lhs => rw [list_decomp ls k hk0, hyb]
    rw [joinLabels_append, joinLabels_cons_cons]
    simp
  apply String.ext
  simp only [substr]
  rw [labelStarts_getD ls 0 k hk0, labelStarts_getD ls 0 (k + 1) hk, dotted_take_succ ls k hk0,
    hd, String.data_append]
  simp only [Nat.zero_add, List.length_append]
  rw [List.take_append, List.take_append_of_le_length (by simp), List.drop_left]
  simp

/-- The slice from the start of the last label is the last label. -/
theorem substrFrom_last (ls : List String) (k : Nat) (hk : k + 1 = ls.length) :
    substrFrom (joinLabels ls) ((labelStarts 0 ls).getD k 0) = ls.getD k "" := by
  have hk0 : k < ls.length := by omega
  have hdrop : ls.drop (k + 1) = [] := by
    apply List.drop_eq_nil_of_le; omega
  have hd : (joinLabels ls).data = dotted (ls.take k) ++ (ls.getD k "").data := by
    conv_lhs => rw [list_decomp ls k hk0, hdrop]
    rw [joinLabels_append]
    simp [joinLabels]
  apply String.ext
  simp only [substrFrom]
  rw [labelStarts_getD ls 0 k hk0, hd]
  simp

theorem equal_dot (a b : String) : equal (a ++ ".") (b ++ ".") = equal a b := by
  unfold equal
  simp only [String.data_append, List.map_append]
  have hinj : ∀ x y : List Char, (x ++ ".".data.map Char.toLower == y ++ ".".data.map Char.toLower)
      = (x == y) := by
    intro x y
    by_cases h : x = y
    · subst h; simp
    · have : x ++ ".".data.map Char.toLower ≠ y ++ ".".data.map Char.toLower := by
        intro h2; exact h (List.append_cancel_right h2)
      simp [h, this]
  exact hinj _ _

theorem commonPrefixLen_nil_right (a : List String) : commonPrefixLen a [] = 0 := by
  cases a <;> rfl

theorem CompareDomainName_loop_plain (pl cl : List String) :
    ∀ (j1 j2 n : Nat), j1 < pl.length → j2 < cl.length →
      CompareDomainName.loop (joinLabels pl) (joinLabels cl) (labelStarts 0 pl)
          (labelStarts 0 cl) j1 j2 n =
        n + commonPrefixLen (pl.take j1).reverse (cl.take j2).reverse := by
  intro j1
  induction j1 with
  | zero => intro j2 n _ _; simp [CompareDomainName.loop, commonPrefixLen]
  | succ j1 ih =>
    intro j2 n h1 h2
    cases j2 with
    | zero => simp [CompareDomainName.loop, commonPrefixLen_nil_right]
    | succ j2 =>
      have h1a : j1 < pl.length := by omega
      have h2a : j2 < cl.length := by omega
      simp only [CompareDomainName.loop, Nat.add_one_ne_zero, if_false, Nat.add_sub_cancel]
      rw [substr_label pl j1 h1, substr_label cl j2 h2, equal_dot,
        take_succ_reverse pl j1 h1a, take_succ_reverse cl j2 h2a]
      simp only [commonPrefixLen]
      split
      · rw [ih j2 (n + 1) h1a h2a]; omega
      · rfl

/-- On plain names `CompareDomainName` counts the labels that agree from the right. -/
theorem CompareDomainName_plain (pl cl : List String) (hp : pl ≠ []) (hc : cl ≠ [])
    (hpp : ∀ l ∈ pl, PlainLabel l) (hcp : ∀ l ∈ cl, PlainLabel l) :
    CompareDomainName (joinLabels pl) (joinLabels cl) =
      commonPrefixLen pl.reverse cl.reverse := by
  unfold CompareDomainName
  have hne : ¬ (joinLabels pl = "." ∨ joinLabels cl = ".") := by
    rintro (h | h)
    · exact joinLabels_ne_dot pl hp hpp h
    · exact joinLabels_ne_dot cl hc hcp h
  rw [if_neg hne]
  simp only [Split_plain (joinLabels pl) pl [] (by simp) hp hpp (by simp),
    Split_plain (joinLabels cl) cl [] (by simp) hc hcp (by simp), labelStarts_length]
  have hp1 : pl.length - 1 + 1 = pl.length := by
    have := List.length_pos.mpr hp; omega
  have hc1 : cl.length - 1 + 1 = cl.length := by
    have := List.length_pos.mpr hc; omega
  have hpr : pl.reverse = pl.getD (pl.length - 1) "" :: (pl.take (pl.length - 1)).reverse := by
    rw [← take_succ_reverse pl (pl.length - 1) (by omega), hp1, List.take_length]
  have hcr : cl.reverse = cl.getD (cl.length - 1) "" :: (cl.take (cl.length - 1)).reverse := by
    rw [← take_succ_reverse cl (cl.length - 1) (by omega), hc1, List.take_length]
  rw [substrFrom_last pl (pl.length - 1) hp1, substrFrom_last cl (cl.length - 1) hc1, hpr, hcr]
  simp only [commonPrefixLen]
  split
  · rw [CompareDomainName_loop_plain pl cl _ _ 1 (by omega) (by omega)]; omega
  · rfl

theorem equal_iff (a b : String) : equal a b = true ↔ ToLower a = ToLower b := by
  unfold equal ToLower
  rw [beq_iff_eq]
  constructor
  · intro h; rw [h]
  · intro h; exact congrArg String.data h

theorem commonPrefixLen_eq_length_iff (a : List String) :
    ∀ b : List String, commonPrefixLen a b = a.length ↔ a.map ToLower <+: b.map ToLower := by
  induction a with
  | nil => intro b; cases b <;> simp [commonPrefixLen]
  | cons x xs ih =>
    intro b
    cases b with
    | nil => simp [commonPrefixLen]
    | cons y ys =>
      simp only [commonPrefixLen, List.length_cons, List.map_cons]
      rw [ List.cons_prefix_cons, ← equal_iff, ← ih ys]
      cases h : equal x y <;> simp

/-- On plain names `dns.IsSubDomain(parent, child)` holds exactly when the labels of the
parent are the last labels of the child, up to the case of ASCII letters. -/
theorem IsSubDomain_plain (pl cl : List String) (hp : pl ≠ []) (hc : cl ≠ [])
    (hpp : ∀ l ∈ pl, PlainLabel l) (hcp : ∀ l ∈ cl, PlainLabel l) :
    IsSubDomain (joinLabels pl) (joinLabels cl) = true ↔
      pl.map ToLower <:+ cl.map ToLower := by
  unfold IsSubDomain
  rw [CompareDomainName_plain pl cl hp hc hpp hcp, CountLabel_plain pl hp hpp, beq_iff_eq]
  have := commonPrefixLen_eq_length_iff pl.reverse cl.reverse
  rw [List.length_reverse, List.map_reverse, List.map_reverse] at this
  rw [this]
  exact List.reverse_prefix 

/-- The count of `checkExpectedNS`: 0 when the allow-list is empty; otherwise the number of
host names of the NS list of the group that `dns.IsSubDomain` accepts for no entry of the
allow-list. For plain names (one or more labels joined by dots) `dns.IsSubDomain` accepts
exactly the names that are equal to the entry or end in its labels, so that the count is the
number of host names that are neither equal to nor a label-wise subdomain of an entry. With
the allow-list dns-provider.example, a.dns-provider.example counts 0 and evil.example
counts 1. The root domain, which has no label, is not such an entry. -/
theorem checkExpectedNS_count (expected : List String) (r : queryGroup)
    (els nls : List (List String))
    (hels : ∀ pl ∈ els, pl ≠ [] ∧ ∀ l ∈ pl, PlainLabel l)
    (hnls : ∀ cl ∈ nls, cl ≠ [] ∧ ∀ l ∈ cl, PlainLabel l) :
    (checkExpectedNS [] r).1 = 0 ∧
    (expected ≠ [] → (checkExpectedNS expected r).1 =
      r.NS.countP (fun ns => expected.all (fun e => !IsSubDomain e ns))) ∧
    (els ≠ [] → (checkExpectedNS (els.map joinLabels) { r with NS := nls.map joinLabels }).1 =
      nls.countP (fun cl => els.all (fun pl => !decide (pl.map ToLower <:+ cl.map ToLower)))) ∧
    (checkExpectedNS ["dns-provider.example"] (providerExample ["a.dns-provider.example"])).1 = 0 ∧
    (checkExpectedNS ["dns-provider.example"] (providerExample ["evil.example"])).1 = 1 := by
  refine ⟨by rw [checkExpectedNS_eq]; simp, ?_, ?_, by decide, by decide⟩
  · intro hne
    rw [checkExpectedNS_eq, if_neg hne]
  · intro hne
    have hne2 : els.map joinLabels ≠ [] := by simpa using hne
    rw [checkExpectedNS_eq, if_neg hne2]
    simp only [List.countP_map]
    apply List.countP_congr
    intro cl hcl
    simp only [Function.comp_apply, List.all_eq_true, List.mem_map, forall_exists_index,
      and_imp, forall_apply_eq_imp_iff₂]
    apply forall₂_congr
    intro pl hpl
    have key := IsSubDomain_plain pl cl (hels pl hpl).1 (hnls cl hcl).1 (hels pl hpl).2
      (hnls cl hcl).2
    cases hb : IsSubDomain (joinLabels pl) (joinLabels cl)
    · rw [hb] at key
      have : ¬ (pl.map ToLower <:+ cl.map ToLower) := fun h => by simpa using key.mpr h
      simp [this]
    · rw [hb] at key
      have : pl.map ToLower <:+ cl.map ToLower := key.mp rfl
      simp [this]

/-- An instance of the count: the allow-list dns-provider.example and the NS list
a.dns-provider.example, evil.example, DNS-Provider.Example, xdns-provider.example: two
names are outside the provider. -/
theorem checkExpectedNS_count_witness :
    (checkExpectedNS ["dns-provider.example"]
      (providerExample ["a.dns-provider.example", "evil.example", "DNS-Provider.Example",
        "xdns-provider.example"])).1 = 2 :=
  ((checkExpectedNS_count ["dns-provider.example"] (providerExample [])
      [["dns-provider", "example"]]
      [["a", "dns-provider", "example"], ["evil", "example"], ["DNS-Provider", "Example"],
        ["xdns-provider", "example"]]
      (by decide) (by decide)).2.2.1 (by decide)).trans (by decide)

/-- C8 fails on the code: the flag `-expected-ns=.` names the root domain, which has no
label and under which every host name lies, so that the label-wise count of the claim is 0.
`main` stores the entry cleaned, as the empty string, and `dns.IsSubDomain` of the empty
string and a host name is false: `checkExpectedNS` counts and reports every name server of
the group, here both a.dns-provider.example and evil.example. Written with its dot, as the
flag gave it, the root is accepted by `dns.IsSubDomain` for both names; and with the flag
`-expected-ns=dns-provider.example` only evil.example counts. -/
theorem checkExpectedNS_root_flagged :
    parseExpectedNS "." = [""] ∧
    [([] : List String)].map joinLabels = [""] ∧
    [["a", "dns-provider", "example"], ["evil", "example"]].map joinLabels =
      ["a.dns-provider.example", "evil.example"] ∧
    [["a", "dns-provider", "example"], ["evil", "example"]].countP
      (fun cl => [([] : List String)].all
        (fun pl => !decide (pl.map ToLower <:+ cl.map ToLower))) = 0 ∧
    IsSubDomain "" "a.dns-provider.example" = false ∧
    IsSubDomain "" "evil.example" = false ∧
    checkExpectedNS (parseExpectedNS ".")
        (providerExample ["a.dns-provider.example", "evil.example"]) =
      (2, [Finding.unexpectedNS "customer.example" "a.dns-provider.example",
           Finding.unexpectedNS "customer.example" "evil.example"]) ∧
    IsSubDomain "." "a.dns-provider.example" = true ∧
    IsSubDomain "." "evil.example" = true ∧
    (checkExpectedNS ["."] (providerExample ["a.dns-provider.example", "evil.example"])).1 = 0 ∧
    parseExpectedNS "dns-provider.example" = ["dns-provider.example"] ∧
    checkExpectedNS (parseExpectedNS "dns-provider.example")
        (providerExample ["a.dns-provider.example", "evil.example"]) =
      (1, [Finding.unexpectedNS "customer.example" "evil.example"]) := by
  decide

/-! ## work_name.go: the lame flag -/

/-- C9 fails on the code: in the network `lameNet` the task "example.com", handled on a new
cache, owns both levels; `checkLame` reports the level "com" lame and the level
"example.com" not lame; `processName` returns nil and leaves `Lame` false, with the one
problem counted for the lame level: the assignment `w.Lame = checkLame(result)` of the
later level has overwritten the flag. -/
theorem processName_lame_overwritten :
    SplitDomainNameWithParent "example.com" = ["example.com", "com"] ∧
    (checkLame lameNet (queryNSParallel.result lameNet "com" rootServers)).lame = true ∧
    (checkLame lameNet
      (queryNSParallel.result lameNet "example.com" ["a.gtld-servers.net"])).lame = false ∧
    (processName.body lameNet [] ["example.com", "com"] 1 exampleStart).1.w.Lame = true ∧
    (processName lameNet [] World.start { Name := "example.com", Lame := false, Problems := 0 }).2 =
      ({ Name := "example.com", Lame := false, Problems := 1 }, .ret none) := by
  decide

/-! ## work_name.go: shared zones -/

/-- On a published key `GetWait` returns the list and leaves the cache as it is. -/
theorem GetWait_Published_eq (c : Cache (List String)) (key : String) (v : List String)
    (h : Published c key v) : c.GetWait [] key = (c, .ret (v, none)) := by
  have hl : mapSet c.locks key { cap := 1, buf := [], closed := true } = c.locks := by
    funext k
    by_cases hk : k = key
    · subst hk; simp [mapSet, h.1]
    · simp [mapSet, hk]
  unfold Cache.GetWait
  simp only [h.1, ErrChan.recv, if_true, hl, h.2, Option.getD_some]

/-- The round of a level whose key has been published: the task takes the published list
as its server list and does nothing else. -/
theorem body_waiter (ex : Exchanger) (expected : List String) (labels : List String) (i : Nat)
    (st : WalkState) (v : List String) (h : Published st.world.seen (labels.getD i "") v) :
    processName.body ex expected labels i st = ({ st with servers := v }, none) := by
  unfold processName.body
  simp only [Cache.AddCheck, h.1, GetWait_Published_eq _ _ v h]

theorem ownerSeen_Published (c : Cache (List String)) (k : String) (v : List String) :
    Published (ownerSeen c k v) k v := by
  simp [Published, ownerSeen, mapSet]

theorem ownerSeen_other (c : Cache (List String)) (k k2 : String) (v : List String)
    (h : k2 ≠ k) :
    (ownerSeen c k v).locks k2 = c.locks k2 ∧ (ownerSeen c k v).cache k2 = c.cache k2 := by
  simp [ownerSeen, mapSet, h]

theorem ownerSeen_keeps (c : Cache (List String)) (k k2 : String) (v v2 : List String)
    (hfree : c.locks k = none) (h : Published c k2 v2) : Published (ownerSeen c k v) k2 v2 := by
  have hne : k2 ≠ k := by
    intro he; subst he; rw [h.1] at hfree; simp at hfree
  unfold Published
  rw [(ownerSeen_other c k k2 v hne).1, (ownerSeen_other c k k2 v hne).2]
  exact h

theorem ownerSeen_Settled (c : Cache (List String)) (k : String) (v : List String)
    (hfree : c.locks k = none) (h : Settled c) : Settled (ownerSeen c k v) := by
  intro key
  by_cases hk : key = k
  · subst hk; exact Or.inr ⟨v, ownerSeen_Published c key v⟩
  · rcases h key with h1 | ⟨v2, h2⟩
    · left; rw [(ownerSeen_other c k key v hk).1]; exact h1
    · right; exact ⟨v2, ownerSeen_keeps c k key v v2 hfree h2⟩

theorem checkLame_queries (ex : Exchanger) (q : queryGroup) :
    (checkLame ex q).queries = [(Fqdn q.Domain, q.NS)] := by
  unfold checkLame
  simp only [queryNSParallel_eq]

theorem queriesFor_append (t : String) (a b : List (String × List String)) :
    queriesFor t (a ++ b) = queriesFor t a ++ queriesFor t b := by
  simp [queriesFor]

/-- What one round of the loop does on a settled cache: it goes on to the next round, the
cache stays settled, published keys stay published with their lists, only the key of the
level can change, that key is published with the list the task carries on, and group
queries are issued only by an owner and only for the name of the level. -/
theorem body_settled (ex : Exchanger) (expected labels : List String) (i : Nat)
    (st : WalkState) (h : Settled st.world.seen) :
    (processName.body ex expected labels i st).2 = none ∧
    Settled (processName.body ex expected labels i st).1.world.seen ∧
    (∀ key v, Published st.world.seen key v →
      Published (processName.body ex expected labels i st).1.world.seen key v) ∧
    (∀ key, key ≠ labels.getD i "" →
      (processName.body ex expected labels i st).1.world.seen.locks key =
        st.world.seen.locks key) ∧
    Published (processName.body ex expected labels i st).1.world.seen (labels.getD i "")
      (processName.body ex expected labels i st).1.servers ∧
    (∀ t, ((∃ v, Published st.world.seen (labels.getD i "") v) ∨
        (Fqdn (labels.getD i "") ≠ t ∧ Fqdn (cleanDomain (Fqdn (labels.getD i ""))) ≠ t)) →
      queriesFor t (processName.body ex expected labels i st).1.world.queries =
        queriesFor t st.world.queries) := by
  rcases h (labels.getD i "") with hfree | ⟨v, hv⟩
  · rw [body_owner ex expected labels i st hfree]
    refine ⟨rfl, ownerSeen_Settled _ _ _ hfree h, ?_, ?_, ownerSeen_Published _ _ _, ?_⟩
    · intro key v2 hp
      exact ownerSeen_keeps _ _ _ _ _ hfree hp
    · intro key hk
      exact (ownerSeen_other _ _ _ _ hk).1
    · intro t ht
      rcases ht with ⟨v, hv⟩ | ⟨h1, h2⟩
      · rw [hv.1] at hfree; simp at hfree
      · simp only [checkLame_queries, queriesFor_append]
        have e1 : queriesFor t [(Fqdn (labels.getD i ""), st.servers)] = [] := by
          simp only [queriesFor, List.filter_cons, List.filter_nil]
          rw [if_neg]
          simpa using h1
        have e2 : queriesFor t
            [(Fqdn (queryNSParallel.result ex (labels.getD i "") st.servers).Domain,
              (queryNSParallel.result ex (labels.getD i "") st.servers).NS)] = [] := by
          simp only [queriesFor, List.filter_cons, List.filter_nil]
          rw [if_neg]
          simpa [queryNSParallel.result] using h2
        rw [e1, e2]
        simp
  · rw [body_waiter ex expected labels i st v hv]
    exact ⟨rfl, h, fun _ _ hp => hp, fun _ _ => rfl, hv, fun _ _ => rfl⟩

/-- On a settled cache the loop of `processName` runs through all its rounds and returns
nil; the properties of a round carry over to the loop. -/
theorem loop_settled (ex : Exchanger) (expected labels : List String) (idxs : List Nat) :
    ∀ st : WalkState, Settled st.world.seen →
      (processName.loop ex expected labels idxs st).2 = .ret none ∧
      Settled (processName.loop ex expected labels idxs st).1.world.seen ∧
      (∀ key v, Published st.world.seen key v →
        Published (processName.loop ex expected labels idxs st).1.world.seen key v) ∧
      (∀ key, (∀ i ∈ idxs, key ≠ labels.getD i "") →
        (processName.loop ex expected labels idxs st).1.world.seen.locks key =
          st.world.seen.locks key) ∧
      (∀ t, (∀ i ∈ idxs, (∃ v, Published st.world.seen (labels.getD i "") v) ∨
          (Fqdn (labels.getD i "") ≠ t ∧ Fqdn (cleanDomain (Fqdn (labels.getD i ""))) ≠ t)) →
        queriesFor t (processName.loop ex expected labels idxs st).1.world.queries =
          queriesFor t st.world.queries) := by
  induction idxs with
  | nil =>
    intro st h
    exact ⟨rfl, h, fun _ _ hp => hp, fun _ _ => rfl, fun _ _ => rfl⟩
  | cons i idxs ih =>
    intro st h
    obtain ⟨b1, b2, b3, b4, -, b6⟩ := body_settled ex expected labels i st h
    have hloop : processName.loop ex expected labels (i :: idxs) st =
        processName.loop ex expected labels idxs (processName.body ex expected labels i st).1 := by
      simp only [processName.loop]
      cases hb : processName.body ex expected labels i st with
      | mk st1 o =>
        rw [hb] at b1
        simp only at b1
        subst b1
        rfl
    rw [hloop]
    obtain ⟨c1, c2, c3, c4, c5⟩ := ih _ b2
    refine ⟨c1, c2, fun key v hp => c3 key v (b3 key v hp), ?_, ?_⟩
    · intro key hk
      rw [c4 key (fun j hj => hk j (List.mem_cons_of_mem _ hj)),
        b4 key (hk i (List.mem_cons_self _ _))]
    · intro t ht
      rw [c5 t ?_, b6 t (ht i (List.mem_cons_self _ _))]
      intro j hj
      rcases ht j (List.mem_cons_of_mem _ hj) with ⟨v, hv⟩ | h2
      · exact Or.inl ⟨v, b3 _ v hv⟩
      · exact Or.inr h2

/-- On a settled cache the loop over two lists of rounds is the loop over the second list
started where the loop over the first one ends. -/
theorem loop_append_settled (ex : Exchanger) (expected labels : List String) (a b : List Nat) :
    ∀ st : WalkState, Settled st.world.seen →
      processName.loop ex expected labels (a ++ b) st =
        processName.loop ex expected labels b (processName.loop ex expected labels a st).1 := by
  induction a with
  | nil => intro st _; rfl
  | cons i a ih =>
    intro st h
    obtain ⟨b1, b2, -⟩ := body_settled ex expected labels i st h
    simp only [List.cons_append, processName.loop]
    cases hb : processName.body ex expected labels i st with
    | mk st1 o =>
      rw [hb] at b1 b2
      simp only at b1 b2
      subst b1
      exact ih st1 b2

/-! ### The order of map iteration -/

theorem GetAuthorativeNS_foldl (l : List (String × queryResult)) :
    ∀ out : List String,
      l.foldl (fun out e => if e.2.Authoritative then out ++ [e.1] else out) out =
        out ++ (l.filter (fun e => e.2.Authoritative)).map Prod.fst := by
  induction l with
  | nil => intro out; simp
  | cons a l ih =>
    intro out
    rw [List.foldl_cons, ih]
    cases h : a.2.Authoritative <;> simp [h]

/-- Whatever the order of iteration, `GetAuthorativeNS` returns a rearrangement of the
servers of the map whose result has the authoritative flag. -/
theorem GetAuthorativeNS_perm (g : queryGroup) (order : RangeOrder) :
    (g.GetAuthorativeNS order).Perm
      ((g.Results.filter (fun e => e.2.Authoritative)).map Prod.fst) := by
  unfold queryGroup.GetAuthorativeNS
  rw [GetAuthorativeNS_foldl, List.nil_append]
  exact ((order.perm g.Results).filter _).map _

/-! ### The rounds of a task -/

/-- On a settled cache a round of the loop goes on to the next round. -/
theorem loop_cons_settled (ex : Exchanger) (expected labels : List String) (i : Nat)
    (rest : List Nat) (st : WalkState) (h : Settled st.world.seen) :
    processName.loop ex expected labels (i :: rest) st =
      processName.loop ex expected labels rest (processName.body ex expected labels i st).1 := by
  have hb := (body_settled ex expected labels i st h).1
  simp only [processName.loop]
  cases hbody : processName.body ex expected labels i st with
  | mk st1 o =>
    rw [hbody] at hb
    simp only at hb
    subst hb
    rfl

theorem rounds_cons_settled (ex : Exchanger) (expected labels : List String) (i : Nat)
    (rest : List Nat) (st : WalkState) (h : Settled st.world.seen) :
    processName.rounds ex expected labels (i :: rest) st =
      { key := labels.getD i "",
        carried := st.servers,
        asked := ((processName.body ex expected labels i st).1.world.queries.drop
          st.world.queries.length).map Prod.snd,
        next := (processName.body ex expected labels i st).1.servers } ::
      processName.rounds ex expected labels rest (processName.body ex expected labels i st).1 := by
  have hb := (body_settled ex expected labels i st h).1
  simp only [processName.rounds, hb]

/-- The round of a level whose key is unclaimed, as a round of the trace: two group queries,
to the servers carried into the round and to the NS list of the answer. -/
theorem round_owner (ex : Exchanger) (expected labels : List String) (i : Nat) (st : WalkState)
    (h : st.world.seen.locks (labels.getD i "") = none) :
    ((processName.body ex expected labels i st).1.world.queries.drop
        st.world.queries.length).map Prod.snd =
      [st.servers, (queryNSParallel.result ex (labels.getD i "") st.servers).NS] ∧
    (processName.body ex expected labels i st).1.servers =
      nextServers (st.world.rangeOrder (labels.getD i ""))
        (queryNSParallel.result ex (labels.getD i "") st.servers) ∧
    (processName.body ex expected labels i st).1.world.rangeOrder = st.world.rangeOrder := by
  rw [body_owner ex expected labels i st h]
  refine ⟨?_, rfl, rfl⟩
  simp only [checkLame_queries, List.append_assoc, List.drop_left]
  rfl

/-- The round of a level whose key has been published, as a round of the trace: no group
query, and the published list is carried on. -/
theorem round_waiter (ex : Exchanger) (expected labels : List String) (i : Nat) (st : WalkState)
    (v : List String) (h : Published st.world.seen (labels.getD i "") v) :
    ((processName.body ex expected labels i st).1.world.queries.drop
        st.world.queries.length).map Prod.snd = [] ∧
    (processName.body ex expected labels i st).1.servers = v ∧
    (processName.body ex expected labels i st).1.world.rangeOrder = st.world.rangeOrder := by
  rw [body_waiter ex expected labels i st v h]
  simp

/-- On a settled cache the loop goes through one round for each index; each group query of the
record was issued in one of the rounds; the order of map iteration is not changed. -/
theorem rounds_settled (ex : Exchanger) (expected labels : List String) (idxs : List Nat) :
    ∀ st : WalkState, Settled st.world.seen →
      (processName.rounds ex expected labels idxs st).map WalkRound.key =
        idxs.map (fun i => labels.getD i "") ∧
      (processName.loop ex expected labels idxs st).1.world.queries.map Prod.snd =
        st.world.queries.map Prod.snd ++
          (processName.rounds ex expected labels idxs st).flatMap WalkRound.asked ∧
      (processName.loop ex expected labels idxs st).1.world.rangeOrder = st.world.rangeOrder := by
  induction idxs with
  | nil => intro st _; simp [processName.rounds, processName.loop]
  | cons i idxs ih =>
    intro st h
    obtain ⟨-, b2, -⟩ := body_settled ex expected labels i st h
    obtain ⟨c1, c2, c3⟩ := ih _ b2
    rw [loop_cons_settled ex expected labels i idxs st h,
      rounds_cons_settled ex expected labels i idxs st h]
    have hq : (processName.body ex expected labels i st).1.world.queries.map Prod.snd =
        st.world.queries.map Prod.snd ++
          ((processName.body ex expected labels i st).1.world.queries.drop
            st.world.queries.length).map Prod.snd ∧
        (processName.body ex expected labels i st).1.world.rangeOrder = st.world.rangeOrder := by
      rcases h (labels.getD i "") with hfree | ⟨v, hv⟩
      · rw [body_owner ex expected labels i st hfree]
        refine ⟨?_, rfl⟩
        simp only [checkLame_queries, List.append_assoc, List.drop_left, List.map_append]
      · rw [body_waiter ex expected labels i st v hv]
        simp
    refine ⟨?_, ?_, ?_⟩
    · simp only [List.map_cons, c1]
    · rw [c2, hq.1]
      simp only [List.flatMap_cons, List.append_assoc]
    · rw [c3, hq.2]

/-- Once the zone is published, no round of the zone issues a query, and each carries on the
published list. -/
theorem rounds_published (ex : Exchanger) (expected labels : List String) (zone : String)
    (v : List String) (idxs : List Nat) :
    ∀ st : WalkState, Settled st.world.seen → Published st.world.seen zone v →
      ∀ r ∈ processName.rounds ex expected labels idxs st, r.key = zone →
        r.asked = [] ∧ r.next = v := by
  induction idxs with
  | nil => intro st _ _ r hr; simp [processName.rounds] at hr
  | cons i idxs ih =>
    intro st h hp r hr hk
    obtain ⟨-, b2, b3, -⟩ := body_settled ex expected labels i st h
    rw [rounds_cons_settled ex expected labels i idxs st h] at hr
    rcases List.mem_cons.mp hr with h1 | h1
    · subst h1
      simp only at hk
      rw [← hk] at hp
      obtain ⟨w1, w2, -⟩ := round_waiter ex expected labels i st v hp
      exact ⟨w1, w2⟩
    · exact ih _ b2 (b3 zone v hp) r h1 hk

/-- While the zone is unclaimed, the first round of the zone resolves it: it issues the two
group queries and publishes the list it carries on; the later rounds of the zone, if any,
issue no query and carry on that list. -/
theorem rounds_unclaimed (ex : Exchanger) (expected labels : List String) (zone : String)
    (idxs : List Nat) :
    ∀ st : WalkState, Settled st.world.seen → st.world.seen.locks zone = none →
      (∃ i ∈ idxs, labels.getD i "" = zone) →
      ∃ r0 rest,
        (processName.rounds ex expected labels idxs st).filter
          (fun r => decide (r.key = zone)) = r0 :: rest ∧
        r0.asked = [r0.carried, (queryNSParallel.result ex zone r0.carried).NS] ∧
        r0.next =
          nextServers (st.world.rangeOrder zone) (queryNSParallel.result ex zone r0.carried) ∧
        (∀ r ∈ rest, r.asked = [] ∧ r.next = r0.next) ∧
        Published (processName.loop ex expected labels idxs st).1.world.seen zone r0.next := by
  induction idxs with
  | nil => intro st _ _ hex; simp at hex
  | cons i idxs ih =>
    intro st h hfree hex
    obtain ⟨-, b2, b3, b4, b5, -⟩ := body_settled ex expected labels i st h
    rw [rounds_cons_settled ex expected labels i idxs st h,
      loop_cons_settled ex expected labels i idxs st h]
    by_cases hk : labels.getD i "" = zone
    · have hfree2 : st.world.seen.locks (labels.getD i "") = none := by rw [hk]; exact hfree
      obtain ⟨o1, o2, -⟩ := round_owner ex expected labels i st hfree2
      rw [hk] at o1 o2
      have hpub : Published (processName.body ex expected labels i st).1.world.seen zone
          (nextServers (st.world.rangeOrder zone)
            (queryNSParallel.result ex zone st.servers)) := by
        have := b5
        rw [o2, hk] at this
        exact this
      refine ⟨{ key := labels.getD i "",
                carried := st.servers,
                asked := ((processName.body ex expected labels i st).1.world.queries.drop
                  st.world.queries.length).map Prod.snd,
                next := (processName.body ex expected labels i st).1.servers },
        (processName.rounds ex expected labels idxs
          (processName.body ex expected labels i st).1).filter (fun r => decide (r.key = zone)),
        ?_, o1, o2, ?_, ?_⟩
      · rw [List.filter_cons_of_pos (by simpa using hk)]
      · intro r hr
        have hr2 := List.mem_filter.mp hr
        have := rounds_published ex expected labels zone _ idxs _ b2 hpub r hr2.1
          (by simpa using hr2.2)
        exact ⟨this.1, this.2.trans o2.symm⟩
      · have hpub2 : Published (processName.body ex expected labels i st).1.world.seen zone
            (processName.body ex expected labels i st).1.servers := hk ▸ b5
        exact (loop_settled ex expected labels idxs _ b2).2.2.1 zone _ hpub2
    · have hfree2 : (processName.body ex expected labels i st).1.world.seen.locks zone = none := by
        rw [b4 zone (fun he => hk he.symm)]; exact hfree
      have hex2 : ∃ j ∈ idxs, labels.getD j "" = zone := by
        obtain ⟨j, hj, hjz⟩ := hex
        rcases List.mem_cons.mp hj with h1 | h1
        · subst h1; exact absurd hjz hk
        · exact ⟨j, h1, hjz⟩
      obtain ⟨r0, rest, e1, e2, e3, e4, e5⟩ := ih _ b2 hfree2 hex2
      have hord : (processName.body ex expected labels i st).1.world.rangeOrder =
          st.world.rangeOrder := by
        rcases h (labels.getD i "") with hf | ⟨v, hv⟩
        · exact (round_owner ex expected labels i st hf).2.2
        · exact (round_waiter ex expected labels i st v hv).2.2
      rw [hord] at e3
      refine ⟨r0, rest, ?_, e2, e3, e4, e5⟩
      rw [List.filter_cons_of_neg (by simpa using hk)]
      exact e1

theorem flatMap_asked_nil (l : List WalkRound) (h : ∀ r ∈ l, r.asked = []) :
    l.flatMap WalkRound.asked = [] := by
  induction l with
  | nil => rfl
  | cons a l ih =>
    rw [List.flatMap_cons, h a (List.mem_cons_self _ _),
      ih (fun r hr => h r (List.mem_cons_of_mem _ hr))]
    rfl

/-- A level of a name has its round in the walk. -/
theorem mem_walkOrder (labels : List String) (zone : String) (h : zone ∈ labels) :
    ∃ i ∈ walkOrder labels, labels.getD i "" = zone := by
  have hm : zone ∈ (walkOrder labels).map (fun i => labels.getD i "") := by
    rw [walkOrder_map]; exact List.mem_reverse.mpr h
  obtain ⟨i, hi, hz⟩ := List.mem_map.mp hm
  exact ⟨i, hi, hz⟩

/-- C10, as amended: two tasks whose names have the zone `zone` among their levels (the
entries of `SplitDomainNameWithParent`) are handled one after the other against the same
cache, in which every earlier claim has been published (as in the new cache and after any
task that has returned) and the zone is not claimed. Both calls of `processName` return nil
and leave such a cache. Each task goes through one round for each level of its name, from
the top, and every group query it issues belongs to one round. The first task owns the
claim of the zone: in its first round of the zone it issues two group queries, one by
`processName` to the servers it carried into the round and one by `checkLame` to the NS list
of the answer, and it publishes the list it carries on, which `Get` then returns; these are
all the group queries of the rounds of the zone. The second task issues no group query in
its rounds of the zone, and it has such a round. Every round of the zone, of either task,
carries on the published list. The order of the two tasks is free, their roles being
symmetric, and so is the order in which the runtime visits the result map. -/
theorem shared_zone_resolved_once (ex : Exchanger) (expected : List String) (zone : String)
    (world : World) (wA wB : nameWork)
    (hA : zone ∈ SplitDomainNameWithParent wA.Name)
    (hB : zone ∈ SplitDomainNameWithParent wB.Name)
    (hs : Settled world.seen) (hfree : world.seen.locks zone = none) :
    (processName ex expected world wA).2.2 = .ret none ∧
    (processName ex expected (processName ex expected world wA).1 wB).2.2 = .ret none ∧
    Settled (processName ex expected world wA).1.seen ∧
    Settled (processName ex expected (processName ex expected world wA).1 wB).1.seen ∧
    (taskRounds ex expected world wA).map WalkRound.key =
      (SplitDomainNameWithParent wA.Name).reverse ∧
    (taskRounds ex expected (processName ex expected world wA).1 wB).map WalkRound.key =
      (SplitDomainNameWithParent wB.Name).reverse ∧
    (processName ex expected world wA).1.queries.map Prod.snd =
      world.queries.map Prod.snd ++ (taskRounds ex expected world wA).flatMap WalkRound.asked ∧
    (processName ex expected (processName ex expected world wA).1 wB).1.queries.map Prod.snd =
      (processName ex expected world wA).1.queries.map Prod.snd ++
        (taskRounds ex expected (processName ex expected world wA).1 wB).flatMap
          WalkRound.asked ∧
    ((zoneRounds ex expected world wA zone).flatMap WalkRound.asked).length = 2 ∧
    (zoneRounds ex expected (processName ex expected world wA).1 wB zone).flatMap
      WalkRound.asked = [] ∧
    zoneRounds ex expected (processName ex expected world wA).1 wB zone ≠ [] ∧
    (∀ r ∈ zoneRounds ex expected world wA zone,
      r.next = ((processName ex expected world wA).1.seen.Get [] zone).1) ∧
    (∀ r ∈ zoneRounds ex expected (processName ex expected world wA).1 wB zone,
      r.next = ((processName ex expected world wA).1.seen.Get [] zone).1) ∧
    ∃ r0 rest, zoneRounds ex expected world wA zone = r0 :: rest ∧
      r0.asked = [r0.carried, (queryNSParallel.result ex zone r0.carried).NS] ∧
      r0.next =
        nextServers (world.rangeOrder zone) (queryNSParallel.result ex zone r0.carried) ∧
      (∀ r ∈ rest, r.asked = [] ∧ r.next = r0.next) ∧
      (processName ex expected world wA).1.seen.Get [] zone = (r0.next, true) := by
  obtain ⟨p1, p2, -⟩ := loop_settled ex expected (SplitDomainNameWithParent wA.Name)
    (walkOrder (SplitDomainNameWithParent wA.Name)) (walkInit world wA) hs
  obtain ⟨q1, q2, -⟩ := loop_settled ex expected (SplitDomainNameWithParent wB.Name)
    (walkOrder (SplitDomainNameWithParent wB.Name))
    (walkInit (processName ex expected world wA).1 wB) p2
  obtain ⟨a1, a2, -⟩ := rounds_settled ex expected (SplitDomainNameWithParent wA.Name)
    (walkOrder (SplitDomainNameWithParent wA.Name)) (walkInit world wA) hs
  obtain ⟨b1, b2, -⟩ := rounds_settled ex expected (SplitDomainNameWithParent wB.Name)
    (walkOrder (SplitDomainNameWithParent wB.Name))
    (walkInit (processName ex expected world wA).1 wB) p2
  rw [walkOrder_map] at a1 b1
  obtain ⟨r0, rest, e1, e2, e3, e4, e5⟩ := rounds_unclaimed ex expected
    (SplitDomainNameWithParent wA.Name) zone (walkOrder (SplitDomainNameWithParent wA.Name))
    (walkInit world wA) hs hfree (mem_walkOrder _ zone hA)
  have hget : (processName ex expected world wA).1.seen.Get [] zone = (r0.next, true) := by
    have h5 : (processName ex expected world wA).1.seen.cache zone = some r0.next := e5.2
    simp only [Cache.Get, h5]
  have hB2 := rounds_published ex expected (SplitDomainNameWithParent wB.Name) zone r0.next
    (walkOrder (SplitDomainNameWithParent wB.Name))
    (walkInit (processName ex expected world wA).1 wB) p2 e5
  have hBz : ∀ r ∈ zoneRounds ex expected (processName ex expected world wA).1 wB zone,
      r.asked = [] ∧ r.next = r0.next := by
    intro r hr
    have hr2 := List.mem_filter.mp hr
    exact hB2 r hr2.1 (by simpa using hr2.2)
  have hAz : ∀ r ∈ zoneRounds ex expected world wA zone, r.next = r0.next := by
    intro r hr
    have hr1 : r ∈ r0 :: rest := by
      have : zoneRounds ex expected world wA zone = r0 :: rest := e1
      rw [← this]; exact hr
    rcases List.mem_cons.mp hr1 with h1 | h1
    · rw [h1]
    · exact (e4 r h1).2
  refine ⟨p1, q1, p2, q2, a1, b1, a2, b2, ?_, ?_, ?_, ?_, ?_, r0, rest, e1, e2, e3, e4, hget⟩
  · have : zoneRounds ex expected world wA zone = r0 :: rest := e1
    rw [this, List.flatMap_cons, flatMap_asked_nil rest (fun r hr => (e4 r hr).1), e2]
    rfl
  · exact flatMap_asked_nil _ (fun r hr => (hBz r hr).1)
  · have hm : zone ∈ (taskRounds ex expected (processName ex expected world wA).1 wB).map
        WalkRound.key := by
      have hb1 : (taskRounds ex expected (processName ex expected world wA).1 wB).map
          WalkRound.key = (SplitDomainNameWithParent wB.Name).reverse := b1
      rw [hb1]; exact List.mem_reverse.mpr hB
    obtain ⟨r, hr, hk⟩ := List.mem_map.mp hm
    intro hnil
    have : r ∈ zoneRounds ex expected (processName ex expected world wA).1 wB zone :=
      List.mem_filter.mpr ⟨hr, by simpa using hk⟩
    rw [hnil] at this
    simp at this
  · intro r hr
    rw [hget]
    exact hAz r hr
  · intro r hr
    rw [hget]
    exact (hBz r hr).2

/-- Witness for C10: the tasks a.shared.com and b.shared.com on a new cache in the network
`sharedNet`, with the zone shared.com: the rounds of the zone of the first task issue two
group queries, those of the second task none. -/
theorem shared_zone_resolved_once_witness :
    ((zoneRounds sharedNet [] World.start
        { Name := "a.shared.com", Lame := false, Problems := 0 } "shared.com").flatMap
      WalkRound.asked).length = 2 ∧
      (zoneRounds sharedNet [] afterA
        { Name := "b.shared.com", Lame := false, Problems := 0 } "shared.com").flatMap
      WalkRound.asked = [] :=
  ⟨(shared_zone_resolved_once sharedNet [] "shared.com" World.start
      { Name := "a.shared.com", Lame := false, Problems := 0 }
      { Name := "b.shared.com", Lame := false, Problems := 0 }
      (by decide) (by decide) (fun _ => Or.inl rfl) rfl).2.2.2.2.2.2.2.2.1,
   (shared_zone_resolved_once sharedNet [] "shared.com" World.start
      { Name := "a.shared.com", Lame := false, Problems := 0 }
      { Name := "b.shared.com", Lame := false, Problems := 0 }
      (by decide) (by decide) (fun _ => Or.inl rfl) rfl).2.2.2.2.2.2.2.2.2.1⟩

/-- C10 as stated fails on the code: after the tasks a.shared.com and b.shared.com have been
handled on a new cache in the network `sharedNet`, the record holds two group queries for
the zone shared.com, both issued by the first task, its owner, in its round of the zone:
the one of `processName` to a.gtld-servers.net and the one of `checkLame` to ns1.shared.com.
Each asks one server, which answers at the first attempt, so that two DNS queries for
shared.com. are put on the wire, not one. -/
theorem shared_zone_queried_twice :
    queriesFor "shared.com." afterAB.queries =
      [("shared.com.", ["a.gtld-servers.net"]), ("shared.com.", ["ns1.shared.com"])] ∧
    queriesFor "shared.com." afterA.queries =
      [("shared.com.", ["a.gtld-servers.net"]), ("shared.com.", ["ns1.shared.com"])] ∧
    (zoneRounds sharedNet [] World.start
        { Name := "a.shared.com", Lame := false, Problems := 0 } "shared.com").flatMap
      WalkRound.asked = [["a.gtld-servers.net"], ["ns1.shared.com"]] ∧
    ((queriesFor "shared.com." afterAB.queries).map (exchangeCount sharedNet)).sum = 2 := by
  decide


/-! ## The cache: plain lookups and the second publication -/

/-- A call that is not a call of the publish closure of `key` leaves the value entry of a
claimed `key` as it is. -/
theorem step_cache_keep {T : Type} (zero : T) (c : Cache T) (op : CacheOp T) (key : String)
    (hop : CacheOp.isPublishOf key op = false) (h : (c.locks key).isSome) :
    (c.step zero op).1.cache key = c.cache key := by
  by_cases hk : op.key = key
  · cases op with
    | addCheck k => simp only [Cache.step, AddCheck_cache]
    | publish k v e => simp [CacheOp.isPublishOf, CacheOp.key] at hop hk; exact absurd hk hop
    | add k v =>
      simp only [CacheOp.key] at hk; subst hk
      simp only [Cache.step]; rw [(Add_locks c k v).2 h]
    | get k => rfl
    | getWait k => simp only [Cache.step, (GetWait_locks zero c k).1]
  · exact step_cache_other zero c op key hk

theorem run_cache_keep {T : Type} (zero : T) (key : String) (ops : List (CacheOp T))
    (hops : ∀ op ∈ ops, CacheOp.isPublishOf key op = false) :
    ∀ c : Cache T, (c.locks key).isSome → (c.run zero ops).1.cache key = c.cache key := by
  induction ops with
  | nil => intro c _; rfl
  | cons op ops ih =>
    intro c h
    simp only [Cache.run]
    rw [ih (fun o ho => hops o (List.mem_cons_of_mem _ ho)) _
      (step_locks_isSome zero c op key h),
      step_cache_keep zero c op key (hops op (List.mem_cons_self _ _)) h]

/-- Publishing on a held claim, with or without an error, returns nil, closes the channel
and stores the value. -/
theorem call_Claimed {T : Type} (c : Cache T) (key : String) (value : T) (err : GoError)
    (h : Claimed c key) :
    ((⟨key⟩ : AddFunc).call c value err).2 = .ret none ∧
      Stored ((⟨key⟩ : AddFunc).call c value err).1 key value := by
  unfold Claimed at h
  cases err with
  | none =>
    simp [AddFunc.call, Cache.closeLock, h, makeChan, ErrChan.close, Stored, mapSet]
  | some e =>
    simp [AddFunc.call, Cache.sendLock, Cache.closeLock, h, makeChan, ErrChan.send,
      ErrChan.close, Stored, mapSet]

theorem NoOrphan_New {T : Type} : NoOrphan (Cache.New : Cache T) := fun _ _ => rfl

/-- Every call keeps `NoOrphan`, provided the publish closure is called for claimed keys
only. -/
theorem NoOrphan_step {T : Type} (zero : T) (c : Cache T) (op : CacheOp T)
    (hop : ∀ k, CacheOp.isPublishOf k op = true → (c.locks k).isSome) (h : NoOrphan c) :
    NoOrphan (c.step zero op).1 := by
  intro k hk
  have hnone : c.locks k = none := by
    by_contra hne
    have := step_locks_isSome zero c op k (Option.isSome_iff_ne_none.mpr hne)
    rw [hk] at this
    simp at this
  by_cases hp : CacheOp.isPublishOf k op = true
  · have := hop k hp
    rw [hnone] at this
    simp at this
  · by_cases hkey : op.key = k
    · cases op with
      | addCheck k2 => simp only [Cache.step, AddCheck_cache]; exact h k hnone
      | publish k2 v e => simp [CacheOp.isPublishOf, CacheOp.key] at hp hkey; exact absurd hkey hp
      | add k2 v =>
        simp only [CacheOp.key] at hkey; subst hkey
        exfalso
        have hsome : ((c.Add k2 v).1.locks k2).isSome := by
          simp only [Cache.Add, Cache.AddCheck, hnone]
          exact (call_locks ⟨k2⟩ _ v none).2 (by simp [mapSet])
        simp only [Cache.step] at hk
        rw [hk] at hsome
        simp at hsome
      | get k2 => exact h k hnone
      | getWait k2 => simp only [Cache.step, (GetWait_locks zero c k2).1]; exact h k hnone
    · rw [step_cache_other zero c op k hkey]; exact h k hnone

/-- C11: let the cache hold no value under an unclaimed key (as the new cache and every cache
reached from it), and let a caller become the owner of `key`. `Get(key)` returns the zero
value and false before the claim, after the claim (`AddCheck` alone does not make the key
visible), and after any further calls that are not the publication. The publication
`publish(value, err)`, with a nil or a non-nil `err`, returns nil, and from then on
`Get(key)` returns `(value, true)`, whatever calls follow other than a second call of the
closure. -/
theorem Get_after_publish {T : Type} (zero : T) (c : Cache T) (key : String) (value : T)
    (err : GoError) (before later : List (CacheOp T))
    (hwf : NoOrphan c) (hown : (c.AddCheck key).2.2 = true)
    (hbefore : ∀ op ∈ before, CacheOp.isPublishOf key op = false)
    (hlater : ∀ op ∈ later, CacheOp.isPublishOf key op = false) :
    c.Get zero key = (zero, false) ∧
    (c.AddCheck key).1.Get zero key = (zero, false) ∧
    ((c.AddCheck key).1.run zero before).1.Get zero key = (zero, false) ∧
    ((⟨key⟩ : AddFunc).call ((c.AddCheck key).1.run zero before).1 value err).2 = .ret none ∧
    (((⟨key⟩ : AddFunc).call ((c.AddCheck key).1.run zero before).1 value err).1.run
      zero later).1.Get zero key = (value, true) := by
  have hfree : c.locks key = none := by
    rw [AddCheck_answer] at hown
    by_contra hne
    simp [hne] at hown
  have h0 : c.cache key = none := hwf key hfree
  have h1 : Claimed (c.AddCheck key).1 key := by
    simp [Claimed, AddCheck_locks, hfree]
  have h1c : (c.AddCheck key).1.cache key = none := by rw [AddCheck_cache]; exact h0
  have h2 := run_Claimed zero key before hbefore _ h1
  have h2c : ((c.AddCheck key).1.run zero before).1.cache key = none := by
    rw [run_cache_keep zero key before hbefore _ (by rw [h1]; rfl)]; exact h1c
  obtain ⟨h3, ⟨ch, hch, -⟩, h4⟩ := call_Claimed _ key value err h2
  have h5 := run_cache_keep zero key later hlater _ (by rw [hch]; rfl)
  refine ⟨by simp [Cache.Get, h0], by simp [Cache.Get, h1c], by simp [Cache.Get, h2c], h3, ?_⟩
  simp [Cache.Get, h5, h4]

/-- Witness for C11: on a new cache the owner of "com" publishes a list together with an
error; `Get` then returns the list, also after a waiter has taken the error. -/
theorem Get_after_publish_witness :
    (((⟨"com"⟩ : AddFunc).call (((Cache.New : Cache (List String)).AddCheck "com").1.run []
        [.get "com"]).1 ["ns1"] (some "timeout")).1.run [] [.getWait "com"]).1.Get [] "com" =
      (["ns1"], true) :=
  (Get_after_publish [] Cache.New "com" ["ns1"] (some "timeout") [.get "com"] [.getWait "com"]
    NoOrphan_New rfl (by simp [CacheOp.isPublishOf]) (by simp [CacheOp.isPublishOf])).2.2.2.2

/-- A call of the publish closure of a key whose channel is closed panics: with a non-nil
error at the send, before anything is stored; with a nil error at the close, after the value
has been stored. -/
theorem call_Stored {T : Type} (c : Cache T) (key : String) (v1 v2 : T) (e2 : GoError)
    (h : Stored c key v1) :
    ((⟨key⟩ : AddFunc).call c v2 e2).2 = .panics ∧
    (e2 ≠ none → ((⟨key⟩ : AddFunc).call c v2 e2).1 = c) ∧
    (e2 = none → ((⟨key⟩ : AddFunc).call c v2 e2).1.cache key = some v2) := by
  obtain ⟨⟨ch, hch, hclosed⟩, -⟩ := h
  cases e2 with
  | none =>
    simp [AddFunc.call, Cache.closeLock, hch, ErrChan.close, hclosed, mapSet]
  | some e =>
    simp [AddFunc.call, Cache.sendLock, hch, ErrChan.send, hclosed]

/-- `Add` on a claimed key returns the error and leaves the cache as it is. -/
theorem Add_claimed {T : Type} (c : Cache T) (key : String) (v : T)
    (h : (c.locks key).isSome) : c.Add key v = (c, .ret (some (errKeyExists key))) := by
  unfold Cache.Add Cache.AddCheck
  cases hl : c.locks key with
  | none => rw [hl] at h; simp at h
  | some ch => rfl

theorem step_Stored {T : Type} (zero : T) (c : Cache T) (op : CacheOp T) (key : String)
    (value : T) (hop : CacheOp.isPublishOf key op = false) (h : Stored c key value) :
    Stored (c.step zero op).1 key value := by
  obtain ⟨⟨ch, hch, hclosed⟩, hv⟩ := h
  have hsome : (c.locks key).isSome := by rw [hch]; rfl
  refine ⟨?_, by rw [step_cache_keep zero c op key hop hsome]; exact hv⟩
  by_cases hk : op.key = key
  · cases op with
    | addCheck k =>
      simp only [CacheOp.key] at hk; subst hk
      exact ⟨ch, by simp [Cache.step, AddCheck_locks, hch], hclosed⟩
    | publish k v e => simp [CacheOp.isPublishOf, CacheOp.key] at hop hk; exact absurd hk hop
    | add k v =>
      simp only [CacheOp.key] at hk; subst hk
      simp only [Cache.step]; rw [(Add_locks c k v).2 hsome]
      exact ⟨ch, hch, hclosed⟩
    | get k => exact ⟨ch, hch, hclosed⟩
    | getWait k =>
      simp only [CacheOp.key] at hk; subst hk
      simp only [Cache.step, Cache.GetWait, hch, ErrChan.recv]
      cases hb : ch.buf with
      | nil => simp [hclosed, mapSet]
      | cons x rest =>
        cases x <;> simp [hclosed, mapSet]
  · rw [step_locks_other zero c op key hk]
    exact ⟨ch, hch, hclosed⟩

theorem run_Stored {T : Type} (zero : T) (key : String) (value : T) (ops : List (CacheOp T))
    (hops : ∀ op ∈ ops, CacheOp.isPublishOf key op = false) :
    ∀ c : Cache T, Stored c key value → Stored (c.run zero ops).1 key value := by
  induction ops with
  | nil => intro c h; exact h
  | cons op ops ih =>
    intro c h
    simp only [Cache.run]
    exact ih (fun o ho => hops o (List.mem_cons_of_mem _ ho)) _
      (step_Stored zero c op key value (hops op (List.mem_cons_self _ _)) h)

/-- C12, as amended: let a caller become the owner of `key` and publish `(v1, e1)`; the call
returns nil. After any calls that follow, other than calls of the closure, a second call of
the closure with any value `v2` and any error `e2` does not return nil: it panics; and when
`e2` is not nil the value stored under the key is still `v1`. Likewise `Add` on the key
returns an error and leaves `v1` stored. -/
theorem publish_twice_panics {T : Type} (zero : T) (c : Cache T) (key : String)
    (v1 v2 v3 : T) (e1 e2 : GoError) (mid : List (CacheOp T))
    (hown : (c.AddCheck key).2.2 = true)
    (hmid : ∀ op ∈ mid, CacheOp.isPublishOf key op = false) :
    ((⟨key⟩ : AddFunc).call (c.AddCheck key).1 v1 e1).2 = .ret none ∧
    ((⟨key⟩ : AddFunc).call
      (((⟨key⟩ : AddFunc).call (c.AddCheck key).1 v1 e1).1.run zero mid).1 v2 e2).2 = .panics ∧
    (e2 ≠ none → ((⟨key⟩ : AddFunc).call
      (((⟨key⟩ : AddFunc).call (c.AddCheck key).1 v1 e1).1.run zero mid).1 v2 e2).1.Get
        zero key = (v1, true)) ∧
    ((((⟨key⟩ : AddFunc).call (c.AddCheck key).1 v1 e1).1.run zero mid).1.Add key v3).2 =
      .ret (some (errKeyExists key)) ∧
    ((((⟨key⟩ : AddFunc).call (c.AddCheck key).1 v1 e1).1.run zero mid).1.Add key v3).1.Get
      zero key = (v1, true) := by
  have hfree : c.locks key = none := by
    rw [AddCheck_answer] at hown
    by_contra hne
    simp [hne] at hown
  have h1 : Claimed (c.AddCheck key).1 key := by
    simp [Claimed, AddCheck_locks, hfree]
  obtain ⟨h2, h3⟩ := call_Claimed _ key v1 e1 h1
  have h4 := run_Stored zero key v1 mid hmid _ h3
  obtain ⟨h5, h6, -⟩ := call_Stored _ key v1 v2 e2 h4
  have hsome : ((((⟨key⟩ : AddFunc).call (c.AddCheck key).1 v1 e1).1.run zero mid).1.locks
      key).isSome := by
    obtain ⟨⟨ch, hch, -⟩, -⟩ := h4
    rw [hch]; rfl
  refine ⟨h2, h5, ?_, ?_, ?_⟩
  · intro he
    rw [h6 he]
    simp [Cache.Get, h4.2]
  · rw [Add_claimed _ key v3 hsome]
  · rw [Add_claimed _ key v3 hsome]
    simp [Cache.Get, h4.2]

/-- Witness for C12: on a new cache the owner of "com" publishes the list a, a waiter reads
it, and the owner calls the closure again with the list b and an error; the call panics
and a is still stored. -/
theorem publish_twice_panics_witness :
    ((⟨"com"⟩ : AddFunc).call
      (((⟨"com"⟩ : AddFunc).call ((Cache.New : Cache (List String)).AddCheck "com").1 ["a"]
        none).1.run [] [.getWait "com"]).1 ["b"] (some "timeout")).1.Get [] "com" =
      (["a"], true) :=
  (publish_twice_panics [] Cache.New "com" ["a"] ["b"] ["c"] none (some "timeout")
    [.getWait "com"] rfl (by simp [CacheOp.isPublishOf])).2.2.1 (by simp)

/-- C12 as stated fails on the code: on a new cache the owner of "com" publishes the list a
and then calls its closure again with the list b and a nil error. The second call panics,
so it is not silently tolerated, but it has stored b before it panics: `Get` returns b
and not the value of the first call. (With a non-nil error the second call panics before
storing, and `Add` on the claimed key returns an error and changes nothing.) -/
theorem publish_twice_overwrites :
    ((⟨"com"⟩ : AddFunc).call ((⟨"com"⟩ : AddFunc).call claimedCom ["a"] none).1 ["b"] none).2 =
      .panics ∧
    (publishedTwice ["a"] ["b"] none none).Get [] "com" = (["b"], true) ∧
    ((⟨"com"⟩ : AddFunc).call ((⟨"com"⟩ : AddFunc).call claimedCom ["a"] none).1 ["b"]
      (some "timeout")).2 = .panics ∧
    (publishedTwice ["a"] ["b"] none (some "timeout")).Get [] "com" = (["a"], true) ∧
    (((⟨"com"⟩ : AddFunc).call claimedCom ["a"] none).1.Add "com" ["b"]).2 =
      .ret (some (errKeyExists "com")) ∧
    ((((⟨"com"⟩ : AddFunc).call claimedCom ["a"] none).1.Add "com" ["b"]).1).Get [] "com" =
      (["a"], true) := by
  decide

/-! ## The orchestrator: cancellation -/

theorem Jobs_Go_some (ret : Option JobError) (e : JobError) :
    Jobs.Go ret = some e ↔ (ret = some e ∧ e ≠ JobError.Canceled) := by
  unfold Jobs.Go
  cases ret with
  | none => simp
  | some x =>
    by_cases hx : x = JobError.Canceled
    · subst hx
      simp
      intro h; exact h.symm
    · simp only [ne_eq, hx, not_false_eq_true, if_true, Option.some.injEq]
      constructor
      · intro h; subst h; exact ⟨rfl, hx⟩
      · intro h; exact h.1

theorem Jobs_Go_none (ret : Option JobError) :
    Jobs.Go ret = none ↔ (ret = none ∨ ret = some JobError.Canceled) := by
  unfold Jobs.Go
  cases ret with
  | none => simp
  | some x =>
    by_cases hx : x = JobError.Canceled
    · subst hx; simp
    · simp [hx]

/-- A worker never returns nil, and what it returns is the error of the context, when it
saw the context done, or an error it made itself, which is not a sentinel. -/
theorem worker_ret (ex : Exchanger) (expected : List String) (ctxErr : JobError)
    (events : List WorkerEvent) :
    ∀ (world : World) (done : List nameWork) (r : Option JobError),
      (worker ex expected ctxErr events world done).ret = .ret r →
        r = some ctxErr ∨ ∃ m, r = some (JobError.other m) := by
  induction events with
  | nil => intro world done r h; simp [worker] at h
  | cons ev events ih =>
    intro world done r h
    cases ev with
    | ctxDone =>
      simp only [worker, Outcome.ret.injEq] at h
      exact Or.inl h.symm
    | work item =>
      cases item with
      | unknown t =>
        simp only [worker, Outcome.ret.injEq] at h
        exact Or.inr ⟨_, h.symm⟩
      | name w =>
        simp only [worker] at h
        split at h
        · exact ih _ _ r h
        · simp only [Outcome.ret.injEq] at h
          exact Or.inr ⟨_, h.symm⟩
        · simp at h
        · simp at h

/-- Every value on `errChan` was returned by a worker or by the saver and is not
`context.Canceled`. -/
theorem mem_Jobs_sent (workers : List (Option JobError)) (saver : Option JobError)
    (e : JobError) (h : e ∈ Jobs.sent workers saver) :
    e ≠ JobError.Canceled ∧ (some e ∈ workers ∨ saver = some e) := by
  unfold Jobs.sent at h
  rcases List.mem_append.mp h with h1 | h1
  · rw [List.mem_filterMap] at h1
    obtain ⟨ret, hret, hgo⟩ := h1
    obtain ⟨h2, h3⟩ := (Jobs_Go_some ret e).mp hgo
    subst h2
    exact ⟨h3, Or.inl hret⟩
  · unfold Jobs.SaveGo at h1
    cases saver with
    | none => simp at h1
    | some x =>
      by_cases hx : x = JobError.Canceled
      · subst hx; simp at h1
      · simp only [ne_eq, hx, not_false_eq_true, if_true, Option.toList_some,
          List.mem_singleton] at h1
        subst h1
        exact ⟨hx, Or.inr rfl⟩

theorem Jobs_Wait_mem (sent : List JobError) (first second : Option Nat) (e : JobError)
    (h : Jobs.Wait sent first second = .ret (some e)) : e ∈ sent := by
  unfold Jobs.Wait at h
  cases first with
  | some i =>
    simp only at h
    cases hs : sent[i]? with
    | none => rw [hs] at h; simp at h
    | some x =>
      rw [hs] at h
      simp only [Outcome.ret.injEq, Option.some.injEq] at h
      subst h
      exact List.getElem?_mem hs
  | none =>
    cases second with
    | none => simp at h
    | some i =>
      simp only at h
      cases hs : sent[i]? with
      | none => rw [hs] at h; simp at h
      | some x =>
        rw [hs] at h
        simp only [Outcome.ret.injEq, Option.some.injEq] at h
        subst h
        exact List.getElem?_mem hs

/-- C13: the goroutine of `Jobs.Go` sends the value its worker returned on the error channel
exactly when the value is not nil and is not `context.Canceled`. The worker of work.go,
in the round in which it sees the context done, returns the error of the context, whatever
that error is; its other returns are errors it makes itself. So when the context is
cancelled (its error is `context.Canceled`) the goroutine of such a worker sends nothing,
the values on the error channel are the same with and without the workers stopped by the
cancellation, and an error returned by `Wait` is never `context.Canceled`: it was returned
by the saver or by a worker that was not stopped by the cancellation. -/
theorem cancellation_not_leaked (ret : Option JobError) (e : JobError)
    (ex : Exchanger) (expected : List String) (ctxErr : JobError) (events : List WorkerEvent)
    (world : World) (done : List nameWork)
    (workers : List (Option JobError)) (saver : Option JobError) (first second : Option Nat) :
    (Jobs.Go ret = some e ↔ (ret = some e ∧ e ≠ JobError.Canceled)) ∧
    (Jobs.Go ret = none ↔ (ret = none ∨ ret = some JobError.Canceled)) ∧
    (worker ex expected ctxErr (WorkerEvent.ctxDone :: events) world done).ret =
      .ret (some ctxErr) ∧
    (∀ r, (worker ex expected ctxErr events world done).ret = .ret r →
      r = some ctxErr ∨ ∃ m, r = some (JobError.other m)) ∧
    (worker ex expected JobError.Canceled (WorkerEvent.ctxDone :: events) world done).ret =
      .ret (some JobError.Canceled) ∧
    Jobs.Go (some JobError.Canceled) = none ∧
    Jobs.sent workers saver =
      Jobs.sent (workers.filter (fun r => decide (r ≠ some JobError.Canceled))) saver ∧
    (Jobs.Wait (Jobs.sent workers saver) first second = .ret (some e) →
      e ≠ JobError.Canceled ∧ (some e ∈ workers ∨ saver = some e)) := by
  refine ⟨Jobs_Go_some ret e, Jobs_Go_none ret, rfl, worker_ret ex expected ctxErr events world done,
    rfl, rfl, ?_, ?_⟩
  · unfold Jobs.sent
    congr 1
    induction workers with
    | nil => rfl
    | cons r rs ih =>
      by_cases hr : r = some JobError.Canceled
      · subst hr
        simp only [List.filterMap_cons, Jobs.Go, ne_eq, not_true_eq_false, if_false,
          decide_False, decide_True, Bool.not_true, List.filter_cons, Bool.false_eq_true]
        exact ih
      · rw [List.filter_cons_of_pos (by simpa using hr)]
        simp only [List.filterMap_cons]
        rw [ih]
  · intro h
    exact mem_Jobs_sent workers saver e (Jobs_Wait_mem _ first second e h)

/-- Witness for C13: two workers were stopped by the cancellation and a third one returned an
error of its own; whichever select case fires, when `Wait` returns an error it is the
error of the third worker. -/
theorem cancellation_not_leaked_witness :
    Jobs.Wait (Jobs.sent [some JobError.Canceled, some (JobError.other "error on x"),
        some JobError.Canceled] none) (some 0) none = .ret (some (JobError.other "error on x")) ∧
      JobError.other "error on x" ≠ JobError.Canceled :=
  ⟨by decide,
   ((cancellation_not_leaked none (JobError.other "error on x") lameNet [] JobError.Canceled []
      World.start [] [some JobError.Canceled, some (JobError.other "error on x"),
        some JobError.Canceled] none (some 0) none).2.2.2.2.2.2.2 (by decide)).1⟩

/-! ## checks.go: servers that miss a name -/

/-- When the list of a server has no duplicate, a name of the union that the server does
not report makes its list shorter than the union, so that the server is counted and
reported with the name in its missing list. -/
theorem missing_server_nodup (r : queryGroup) (hNS : r.NS = r.allNS)
    (e : String × queryResult) (he : e ∈ r.Results) (herr : e.2.Err = none)
    (hnd : e.2.NS.Nodup) (h : String) (hin : h ∈ r.NS) (hout : h ∉ e.2.NS) :
    (checkEqualResultResponse.body r e).1 = 1 ∧
      ∃ missing, h ∈ missing ∧
        (checkEqualResultResponse.body r e).2 =
          [Finding.varying r.NS.length e.2.NS.length r.Domain e.1 missing] := by
  have hsub : e.2.NS ⊆ r.NS.erase h := by
    intro x hx
    have hxin : x ∈ r.NS := by
      rw [hNS, allNS_mem]
      exact ⟨e, he, hx⟩
    have hne : x ≠ h := fun hxh => hout (hxh ▸ hx)
    exact (List.mem_erase_of_ne hne).mpr hxin
  have hlen1 : e.2.NS.length ≤ (r.NS.erase h).length :=
    (List.subperm_of_subset hnd hsub).length_le
  have hlen2 : (r.NS.erase h).length = r.NS.length - 1 := List.length_erase_of_mem hin
  have hpos : 0 < r.NS.length := List.length_pos_of_mem hin
  have hlen : e.2.NS.length ≠ r.NS.length := by omega
  unfold checkEqualResultResponse.body
  rw [herr]
  simp only [hlen, ne_eq, not_false_eq_true, if_true, List.cons.injEq, and_true, true_and]
  refine ⟨_, ?_, rfl⟩
  rw [ExtraStrings_eq]
  simp [hin, hout]

/-- C14, as amended: in a group built by `queryNSParallel`, for every server that answered
without error and whose own NS list has no repeated entry, if a host name of the union NS
list of the group is absent from the list of the server, then `checkEqualResultResponse`
counts the server as a problem, and reports it with a missing list that contains the host
name. -/
theorem missing_server_counted (ex : Exchanger) (domain : String) (servers : List String)
    (e : String × queryResult)
    (he : e ∈ (queryNSParallel.result ex domain servers).Results)
    (herr : e.2.Err = none) (hnd : e.2.NS.Nodup) (h : String)
    (hin : h ∈ (queryNSParallel.result ex domain servers).NS) (hout : h ∉ e.2.NS) :
    (checkEqualResultResponse.body (queryNSParallel.result ex domain servers) e).1 = 1 ∧
    1 ≤ (checkEqualResultResponse (queryNSParallel.result ex domain servers)).1 ∧
    ∃ missing, h ∈ missing ∧
      Finding.varying (queryNSParallel.result ex domain servers).NS.length e.2.NS.length
          (queryNSParallel.result ex domain servers).Domain e.1 missing ∈
        (checkEqualResultResponse (queryNSParallel.result ex domain servers)).2 := by
  obtain ⟨b1, missing, b2, b3⟩ :=
    missing_server_nodup (queryNSParallel.result ex domain servers) rfl e he herr hnd h hin hout
  have hfold := checkEqualResultResponse_foldl (queryNSParallel.result ex domain servers)
    (queryNSParallel.result ex domain servers).Results (0, [])
  have hlen : e.2.NS.length ≠ (queryNSParallel.result ex domain servers).NS.length := by
    intro hl
    unfold checkEqualResultResponse.body at b1
    rw [herr] at b1
    simp [hl] at b1
  refine ⟨b1, ?_, missing, b2, ?_⟩
  · unfold checkEqualResultResponse
    rw [hfold]
    simp only [Nat.zero_add]
    have hpos : 0 < List.countP (fun e : String × queryResult => e.2.Err.isNone &&
        decide (e.2.NS.length ≠ (queryNSParallel.result ex domain servers).NS.length))
        (queryNSParallel.result ex domain servers).Results := by
      rw [List.countP_pos_iff]
      exact ⟨e, he, by simp [herr, hlen]⟩
    omega
  · unfold checkEqualResultResponse
    rw [hfold]
    simp only [List.nil_append, List.mem_flatMap]
    exact ⟨e, he, by rw [b3]; simp⟩

/-- Witness for C14: in the network `partialNet` the union is ns1, ns2 and the server s1
answered with ns1 alone: it is counted and reported with the missing name ns2. -/
theorem missing_server_counted_witness :
    1 ≤ (checkEqualResultResponse
      (queryNSParallel.result partialNet "example.com" ["s1", "s2"])).1 :=
  (missing_server_counted partialNet "example.com" ["s1", "s2"]
    ("s1", { Err := none, Authoritative := false, NS := ["ns1"] })
    (by decide) rfl (by decide) "ns2" (by decide) (by decide)).2.1

/-- C14 as stated fails on the code: in the network `dupNet` the group built by `queryNSParallel` has
the union ns1, ns2; the server s1 answered without error with the list ns1, ns1, from
which ns2 is absent; its list has the length of the union, so `checkEqualResultResponse`
counts nothing and reports nothing. (In the network `partialNet`, where s1 reports ns1
once, the server is counted and reported with the missing name ns2.) -/
theorem missing_server_not_counted :
    queryNSParallel dupNet "example.com" ["s1", "s2"] = .ok dupGroup ∧
    ("s1", ({ Err := none, Authoritative := true, NS := ["ns1", "ns1"] } : queryResult)) ∈
      dupGroup.Results ∧
    "ns2" ∈ dupGroup.NS ∧ "ns2" ∉ ["ns1", "ns1"] ∧
    checkEqualResultResponse dupGroup = (0, []) ∧
    checkEqualResultResponse (queryNSParallel.result partialNet "example.com" ["s1", "s2"]) =
      (1, [Finding.varying 2 1 "example.com" "s1" ["ns2"]]) :=
  ⟨(queryNSParallel_eq dupNet "example.com" ["s1", "s2"]).trans (congrArg Except.ok (by decide)),
   by decide, by decide, by decide, by decide, by decide⟩

/-! ## The query layer never fails as a group -/

theorem ownerSeen_Clean (c : Cache (List String)) (k : String) (v : List String)
    (h : Clean c) : Clean (ownerSeen c k v) := by
  intro key ch hch
  by_cases hk : key = k
  · subst hk
    simp only [ownerSeen, mapSet_same, Option.some.injEq] at hch
    rw [← hch]
  · rw [(ownerSeen_other c k key v hk).1] at hch
    exact h key ch hch

/-- One round of the loop of `processName` on a cache without pending error: no error is
published, and the round goes on or blocks in `GetWait`. -/
theorem body_clean (ex : Exchanger) (expected labels : List String) (i : Nat) (st : WalkState)
    (h : Clean st.world.seen) :
    Clean (processName.body ex expected labels i st).1.world.seen ∧
      ((processName.body ex expected labels i st).2 = none ∨
        (processName.body ex expected labels i st).2 = some .blocks) := by
  cases hl : st.world.seen.locks (labels.getD i "") with
  | none =>
    rw [body_owner ex expected labels i st hl]
    exact ⟨ownerSeen_Clean _ _ _ h, Or.inl rfl⟩
  | some ch =>
    have hbuf := h _ ch hl
    have hch : ch = { cap := ch.cap, buf := [], closed := ch.closed } := by
      cases ch; simp only at hbuf; subst hbuf; rfl
    unfold processName.body
    simp only [Cache.AddCheck, hl, Cache.GetWait]
    rw [hch]
    cases ch.closed with
    | false =>
      simp only [ErrChan.recv, Bool.false_eq_true, if_false]
      exact ⟨h, by simp⟩
    | true =>
      simp only [ErrChan.recv, if_true]
      refine ⟨?_, by simp⟩
      intro key ch2 hch2
      simp only at hch2
      by_cases hk : key = labels.getD i ""
      · subst hk
        simp only [mapSet_same, Option.some.injEq] at hch2
        rw [← hch2]
      · rw [mapSet_other _ _ _ _ hk] at hch2
        exact h key ch2 hch2

theorem loop_clean (ex : Exchanger) (expected labels : List String) (idxs : List Nat) :
    ∀ st : WalkState, Clean st.world.seen →
      Clean (processName.loop ex expected labels idxs st).1.world.seen ∧
        ((processName.loop ex expected labels idxs st).2 = .ret none ∨
          (processName.loop ex expected labels idxs st).2 = .blocks) := by
  induction idxs with
  | nil => intro st h; exact ⟨h, Or.inl rfl⟩
  | cons i idxs ih =>
    intro st h
    obtain ⟨b1, b2⟩ := body_clean ex expected labels i st h
    simp only [processName.loop]
    cases hb : processName.body ex expected labels i st with
    | mk st1 o =>
      rw [hb] at b1 b2
      simp only at b1 b2
      rcases b2 with b2 | b2
      · subst b2; exact ih st1 b1
      · subst b2; exact ⟨b1, Or.inr rfl⟩

/-- `processName` on a cache without pending error publishes no error; it returns nil, or
blocks waiting for a claim that has not been published. -/
theorem processName_clean (ex : Exchanger) (expected : List String) (world : World)
    (w : nameWork) (h : Clean world.seen) :
    Clean (processName ex expected world w).1.seen ∧
      ((processName ex expected world w).2.2 = .ret none ∨
        (processName ex expected world w).2.2 = .blocks) :=
  loop_clean ex expected _ _ (walkInit world w) h

/-- A worker keeps the cache without pending error, whatever it is given to do. -/
theorem worker_clean (ex : Exchanger) (expected : List String) (ctxErr : JobError)
    (events : List WorkerEvent) :
    ∀ (world : World) (done : List nameWork), Clean world.seen →
      Clean (worker ex expected ctxErr events world done).world.seen := by
  induction events with
  | nil => intro world done h; exact h
  | cons ev events ih =>
    intro world done h
    cases ev with
    | ctxDone => exact h
    | work item =>
      cases item with
      | unknown t => exact h
      | name w =>
        have hc := (processName_clean ex expected world w h).1
        simp only [worker]
        split
        · rename_i heq; rw [heq] at hc; exact ih _ _ hc
        · rename_i heq; rw [heq] at hc; exact hc
        · rename_i heq; rw [heq] at hc; exact hc
        · rename_i heq; rw [heq] at hc; exact hc

theorem mapInsert_key {V : Type} (m : List (String × V)) (k : String) (v : V) (k2 : String) :
    (∃ e ∈ mapInsert m k v, e.1 = k2) ↔ k2 = k ∨ ∃ e ∈ m, e.1 = k2 := by
  induction m with
  | nil => simp [mapInsert, eq_comm]
  | cons a m ih =>
    obtain ⟨k0, v0⟩ := a
    simp only [mapInsert]
    split
    · rename_i h0
      subst h0
      simp only [List.mem_cons, exists_eq_or_imp]
      constructor
      · rintro (h | h)
        · exact Or.inl h.symm
        · exact Or.inr (Or.inr h)
      · rintro (h | h | h)
        · exact Or.inl h.symm
        · exact Or.inl h
        · exact Or.inr h
    · simp only [List.mem_cons, exists_eq_or_imp]
      rw [ih]
      tauto

theorem foldl_mapInsert_key {V : Type} (l : List (String × V)) (k2 : String) :
    ∀ m : List (String × V),
      (∃ e ∈ l.foldl (fun m e => mapInsert m e.1 e.2) m, e.1 = k2) ↔
        (∃ e ∈ m, e.1 = k2) ∨ ∃ e ∈ l, e.1 = k2 := by
  induction l with
  | nil => intro m; simp
  | cons a l ih =>
    intro m
    rw [List.foldl_cons, ih, mapInsert_key]
    simp only [List.mem_cons, exists_eq_or_imp]
    constructor
    · rintro ((h | h) | h)
      · exact Or.inr (Or.inl h.symm)
      · exact Or.inl h
      · exact Or.inr (Or.inr h)
    · rintro (h | h | h)
      · exact Or.inl (Or.inr h)
      · exact Or.inl (Or.inl h.symm)
      · exact Or.inr h

/-- Every server asked has its result in the map of the group. -/
theorem resultsMap_key (ex : Exchanger) (domain : String) (servers : List String)
    (s : String) (hs : s ∈ servers) : ∃ e ∈ resultsMap ex domain servers, e.1 = s := by
  unfold resultsMap
  rw [foldl_mapInsert_key]
  right
  rw [List.map_map, List.zip_map_right]
  exact ⟨(s, _), List.mem_map.mpr ⟨(s, s), by
    rw [List.mem_iff_getElem] at hs ⊢
    obtain ⟨n, hn, hget⟩ := hs
    exact ⟨n, by simpa using hn, by simp [hget]⟩, rfl⟩, rfl⟩

theorem checkLame_foldl_findings (d : String) (l : List (String × queryResult)) :
    ∀ (acc : Bool × List Finding) (f : Finding),
      f ∈ (l.foldl (fun acc e =>
          if !e.2.Authoritative then (true, acc.2 ++ [Finding.notAuthoritative e.1 d])
          else acc) acc).2 →
        f ∈ acc.2 ∨ ∃ a b, f = Finding.notAuthoritative a b := by
  induction l with
  | nil => intro acc f h; exact Or.inl h
  | cons a l ih =>
    intro acc f h
    rw [List.foldl_cons] at h
    rcases ih _ f h with h1 | h1
    · split at h1
      · rcases List.mem_append.mp h1 with h2 | h2
        · exact Or.inl h2
        · exact Or.inr ⟨_, _, List.mem_singleton.mp h2⟩
      · exact Or.inl h1
    · exact Or.inr h1

/-- `checkLame` never prints the finding of its error branch. -/
theorem checkLame_no_queryError (ex : Exchanger) (q : queryGroup) (d err : String) :
    Finding.queryError d err ∉ (checkLame ex q).findings := by
  unfold checkLame
  simp only [queryNSParallel_eq]
  intro h
  rcases checkLame_foldl_findings _ _ _ _ h with h1 | ⟨a, b, h1⟩
  · split at h1
    · rcases List.mem_cons.mp h1 with h2 | h2
      · exact Finding.noConfusion h2
      · split at h2
        · exact Finding.noConfusion (List.mem_singleton.mp h2)
        · simp at h2
    · simp at h1
  · exact Finding.noConfusion h1

/-- C15: for every domain and every list of servers, the empty list included, and whatever
the network answers, `queryNSParallel` returns a group and a nil error; every server asked
has its result in the group, and each result is the one `queryNSServer` gave for its own
server, error included. So `checkLame` never takes its error branch, and `processName`
never takes the branch that publishes an error: run on a cache in which no channel holds an
error (as the new cache), it leaves such a cache, and it returns nil or blocks in `GetWait`;
the same holds of a worker, whatever tasks it handles. -/
theorem queryNSParallel_never_fails (ex : Exchanger) (domain : String) (servers : List String)
    (q : queryGroup) (expected : List String) (world : World) (w : nameWork)
    (ctxErr : JobError) (events : List WorkerEvent) (done : List nameWork)
    (hclean : Clean world.seen) :
    queryNSParallel ex domain servers = .ok (queryNSParallel.result ex domain servers) ∧
    queryNSParallel ex domain [] =
      .ok { Domain := cleanDomain (Fqdn domain), Results := [], NS := [] } ∧
    (∀ s ∈ servers, ∃ e ∈ (queryNSParallel.result ex domain servers).Results, e.1 = s) ∧
    (∀ e ∈ (queryNSParallel.result ex domain servers).Results,
      e.1 ∈ servers ∧
        e.2 = { Err := (queryNSServer ex e.1 (Fqdn domain)).2.2,
                Authoritative := (queryNSServer ex e.1 (Fqdn domain)).2.1,
                NS := (queryNSServer ex e.1 (Fqdn domain)).1 }) ∧
    (∀ d err, Finding.queryError d err ∉ (checkLame ex q).findings) ∧
    Clean World.start.seen ∧
    Clean (processName ex expected world w).1.seen ∧
    ((processName ex expected world w).2.2 = .ret none ∨
      (processName ex expected world w).2.2 = .blocks) ∧
    Clean (worker ex expected ctxErr events world done).world.seen := by
  refine ⟨queryNSParallel_eq ex domain servers,
    (queryNSParallel_eq ex domain []).trans rfl,
    fun s hs => resultsMap_key ex domain servers s hs,
    fun e he => mem_resultsMap ex domain servers e he,
    checkLame_no_queryError ex q,
    fun _ _ h => by simp [World.start, Cache.New] at h,
    (processName_clean ex expected world w hclean).1,
    (processName_clean ex expected world w hclean).2,
    worker_clean ex expected ctxErr events world done hclean⟩

/-- Witness for C15: in the network `unionNet` the server s3 fails at each of its three
attempts; the group is returned all the same, with the error in the result of s3 alone;
and the task "example.com" handled on the new cache in the network `lameNet` leaves no
error in the cache. -/
theorem queryNSParallel_never_fails_witness :
    queryNSParallel unionNet "example.com" ["s1", "s2", "s3"] = .ok unionExample ∧
      Clean (processName lameNet [] World.start
        { Name := "example.com", Lame := false, Problems := 0 }).1.seen :=
  ⟨((queryNSParallel_never_fails unionNet "example.com" ["s1", "s2", "s3"] unionExample []
      World.start { Name := "example.com", Lame := false, Problems := 0 } JobError.Canceled [] []
      (fun _ _ h => by simp [World.start, Cache.New] at h)).1).trans
      (congrArg Except.ok (by decide)),
   (queryNSParallel_never_fails lameNet "example.com" [] unionExample []
      World.start { Name := "example.com", Lame := false, Problems := 0 } JobError.Canceled [] []
      (fun _ _ h => by simp [World.start, Cache.New] at h)).2.2.2.2.2.2.1⟩

end BrokenDNS
